import Mathlib

/-!
# Verification of the rankhaus comparison-driven merge-sort ranking engine

Shallow embedding of `rankhaus/src/strategy/merge.rs` (the `MergeStrategy`
implementation of the `RankStrategy` trait), together with the parts of the
surrounding crate it depends on (`Id`, `Item`, `Error`, `RankResult`), and
proofs of the specification claims about it.

Conventions of the embedding:
* Rust `&mut self` methods become functions `MergeStrategy → α × MergeStrategy`
  (result paired with the updated receiver).
* The `HashMap<(String, String), String>` comparison ledger is modelled as an
  association list with insert-or-replace-in-place semantics; two ledgers are
  equal as Lean values exactly when the corresponding maps built by the same
  insertion histories coincide.
* `serde_json` snapshots of `MergeState` are modelled by the `MergeState`
  value itself (serde round-trips the struct).
-/

namespace Rankhaus

/-- `Id` from `id.rs`: a wrapper around a string; `to_string`/`as_str` expose
the underlying string. -/
structure Id where
  str : String
deriving DecidableEq, Repr

/-- `Item` from `item.rs` (the `created` timestamp is irrelevant to the engine
and omitted; `compare` reads only `id`). -/
structure Item where
  id : Id
  value : String
deriving DecidableEq, Repr

/-- The error type from `error.rs`; only the `Other` constructor is ever
produced by the merge strategy. -/
inductive Error where
  | Other (msg : String)
deriving DecidableEq, Repr

/-- `RankResult` from `strategy.rs` (ratings are unused by the merge engine;
the `HashMap<Id, f64>` is modelled as an opaque unit since `MergeStrategy`
always returns `None` there). -/
structure RankResult where
  order : Option (List Id)
  ratings : Option Unit
deriving DecidableEq, Repr

/-- Lexicographic comparison of character lists by code point. -/
def strLtGo : List Char → List Char → Bool
  | [], [] => false
  | [], _ :: _ => true
  | _ :: _, [] => false
  | c :: cs, d :: ds =>
    if c.toNat < d.toNat then true
    else if d.toNat < c.toNat then false
    else strLtGo cs ds

/-- Rust's `String` ordering (`Ord for String`, lexicographic on UTF-8 bytes):
on UTF-8 encodings byte-lexicographic order coincides with code-point
lexicographic order, which is what we compute, character by character. -/
def strLt (a b : String) : Bool := strLtGo a.data b.data

instance {ε α : Type} [DecidableEq ε] [DecidableEq α] :
    DecidableEq (Except ε α) := fun x y =>
  match x, y with
  | .ok a, .ok b =>
    if h : a = b then isTrue (by rw [h]) else
      isFalse (fun hh => h (by injection hh))
  | .error a, .error b =>
    if h : a = b then isTrue (by rw [h]) else
      isFalse (fun hh => h (by injection hh))
  | .ok _, .error _ => isFalse (fun hh => by injection hh)
  | .error _, .ok _ => isFalse (fun hh => by injection hh)

/-- The comparison ledger `HashMap<(String, String), String>`: canonical pair
key ↦ recorded winner string, as an association list. -/
abbrev Ledger := List ((String × String) × String)

/-- Map lookup (`HashMap::get`). -/
def Ledger.get : Ledger → (String × String) → Option String
  | [], _ => none
  | (k', v) :: rest, k => if k' = k then some v else Ledger.get rest k

/-- Map insert (`HashMap::insert`): replace the binding in place if the key is
present, append otherwise. -/
def Ledger.insert : Ledger → (String × String) → String → Ledger
  | [], k, v => [(k, v)]
  | (k', v') :: rest, k, v =>
    if k' = k then (k, v) :: rest else (k', v') :: Ledger.insert rest k v

/-- `MergeOp` from `merge.rs`. -/
structure MergeOp where
  left : List Id
  right : List Id
  left_idx : Nat
  right_idx : Nat
  result : List Id
  left_source : Option Nat
  right_source : Option Nat
deriving DecidableEq, Repr

/-- `MergeState` from `merge.rs`. -/
structure MergeState where
  merge_stack : List MergeOp
  sorted : List Id
  completed : Bool
deriving DecidableEq, Repr

/-- `MergeStrategy` from `merge.rs`. -/
structure MergeStrategy where
  items : List Id
  comparisons : Ledger
  state : MergeState
deriving DecidableEq, Repr

/-- Whether a merge operation's cursors have both reached the end of their
inputs (the completion test used throughout `process_merges`). -/
def MergeOp.isDone (op : MergeOp) : Bool :=
  op.left_idx = op.left.length && op.right_idx = op.right.length

namespace MergeStrategy

/-- `MergeStrategy::get_comparison_key` / `make_comparison_key` (identical
bodies): canonicalize the unordered pair by sorting string representations. -/
def get_comparison_key (a b : Id) : String × String :=
  if strLt a.str b.str then (a.str, b.str) else (b.str, a.str)

/-- `MergeStrategy::get_winner`: resolve a pair against the ledger; a stored
winner string equal to `a`'s representation selects `a`, anything else
selects `b`. -/
def get_winner (ledger : Ledger) (a b : Id) : Option Id :=
  (ledger.get (get_comparison_key a b)).map fun winner =>
    if winner = a.str then a else b

/-- One level of `initialize_merge_sort`'s bottom-up construction: pair up
adjacent runs left to right, pushing a `MergeOp` per pair onto the stack and
carrying an odd trailing run forward unchanged.  Each run travels with the
stack index of the operation that produces it (`sublist_sources`). -/
def pairOp (s₁ s₂ : List Id × Option Nat) : MergeOp :=
  { left := s₁.1, right := s₂.1, left_idx := 0, right_idx := 0,
    result := [], left_source := s₁.2, right_source := s₂.2 }

def buildLevel (stack : List MergeOp) (subs : List (List Id × Option Nat)) :
    List MergeOp × List (List Id × Option Nat) :=
  match subs with
  | [] => (stack, [])
  | [s] => (stack, [s])
  | s₁ :: s₂ :: rest =>
    let op : MergeOp := pairOp s₁ s₂
    let opIdx := stack.length
    let (stack', subs') := buildLevel (stack ++ [op]) rest
    (stack', (s₁.1 ++ s₂.1, some opIdx) :: subs')

theorem buildLevel_length :
    ∀ (stack : List MergeOp) (subs : List (List Id × Option Nat)),
      (buildLevel stack subs).2.length = (subs.length + 1) / 2
  | _, [] => by simp [buildLevel]
  | _, [_] => by simp [buildLevel]
  | stack, s₁ :: s₂ :: rest => by
    have ih := buildLevel_length (stack ++ [pairOp s₁ s₂]) rest
    simp only [buildLevel, List.length_cons]
    omega

/-- The `while sublists.len() > 1` loop of `initialize_merge_sort`, with
explicit fuel for structural recursion.  Each iteration with more than one run
left at least halves the number of runs (`buildLevel_length`), so any fuel of
at least `subs.length` reaches the fixpoint. -/
def buildLevelsGo : Nat → List MergeOp → List (List Id × Option Nat) →
    List MergeOp
  | 0, stack, _ => stack
  | fuel + 1, stack, subs =>
    if subs.length ≤ 1 then stack
    else
      let p := buildLevel stack subs
      buildLevelsGo fuel p.1 p.2

/-- The `while sublists.len() > 1` loop of `initialize_merge_sort`. -/
def buildLevels (stack : List MergeOp) (subs : List (List Id × Option Nat)) :
    List MergeOp :=
  buildLevelsGo subs.length stack subs

/-- `MergeStrategy::initialize_merge_sort`: start from singleton runs and
build merge operations level by level. -/
def init_merge_sort (items : List Id) : List MergeOp :=
  buildLevels [] (items.map fun id => ([id], none))

/-- `MergeStrategy::new`. -/
def new (items : List Id) : MergeStrategy :=
  if items.isEmpty then
    { items := items, comparisons := [],
      state := { merge_stack := [], sorted := [], completed := true } }
  else if items.length = 1 then
    { items := items, comparisons := [],
      state := { merge_stack := [], sorted := items, completed := true } }
  else
    { items := items, comparisons := [],
      state := { merge_stack := init_merge_sort items, sorted := [],
                 completed := false } }

/-- The body of the first pass of `process_merges` for a single index:
substitute a completed source operation's `result` for the placeholder input
of operation `idx`, provided that operation has not yet started, and clear the
back-reference.  The source indices are read from the operation before either
side is updated, exactly as the Rust body snapshots `(left_source,
right_source)` first.  (Indexing with `getElem?` is total; for every stack
built by `new`, source indices are in range, where Rust would panic
otherwise.) -/
def substLeftAt (stack : List MergeOp) (idx si : Nat) : List MergeOp :=
  match stack[si]? with
  | none => stack
  | some src =>
    if src.left_idx = src.left.length ∧ src.right_idx = src.right.length
        ∧ src.result ≠ [] then
      match stack[idx]? with
      | none => stack
      | some op =>
        if op.left_idx = 0 ∧ op.result = [] then
          stack.set idx { op with left := src.result, left_source := none }
        else stack
    else stack

def substRightAt (stack : List MergeOp) (idx si : Nat) : List MergeOp :=
  match stack[si]? with
  | none => stack
  | some src =>
    if src.left_idx = src.left.length ∧ src.right_idx = src.right.length
        ∧ src.result ≠ [] then
      match stack[idx]? with
      | none => stack
      | some op =>
        if op.right_idx = 0 ∧ op.result = [] then
          stack.set idx { op with right := src.result, right_source := none }
        else stack
    else stack

def substStep (stack : List MergeOp) (idx : Nat) : List MergeOp :=
  match stack[idx]? with
  | none => stack
  | some op₀ =>
    let stack₁ :=
      match op₀.left_source with
      | none => stack
      | some si => substLeftAt stack idx si
    match op₀.right_source with
    | none => stack₁
    | some si => substRightAt stack₁ idx si

/-- First pass of `process_merges`: run `substStep` for each index in order. -/
def substPass (stack : List MergeOp) : List MergeOp :=
  (List.range stack.length).foldl substStep stack

/-- The inner `while made_progress && …` loop of `process_merges`' second
pass, with explicit fuel for structural recursion: repeatedly consume the
comparison recorded for the current front pair, appending the winner to
`result` and advancing that side's cursor, until the ledger has no answer for
the front pair or one side is exhausted.  Each iteration advances one cursor,
so fuel `(|left| - left_idx) + (|right| - right_idx)` always suffices. -/
def consumeGo (ledger : Ledger) : Nat → MergeOp → MergeOp
  | 0, op => op
  | fuel + 1, op =>
    if _hl : op.left_idx < op.left.length then
      if _hr : op.right_idx < op.right.length then
        let left_item := op.left[op.left_idx]
        let right_item := op.right[op.right_idx]
        match ledger.get (get_comparison_key left_item right_item) with
        | none => op
        | some winner_str =>
          let winner := if winner_str = left_item.str then left_item else right_item
          if winner = left_item then
            consumeGo ledger fuel
              { op with result := op.result ++ [winner], left_idx := op.left_idx + 1 }
          else
            consumeGo ledger fuel
              { op with result := op.result ++ [winner], right_idx := op.right_idx + 1 }
      else op
    else op

def consumeLoop (ledger : Ledger) (op : MergeOp) : MergeOp :=
  consumeGo ledger
    ((op.left.length - op.left_idx) + (op.right.length - op.right_idx)) op

/-- The tail flush of `process_merges`' second pass: once one side is
exhausted, append the remainder of the other side to `result`. -/
def tailFlush (op : MergeOp) : MergeOp :=
  if op.left_idx = op.left.length then
    { op with result := op.result ++ op.right.drop op.right_idx,
              right_idx := op.right.length }
  else if op.right_idx = op.right.length then
    { op with result := op.result ++ op.left.drop op.left_idx,
              left_idx := op.left.length }
  else op

/-- Second pass of `process_merges` for a single operation: skipped entirely
(including the completion check) if the operation still depends on a pending
source; otherwise advance via the consume loop and tail flush.  Returns the
updated operation and whether it ended with both cursors at the end (its
membership in `completed_ops`). -/
def advanceOp (ledger : Ledger) (op : MergeOp) : MergeOp × Bool :=
  if op.left_source.isSome || op.right_source.isSome then
    (op, false)
  else
    let op' := tailFlush (consumeLoop ledger op)
    (op', op'.isDone)

/-- The effect of `MergeStrategy::process_merges` on `self.state` (the method
reads `self.comparisons` and mutates only `self.state`). -/
def process_merges_state (ledger : Ledger) (st : MergeState) : MergeState :=
  let stack₁ := substPass st.merge_stack
  let processed := stack₁.map (advanceOp ledger)
  let stack₂ := processed.map Prod.fst
  let lastDone :=
    match processed.getLast? with
    | some (_, done) => done
    | none => false
  if stack₂ ≠ [] ∧ lastDone = true then
    match stack₂.getLast? with
    | some lastOp =>
      { merge_stack := stack₂, sorted := lastOp.result, completed := true }
    | none => { st with merge_stack := stack₂ }
  else
    { st with merge_stack := stack₂ }

/-- `MergeStrategy::process_merges`. -/
def process_merges (s : MergeStrategy) : MergeStrategy :=
  { s with state := process_merges_state s.comparisons s.state }

/-- `MergeStrategy::compare` (`RankStrategy` implementation): record the
comparison under the canonical key, then process merges.  No validation of
`winner_id` is performed; the call always returns `Ok(())`. -/
def compare (s : MergeStrategy) (a b : Item) (winner_id : Id) :
    Except Error Unit × MergeStrategy :=
  let key := get_comparison_key a.id b.id
  let s₁ := { s with comparisons := s.comparisons.insert key winner_id.str }
  (Except.ok (), process_merges s₁)

/-- The state-transformer part of `compare` (the returned value is always
`Ok(())`). -/
def compareStep (s : MergeStrategy) (a b : Item) (winner_id : Id) :
    MergeStrategy :=
  (compare s a b winner_id).2

/-- `MergeStrategy::finalize`: error while incomplete, otherwise the sorted
order (no ratings).  The receiver is returned unchanged (the Rust body never
writes through `&mut self`). -/
def finalize (s : MergeStrategy) : Except Error RankResult × MergeStrategy :=
  if !s.state.completed then
    (Except.error (Error.Other "Ranking not complete"), s)
  else
    (Except.ok { order := some s.state.sorted, ratings := none }, s)

/-- `MergeStrategy::serialize_state`: the snapshot is (the JSON encoding of)
`self.state` — and only `self.state`; the `comparisons` ledger is not part of
it. -/
def serialize_state (s : MergeStrategy) : MergeState :=
  s.state

/-- `MergeStrategy::deserialize_state`: replace `self.state` by the decoded
snapshot. -/
def deserialize_state (s : MergeStrategy) (snapshot : MergeState) :
    MergeStrategy :=
  { s with state := snapshot }

/-- `MergeStrategy::next_comparison`: scan the merge stack in order and
return the first front pair with both cursors in range and no ledger entry. -/
def next_comparison_aux (ledger : Ledger) : List MergeOp → Option (Id × Id)
  | [] => none
  | op :: rest =>
    match op.left[op.left_idx]?, op.right[op.right_idx]? with
    | some left_item, some right_item =>
      if (get_winner ledger left_item right_item).isNone then
        some (left_item, right_item)
      else
        next_comparison_aux ledger rest
    | _, _ => next_comparison_aux ledger rest

def next_comparison (s : MergeStrategy) : Option (Id × Id) :=
  next_comparison_aux s.comparisons s.state.merge_stack

/-- `MergeStrategy::is_complete`. -/
def is_complete (s : MergeStrategy) : Bool :=
  s.state.completed

end MergeStrategy

end Rankhaus

/-! ## Derived definitions used to state the specification claims

The engine reads only the `id` field of the `Item` arguments of `compare`
(definitionally, `compareStep s a b w` depends only on `a.id` and `b.id`), so
runs and journals are modelled over `Id` with the canonical item
`itemOf a = { id := a, value := a.str }` supplied to `compare`. -/

namespace Rankhaus

def itemOf (a : Id) : Item := { id := a, value := a.str }

namespace MergeStrategy

/-- One iteration of the caller loop from §4.1/§4.2 of the spec (and
`perform_ranking` in `rank.rs`): ask `next_comparison`; if a pair comes back,
answer it via `compare` with the winner chosen by `ans`. -/
def runStep (ans : Id → Id → Id) (s : MergeStrategy) : MergeStrategy :=
  match next_comparison s with
  | none => s
  | some (a, b) => compareStep s (itemOf a) (itemOf b) (ans a b)

/-- `n` iterations of the caller loop. -/
def runN (ans : Id → Id → Id) : Nat → MergeStrategy → MergeStrategy
  | 0, s => s
  | n + 1, s => runN ans n (runStep ans s)

/-- The pairs returned by `next_comparison` over (at most) `n` iterations of
the caller loop, in order. -/
def runTrace (ans : Id → Id → Id) : Nat → MergeStrategy → List (Id × Id)
  | 0, _ => []
  | n + 1, s =>
    match next_comparison s with
    | none => []
    | some (a, b) =>
      (a, b) :: runTrace ans n (compareStep s (itemOf a) (itemOf b) (ans a b))

/-- The journal recorded by the caller loop (`Session::add_comparison` is
called with exactly the arguments of each `compare` call, in order): asked
pair together with the chosen winner. -/
def runJournal (ans : Id → Id → Id) : Nat → MergeStrategy → List (Id × Id × Id)
  | 0, _ => []
  | n + 1, s =>
    match next_comparison s with
    | none => []
    | some (a, b) =>
      (a, b, ans a b) ::
        runJournal ans n (compareStep s (itemOf a) (itemOf b) (ans a b))

/-- Replay (`resume` in `rank.rs`): call `compare` once per journaled
comparison, in order, with the recorded winner. -/
def replay (s : MergeStrategy) (j : List (Id × Id × Id)) : MergeStrategy :=
  j.foldl (fun t e => compareStep t (itemOf e.1) (itemOf e.2.1) e.2.2) s

/-- The winner function induced by a boolean preference relation. -/
def ansOf (better : Id → Id → Bool) (a b : Id) : Id :=
  if better a b then a else b

/-- Apply a sequence of `compare` calls (item pair and declared winner each)
to an engine. -/
def applyCalls (s : MergeStrategy) (calls : List (Item × Item × Id)) :
    MergeStrategy :=
  calls.foldl (fun t c => compareStep t c.1 c.2.1 c.2.2) s

/-- An engine state reachable from `new items` by an arbitrary sequence of
`compare` calls (with arbitrary item pairs and winners, not only pairs
suggested by `next_comparison`). -/
def ReachableFrom (items : List Id) (s : MergeStrategy) : Prop :=
  ∃ calls : List (Item × Item × Id), s = applyCalls (new items) calls

end MergeStrategy

/-- Per-operation structural invariant maintained by the engine: input runs
are nonempty, cursors stay within bounds, the accumulated output has exactly
one element per consumed cursor position, and an operation still waiting on a
source has not started. -/
def OpInv (op : MergeOp) : Prop :=
  op.left ≠ [] ∧ op.right ≠ []
  ∧ op.left_idx ≤ op.left.length ∧ op.right_idx ≤ op.right.length
  ∧ op.result.length = op.left_idx + op.right_idx
  ∧ ((op.left_source.isSome ∨ op.right_source.isSome) →
      op.left_idx = 0 ∧ op.right_idx = 0 ∧ op.result = [])

def StackInv (stack : List MergeOp) : Prop := ∀ op ∈ stack, OpInv op

/-- If the engine is complete, either the stack is empty (0/1-item engines)
or the designated root operation (the last one) is done and `sorted` holds
its result. -/
def RootClause (st : MergeState) : Prop :=
  st.completed = true →
    st.merge_stack = [] ∨
    ∃ lastOp, st.merge_stack.getLast? = some lastOp
      ∧ lastOp.isDone = true ∧ st.sorted = lastOp.result

/-- Engine-level structural invariant: every stacked operation satisfies
`OpInv`, and a completed engine satisfies the root clause. -/
def EngineInv (s : MergeStrategy) : Prop :=
  StackInv s.state.merge_stack ∧ RootClause s.state

/-- Reachability along (left/right) source links in a fixed merge stack:
`InitReach stack j k` holds when operation `k` is reachable from operation
`j` by following source back-references. -/
inductive InitReach (stack : List MergeOp) : Nat → Nat → Prop where
  | refl (j : Nat) : InitReach stack j j
  | left {j i k : Nat} {op : MergeOp} (hop : stack[j]? = some op)
      (hsrc : op.left_source = some i) (h : InitReach stack i k) :
      InitReach stack j k
  | right {j i k : Nat} {op : MergeOp} (hop : stack[j]? = some op)
      (hsrc : op.right_source = some i) (h : InitReach stack i k) :
      InitReach stack j k

/-- Every operation in `stack` is reachable from a root in `E` or from a
source index recorded in the current `subs` frontier. -/
def CoveredE (E : Nat → Prop) (stack : List MergeOp)
    (subs : List (List Id × Option Nat)) : Prop :=
  ∀ k, k < stack.length → ∃ j,
    (E j ∨ ∃ p ∈ subs, p.2 = some j) ∧ InitReach stack j k

/-- Every operation is reachable from the designated root operation (the
last one on the stack). -/
def RootedAll (stack : List MergeOp) : Prop :=
  ∀ k, k < stack.length → InitReach stack (stack.length - 1) k

/-- Dynamic relation between the current merge stack and the stack built by
initialization: each operation keeps its original source link until it is
substituted, and a cleared link certifies that the original source operation
is done. -/
def SourcesClause (init stack : List MergeOp) : Prop :=
  stack.length = init.length ∧
  ∀ (j : Nat) (op iop : MergeOp), stack[j]? = some op → init[j]? = some iop →
    ((op.left_source = iop.left_source) ∨
      (op.left_source = none ∧ ∃ i, iop.left_source = some i ∧
        ∃ opi, stack[i]? = some opi ∧ opi.isDone = true))
    ∧ ((op.right_source = iop.right_source) ∨
      (op.right_source = none ∧ ∃ i, iop.right_source = some i ∧
        ∃ opi, stack[i]? = some opi ∧ opi.isDone = true))

namespace MergeStrategy

/-- Deterministic two-way merge by a boolean preference: take the left head
exactly when it is preferred over the right head.  This is the merge the
consume loop of `process_merges` performs when every ledger answer agrees
with `better` (the recorded winner of a front pair `(l, r)` is `l` iff
`better l r`). -/
def mergeR (better : Id → Id → Bool) : List Id → List Id → List Id
  | [], ys => ys
  | x :: xs, [] => x :: xs
  | x :: xs, y :: ys =>
    if better x y then x :: mergeR better xs (y :: ys)
    else y :: mergeR better (x :: xs) ys
termination_by l r => l.length + r.length

/-- The loop invariant of the consume loop: the accumulated `result` followed
by the merge of the unconsumed suffixes equals the merge of the full runs. -/
def MergeEq (better : Id → Id → Bool) (op : MergeOp) : Prop :=
  op.result ++ mergeR better (op.left.drop op.left_idx)
      (op.right.drop op.right_idx)
    = mergeR better op.left op.right

/-- Relation between one input run of a live operation and the corresponding
run of the operation as built by initialization: the run is still the
original one (placeholder or genuine), with its source link untouched, or the
source link was cleared by the first pass of `process_merges` and the run is
the result of the (now finished) source operation. -/
def SideOk (stack : List MergeOp) (cur : List Id) (csrc isrc : Option Nat)
    (iside : List Id) : Prop :=
  (csrc = isrc ∧ cur = iside) ∨
  (csrc = none ∧ ∃ i, isrc = some i ∧ ∃ src, stack[i]? = some src ∧
    src.isDone = true ∧ cur = src.result)

/-- Dynamic relation between the current merge stack and the stack built by
initialization, holding throughout every run driven by answers consistent
with `better`. -/
def DynStack (better : Id → Id → Bool) (init stack : List MergeOp) : Prop :=
  stack.length = init.length ∧
  ∀ (j : Nat) (op iop : MergeOp), stack[j]? = some op → init[j]? = some iop →
    SideOk stack op.left op.left_source iop.left_source iop.left
    ∧ SideOk stack op.right op.right_source iop.right_source iop.right
    ∧ MergeEq better op

/-- Every ledger entry is the `better`-consistent answer for a cross pair of
some operation: an element of its (initial) left run against an element of
its (initial) right run, stored under the canonical key. -/
def LedgerOk (better : Id → Id → Bool) (init : List MergeOp) (L : Ledger) :
    Prop :=
  ∀ (k : String × String) (v : String), L.get k = some v →
    ∃ (j : Nat) (iop : MergeOp) (x y : Id), init[j]? = some iop ∧
    x ∈ iop.left ∧ y ∈ iop.right ∧ k = get_comparison_key x y
    ∧ v = (if better x y then x else y).str

/-- No cross pair of an operation that still waits on a source has an entry
in the ledger (in particular its current front pair is always unknown). -/
def PendingFresh (init stack : List MergeOp) (L : Ledger) : Prop :=
  ∀ (j : Nat) (op iop : MergeOp), stack[j]? = some op → init[j]? = some iop →
    (op.left_source.isSome = true ∨ op.right_source.isSome = true) →
    ∀ x y, x ∈ iop.left → y ∈ iop.right →
      L.get (get_comparison_key x y) = none

/-- Post-`process_merges` shape of every source-free operation: either done,
or both cursors are strictly inside their runs and the current front pair has
no ledger entry (the consume loop stopped on a miss). -/
def Stalled (L : Ledger) (stack : List MergeOp) : Prop :=
  ∀ op ∈ stack, op.left_source = none → op.right_source = none →
    op.isDone = true ∨
    (op.left_idx < op.left.length ∧ op.right_idx < op.right.length ∧
      ∀ l r, op.left[op.left_idx]? = some l →
        op.right[op.right_idx]? = some r →
        L.get (get_comparison_key l r) = none)

/-- The ledger never holds two entries under the same canonical key. -/
def LedgerKeysNodup (L : Ledger) : Prop := (L.map Prod.fst).Nodup

/-- While the engine is incomplete, the designated root operation (the last
one) exists and is not done. -/
def LastLive (st : MergeState) : Prop :=
  st.completed = false →
    ∃ lastOp, st.merge_stack.getLast? = some lastOp ∧ lastOp.isDone = false

/-- Well-formedness of one entry of the `sublists` frontier during
initialization: a nonempty run; a run without a source is an original
singleton; a run with a source is exactly the concatenation of the two input
runs of the (already stacked) source operation. -/
def SubEntryOk (stack : List MergeOp) (p : List Id × Option Nat) : Prop :=
  p.1 ≠ [] ∧
  (p.2 = none → ∃ x, p.1 = [x]) ∧
  (∀ i, p.2 = some i → i < stack.length ∧
    ∃ src, stack[i]? = some src ∧ p.1 = src.left ++ src.right)

/-- Static shape of an operation as built by initialization: untouched,
nonempty runs forming a contiguous segment of the item list, source links
pointing strictly below with the run equal to the source's segment, and
sourceless runs being original singletons. -/
def StaticOp (items : List Id) (stack : List MergeOp) (j : Nat)
    (op : MergeOp) : Prop :=
  List.IsInfix (op.left ++ op.right) items
  ∧ op.left_idx = 0 ∧ op.right_idx = 0 ∧ op.result = []
  ∧ op.left ≠ [] ∧ op.right ≠ []
  ∧ (op.left_source = none → ∃ x, op.left = [x])
  ∧ (op.right_source = none → ∃ x, op.right = [x])
  ∧ (∀ i, op.left_source = some i → i < j ∧
      ∃ src, stack[i]? = some src ∧ op.left = src.left ++ src.right)
  ∧ (∀ i, op.right_source = some i → i < j ∧
      ∃ src, stack[i]? = some src ∧ op.right = src.left ++ src.right)

def StaticWf (items : List Id) (stack : List MergeOp) : Prop :=
  ∀ (j : Nat) (op : MergeOp), stack[j]? = some op → StaticOp items stack j op

/-- The full invariant of every engine state reached from `new items` by the
question/answer protocol with answers consistent with `better` (and by
repeated `compare` calls whose pair already has its recorded answer in the
ledger). -/
def VInv (items : List Id) (better : Id → Id → Bool) (s : MergeStrategy) :
    Prop :=
  s.items = items
  ∧ StackInv s.state.merge_stack
  ∧ RootClause s.state
  ∧ DynStack better (init_merge_sort items) s.state.merge_stack
  ∧ LedgerOk better (init_merge_sort items) s.comparisons
  ∧ PendingFresh (init_merge_sort items) s.state.merge_stack s.comparisons
  ∧ Stalled s.comparisons s.state.merge_stack
  ∧ LedgerKeysNodup s.comparisons
  ∧ LastLive s.state

end MergeStrategy

/-! Concrete four-item fixture used by the counterexamples. -/

namespace Fixture

def idA : Id := ⟨"a"⟩
def idB : Id := ⟨"b"⟩
def idC : Id := ⟨"c"⟩
def idD : Id := ⟨"d"⟩
def itA : Item := ⟨idA, "a"⟩
def itB : Item := ⟨idB, "b"⟩
def itC : Item := ⟨idC, "c"⟩
def itD : Item := ⟨idD, "d"⟩
def fourIds : List Id := [idA, idB, idC, idD]

open MergeStrategy

/-- A state reached from `new fourIds` by three `compare` calls (the pairs
`(a,c)`, `(a,b)`, `(c,d)` with winners `a`, `a`, `c`). -/
def stuck : MergeStrategy :=
  compareStep (compareStep (compareStep (new fourIds) itA itC idA) itA itB idA)
    itC itD idC

/-- A state reached from `new fourIds` by a valid question/answer run:
the pairs asked by `next_comparison` are `(a,b)`, `(c,d)`, `(a,c)` and the
answers are `a`, `d`, `a` (consistent with the total order `d > a > c > b`). -/
def midRun : MergeStrategy :=
  compareStep (compareStep (compareStep (new fourIds) itA itB idA) itC itD idD)
    itA itC idA

/-- `midRun` restored from its own snapshot onto a freshly constructed engine
over the same item list. -/
def midRunRestored : MergeStrategy :=
  deserialize_state (new fourIds) (serialize_state midRun)

/-- The journal of the first two comparisons of the `midRun` run. -/
def midJournal : List (Id × Id × Id) :=
  [(idA, idB, idA), (idC, idD, idD)]

/-- A concrete strict total order on identifiers (alphabetical by
representation), used to instantiate the run-level theorems. -/
def alpha : Id → Id → Bool := fun u v => strLt u.str v.str

end Fixture

end Rankhaus

/-! ## Basic lemmas about the ledger and the engine operations -/

namespace Rankhaus

theorem Ledger.get_insert_self (l : Ledger) (k : String × String) (v : String) :
    (l.insert k v).get k = some v := by
  induction l with
  | nil => simp [Ledger.insert, Ledger.get]
  | cons kv rest ih =>
    by_cases h : kv.1 = k
    · simp [Ledger.insert, Ledger.get, h]
    · simp [Ledger.insert, Ledger.get, h, ih]

theorem Ledger.get_insert_ne (l : Ledger) (k k' : String × String) (v : String)
    (h : k' ≠ k) : (l.insert k v).get k' = l.get k' := by
  have hne : k ≠ k' := fun hh => h hh.symm
  induction l with
  | nil => simp [Ledger.insert, Ledger.get, hne]
  | cons kv rest ih =>
    obtain ⟨k₁, v₁⟩ := kv
    by_cases hk : k₁ = k
    · subst hk
      simp [Ledger.insert, Ledger.get, hne]
    · simp [Ledger.insert, Ledger.get, hk, ih]

theorem Ledger.insert_of_get_eq (l : Ledger) (k : String × String) (v : String)
    (h : l.get k = some v) : l.insert k v = l := by
  induction l with
  | nil => simp [Ledger.get] at h
  | cons kv rest ih =>
    obtain ⟨k₁, v₁⟩ := kv
    by_cases hk : k₁ = k
    · subst hk
      simp only [Ledger.get, if_pos rfl] at h
      injection h with h
      simp [Ledger.insert, h]
    · simp only [Ledger.get, if_neg hk] at h
      simp [Ledger.insert, hk, ih h]

theorem Ledger.get_eq_none_of_insert (l : Ledger) (k k' : String × String)
    (v : String) (h : (l.insert k v).get k' = none) : l.get k' = none := by
  by_cases hk : k' = k
  · subst hk
    rw [Ledger.get_insert_self] at h
    exact absurd h (by simp)
  · rwa [Ledger.get_insert_ne _ _ _ _ hk] at h

namespace MergeStrategy

theorem compare_fst (s : MergeStrategy) (a b : Item) (w : Id) :
    (compare s a b w).1 = Except.ok () := rfl

theorem new_comparisons (items : List Id) : (new items).comparisons = [] := by
  unfold new
  split_ifs <;> rfl

theorem new_items (items : List Id) : (new items).items = items := by
  unfold new
  split_ifs <;> rfl

theorem process_merges_items (s : MergeStrategy) :
    (process_merges s).items = s.items := rfl

theorem process_merges_comparisons (s : MergeStrategy) :
    (process_merges s).comparisons = s.comparisons := rfl

theorem process_merges_state_completed_mono (ledger : Ledger) (st : MergeState)
    (h : st.completed = true) :
    (process_merges_state ledger st).completed = true := by
  simp only [process_merges_state]
  split
  · split <;> simp [h]
  · simp [h]

theorem compareStep_items (s : MergeStrategy) (a b : Item) (w : Id) :
    (compareStep s a b w).items = s.items := by
  unfold compareStep compare
  simp [process_merges_items]

theorem compareStep_comparisons (s : MergeStrategy) (a b : Item) (w : Id) :
    (compareStep s a b w).comparisons
      = s.comparisons.insert (get_comparison_key a.id b.id) w.str := by
  unfold compareStep compare
  simp [process_merges_comparisons]

/-- `process_merges` never resets the completion flag. -/
theorem process_merges_completed_mono (s : MergeStrategy)
    (h : s.state.completed = true) :
    (process_merges s).state.completed = true :=
  process_merges_state_completed_mono s.comparisons s.state h

end MergeStrategy

end Rankhaus

/-! ## Claim C4 — winner validation in `compare` -/

namespace Rankhaus

open MergeStrategy

/-- C4 counterexample: `compare` with a winner equal to neither supplied
item's id does not fail and does not leave the engine unchanged: on a
two-item engine it returns `Ok(())`, records the bogus winner in the ledger,
and completes the engine with the *second* item ranked first. -/
theorem compare_invalid_winner_accepted_cx :
    (compare (new [Fixture.idA, Fixture.idB]) Fixture.itA Fixture.itB ⟨"zzz"⟩).1
      = Except.ok ()
    ∧ (compare (new [Fixture.idA, Fixture.idB]) Fixture.itA Fixture.itB ⟨"zzz"⟩).2
        ≠ new [Fixture.idA, Fixture.idB]
    ∧ (finalize ((compare (new [Fixture.idA, Fixture.idB]) Fixture.itA Fixture.itB
          ⟨"zzz"⟩).2)).1
        = Except.ok { order := some [Fixture.idB, Fixture.idA], ratings := none } := by
  refine ⟨rfl, ?_, by decide⟩
  decide

/-- C4 (amended): `compare` performs no validation of the winner argument: it
always returns `Ok(())` and unconditionally records the supplied winner string
under the canonical key of the pair (a winner matching neither item is later
resolved as a win for the second item of the pair, cf. `get_winner`). -/
theorem compare_records_unconditionally (s : MergeStrategy) (a b : Item) (w : Id) :
    (compare s a b w).1 = Except.ok ()
    ∧ (compare s a b w).2.comparisons
        = s.comparisons.insert (get_comparison_key a.id b.id) w.str :=
  ⟨rfl, compareStep_comparisons s a b w⟩

/-! ## Claim C8 — `finalize` errors exactly while incomplete -/

/-- C8: `finalize` fails (with the `NotComplete` condition, surfaced as
`Error::Other "Ranking not complete"`) iff `is_complete()` is false; when
complete it returns `Ok` with the engine's order (best to worst) and no
ratings; and the call never changes the engine state. -/
theorem finalize_iff_complete (s : MergeStrategy) :
    ((finalize s).1 = Except.error (Error.Other "Ranking not complete")
      ↔ is_complete s = false)
    ∧ (is_complete s = true →
        (finalize s).1 = Except.ok { order := some s.state.sorted, ratings := none })
    ∧ (finalize s).2 = s := by
  unfold finalize is_complete
  cases h : s.state.completed <;> simp [h]

/-- Witness for C8 at concrete inputs: a complete engine (one item) yields its
order, an incomplete two-item engine yields the error, and both leave the
receiver unchanged. -/
theorem finalize_iff_complete_witness :
    (finalize (new [Fixture.idA])).1
      = Except.ok { order := some [Fixture.idA], ratings := none }
    ∧ (finalize (new [Fixture.idA, Fixture.idB])).1
      = Except.error (Error.Other "Ranking not complete") :=
  ⟨(finalize_iff_complete (new [Fixture.idA])).2.1 (by decide),
   (finalize_iff_complete (new [Fixture.idA, Fixture.idB])).1.mpr (by decide)⟩

/-! ## Claim C3 — snapshots do not contain the ledger -/

/-- C3 counterexample: `Fixture.midRun` is reached by a valid run (questions
asked by `next_comparison`, answers consistent with the total order
`d > a > c > b`).  Restoring its snapshot onto a fresh engine yields an engine
whose ledger differs (it is empty), and after one further identical `compare`
(the pair `(a,d)` both engines ask next), the restored engine asks `(a,c)` —
a pair the original run had already asked and answered — while the original
asks `(b,c)`. -/
theorem snapshot_omits_ledger_cx :
    Fixture.midRunRestored.comparisons ≠ Fixture.midRun.comparisons
    ∧ next_comparison Fixture.midRunRestored = next_comparison Fixture.midRun
    ∧ next_comparison
        (compareStep Fixture.midRunRestored Fixture.itA Fixture.itD Fixture.idD)
      ≠ next_comparison
        (compareStep Fixture.midRun Fixture.itA Fixture.itD Fixture.idD) := by
  refine ⟨by decide, by decide, by decide⟩

/-- C3 (amended): the snapshot produced by `serialize_state` is exactly
`MergeState` (merge stack, sorted result, completion flag) and omits the
comparison ledger; feeding it to `deserialize_state` on a freshly constructed
engine reproduces the merge state (hence `is_complete`) but leaves the
restored engine's ledger empty, so its subsequent behavior can diverge from
the original's. -/
theorem snapshot_restores_state_without_ledger (s : MergeStrategy)
    (items' : List Id) :
    (deserialize_state (new items') (serialize_state s)).state = s.state
    ∧ (deserialize_state (new items') (serialize_state s)).comparisons = []
    ∧ is_complete (deserialize_state (new items') (serialize_state s))
        = is_complete s :=
  ⟨rfl, new_comparisons items', rfl⟩

/-! ## Claim C6 — an incomplete engine need not offer a next question -/

/-- C6 counterexample: a state reachable from `MergeStrategy::new` on four
items by three `compare` calls (pairs `(a,c)`, `(a,b)`, `(c,d)`, winners `a`,
`a`, `c` — not pairs suggested by `next_comparison`) that is not complete and
for which `next_comparison()` returns `None`. -/
theorem incomplete_engine_no_question_cx :
    ReachableFrom Fixture.fourIds Fixture.stuck
    ∧ is_complete Fixture.stuck = false
    ∧ next_comparison Fixture.stuck = none := by
  refine ⟨⟨[(Fixture.itA, Fixture.itC, Fixture.idA),
            (Fixture.itA, Fixture.itB, Fixture.idA),
            (Fixture.itC, Fixture.itD, Fixture.idC)], rfl⟩, by decide, by decide⟩

end Rankhaus

/-! ## Claim C9 — boundary cases of `MergeStrategy::new` -/

namespace Rankhaus

theorem Id.eq_iff_str (v w : Id) : v = w ↔ v.str = w.str := by
  cases v; cases w; simp

namespace MergeStrategy

/-- On two items, `new` builds a single merge operation over the two
singleton runs. -/
theorem new_two_eq (a b : Id) :
    new [a, b] =
      { items := [a, b], comparisons := [],
        state := { merge_stack :=
                     [{ left := [a], right := [b], left_idx := 0, right_idx := 0,
                        result := [], left_source := none, right_source := none }],
                   sorted := [], completed := false } } := rfl

/-- Evaluation of `compare` on the fresh two-item engine: the engine becomes
complete with the declared winner first (a winner string matching the first
item selects it, anything else selects the second). -/
theorem compareStep_new_two (a b : Item) (w : Id) (hab : a.id ≠ b.id) :
    compareStep (new [a.id, b.id]) a b w =
      if w.str = a.id.str then
        { items := [a.id, b.id],
          comparisons := [(get_comparison_key a.id b.id, w.str)],
          state := { merge_stack :=
                       [{ left := [a.id], right := [b.id], left_idx := 1,
                          right_idx := 1, result := [a.id, b.id],
                          left_source := none, right_source := none }],
                     sorted := [a.id, b.id], completed := true } }
      else
        { items := [a.id, b.id],
          comparisons := [(get_comparison_key a.id b.id, w.str)],
          state := { merge_stack :=
                       [{ left := [a.id], right := [b.id], left_idx := 1,
                          right_idx := 1, result := [b.id, a.id],
                          left_source := none, right_source := none }],
                     sorted := [b.id, a.id], completed := true } } := by
  have hba : ¬ b.id = a.id := fun hh => hab hh.symm
  rw [compareStep, compare, new_two_eq]
  by_cases hcase : w.str = a.id.str
  · simp [process_merges, process_merges_state, substPass, substStep, advanceOp,
      consumeLoop, consumeGo, tailFlush, MergeOp.isDone, Ledger.insert,
      Ledger.get, hcase, hba, Id.eq_iff_str, List.range_succ]
  · simp [process_merges, process_merges_state, substPass, substStep, advanceOp,
      consumeLoop, consumeGo, tailFlush, MergeOp.isDone, Ledger.insert,
      Ledger.get, hcase, hba, Id.eq_iff_str, List.range_succ]

/-- C9: boundary cases.  Zero items: immediately complete with the empty
order.  One item: immediately complete with the single-element order.  Two
items: exactly one comparison is required — `next_comparison` returns the
pair, after one `compare` with a declared winner from the pair the engine is
complete, offers no further question, and the finalized order lists the
declared winner first. -/
theorem boundary_cases (a b : Item) (w : Id) (_hw : w = a.id ∨ w = b.id)
    (hab : a.id ≠ b.id) :
    (is_complete (new ([] : List Id)) = true
      ∧ (finalize (new ([] : List Id))).1
          = Except.ok { order := some [], ratings := none })
    ∧ (is_complete (new [a.id]) = true
      ∧ (finalize (new [a.id])).1
          = Except.ok { order := some [a.id], ratings := none })
    ∧ (is_complete (new [a.id, b.id]) = false
      ∧ next_comparison (new [a.id, b.id]) = some (a.id, b.id)
      ∧ is_complete (compareStep (new [a.id, b.id]) a b w) = true
      ∧ next_comparison (compareStep (new [a.id, b.id]) a b w) = none
      ∧ (finalize (compareStep (new [a.id, b.id]) a b w)).1
          = Except.ok { order := some (if w = a.id then [a.id, b.id]
                                       else [b.id, a.id]),
                        ratings := none }) := by
  refine ⟨⟨rfl, rfl⟩, ⟨rfl, rfl⟩, rfl, rfl, ?_, ?_, ?_⟩
  · rw [compareStep_new_two a b w hab]
    split_ifs <;> rfl
  · rw [compareStep_new_two a b w hab]
    split_ifs <;> simp [next_comparison, next_comparison_aux]
  · rw [compareStep_new_two a b w hab]
    by_cases hcase : w.str = a.id.str
    · have hwa : w = a.id := (Id.eq_iff_str w a.id).mpr hcase
      simp [hcase, hwa, finalize]
    · have hwa : ¬ w = a.id := fun hh => hcase ((Id.eq_iff_str w a.id).mp hh)
      simp [hcase, hwa, finalize]

/-- Witness for C9 at concrete inputs (items `a`, `b`, winner `a`). -/
theorem boundary_cases_witness :
    is_complete (compareStep (new [Fixture.itA.id, Fixture.itB.id])
      Fixture.itA Fixture.itB Fixture.idA) = true
    ∧ (finalize (compareStep (new [Fixture.itA.id, Fixture.itB.id])
        Fixture.itA Fixture.itB Fixture.idA)).1
      = Except.ok { order := some (if Fixture.idA = Fixture.itA.id
                                   then [Fixture.itA.id, Fixture.itB.id]
                                   else [Fixture.itB.id, Fixture.itA.id]),
                    ratings := none } :=
  ⟨(boundary_cases Fixture.itA Fixture.itB Fixture.idA (Or.inl rfl)
      (by decide)).2.2.2.2.1,
   (boundary_cases Fixture.itA Fixture.itB Fixture.idA (Or.inl rfl)
      (by decide)).2.2.2.2.2.2⟩

end MergeStrategy

end Rankhaus

/-! ## Claim C5 — no unordered pair is ever asked twice -/

namespace Rankhaus

namespace MergeStrategy

theorem itemOf_id (a : Id) : (itemOf a).id = a := rfl

/-- A pair returned by the `next_comparison` scan has no entry under its
canonical key in the ledger. -/
theorem next_comparison_aux_unknown (ledger : Ledger) (stack : List MergeOp)
    (a b : Id) (h : next_comparison_aux ledger stack = some (a, b)) :
    ledger.get (get_comparison_key a b) = none := by
  induction stack with
  | nil =>
    rw [next_comparison_aux.eq_def] at h
    exact absurd h (by simp)
  | cons op rest ih =>
    rw [next_comparison_aux.eq_def] at h
    rcases hl : op.left[op.left_idx]? with _ | l <;>
      rcases hr : op.right[op.right_idx]? with _ | r <;>
        simp only [hl, hr] at h
    · exact ih h
    · exact ih h
    · exact ih h
    · by_cases hn : (get_winner ledger l r).isNone
      · rw [if_pos hn] at h
        injection h with h
        have hla : l = a := congrArg Prod.fst h
        have hrb : r = b := congrArg Prod.snd h
        subst hla
        subst hrb
        simpa [get_winner, Option.isNone_iff_eq_none] using hn
      · rw [if_neg hn] at h
        exact ih h

/-- A pair returned by `next_comparison` has no entry under its canonical key
in the ledger. -/
theorem next_comparison_asks_unknown (s : MergeStrategy) (a b : Id)
    (h : next_comparison s = some (a, b)) :
    s.comparisons.get (get_comparison_key a b) = none :=
  next_comparison_aux_unknown s.comparisons s.state.merge_stack a b h

/-- The canonical keys of all pairs asked during a question/answer run
starting from `s` are fresh with respect to `s`'s ledger, and pairwise
distinct. -/
theorem runTrace_keys_fresh (ans : Id → Id → Id) :
    ∀ (n : Nat) (s : MergeStrategy),
      ((runTrace ans n s).map fun p => get_comparison_key p.1 p.2).Nodup
      ∧ ∀ p ∈ runTrace ans n s,
          s.comparisons.get (get_comparison_key p.1 p.2) = none
  | 0, s => by simp [runTrace]
  | n + 1, s => by
    rw [runTrace]
    cases h : next_comparison s with
    | none => simp
    | some ab =>
      obtain ⟨a, b⟩ := ab
      obtain ⟨ihN, ihF⟩ :=
        runTrace_keys_fresh ans n (compareStep s (itemOf a) (itemOf b) (ans a b))
      have hfresh : s.comparisons.get (get_comparison_key a b) = none :=
        next_comparison_asks_unknown s a b h
      have hne : ∀ p ∈ runTrace ans n
          (compareStep s (itemOf a) (itemOf b) (ans a b)),
          get_comparison_key p.1 p.2 ≠ get_comparison_key a b := by
        intro p hp hk
        have := ihF p hp
        rw [compareStep_comparisons, hk] at this
        simp only [itemOf_id] at this
        rw [Ledger.get_insert_self] at this
        exact Option.noConfusion this
      refine ⟨?_, ?_⟩
      · simp only [List.map_cons, List.nodup_cons]
        exact ⟨fun hmem => by
          obtain ⟨p, hp, hkey⟩ := List.mem_map.mp hmem
          exact hne p hp hkey, ihN⟩
      · intro p hp
        rcases List.mem_cons.mp hp with hp | hp
        · subst hp
          exact hfresh
        · have := ihF p hp
          rw [compareStep_comparisons] at this
          simp only [itemOf_id] at this
          exact Ledger.get_eq_none_of_insert _ _ _ _ this

/-- C5: over any full question/answer run from `MergeStrategy::new` (each
pair returned by `next_comparison` answered once by `compare` before asking
again, winners arbitrary), no unordered pair is returned twice: the asked
pairs, keyed by the order-independent canonical ledger key, are pairwise
distinct. -/
theorem no_repeated_questions (items : List Id) (ans : Id → Id → Id) (n : Nat) :
    ((runTrace ans n (new items)).map fun p => get_comparison_key p.1 p.2).Nodup :=
  (runTrace_keys_fresh ans n (new items)).1

end MergeStrategy

end Rankhaus

/-! ## Structural invariants of reachable engine states -/

namespace Rankhaus

namespace MergeStrategy

/-- The consume loop never changes the input runs or the source links. -/
theorem consumeGo_fields (ledger : Ledger) :
    ∀ (fuel : Nat) (op : MergeOp),
      (consumeGo ledger fuel op).left = op.left
      ∧ (consumeGo ledger fuel op).right = op.right
      ∧ (consumeGo ledger fuel op).left_source = op.left_source
      ∧ (consumeGo ledger fuel op).right_source = op.right_source
  | 0, op => ⟨rfl, rfl, rfl, rfl⟩
  | fuel + 1, op => by
    simp only [consumeGo]
    repeat' split
    all_goals
      first
        | exact ⟨rfl, rfl, rfl, rfl⟩
        | exact consumeGo_fields ledger fuel _

/-- The consume loop keeps cursors in bounds and keeps the output length
equal to the number of consumed positions. -/
theorem consumeGo_measure (ledger : Ledger) :
    ∀ (fuel : Nat) (op : MergeOp),
      op.left_idx ≤ op.left.length → op.right_idx ≤ op.right.length →
      op.result.length = op.left_idx + op.right_idx →
      (consumeGo ledger fuel op).left_idx ≤ op.left.length
      ∧ (consumeGo ledger fuel op).right_idx ≤ op.right.length
      ∧ (consumeGo ledger fuel op).result.length
          = (consumeGo ledger fuel op).left_idx + (consumeGo ledger fuel op).right_idx
  | 0, op => fun h₁ h₂ h₃ => ⟨h₁, h₂, h₃⟩
  | fuel + 1, op => by
    intro h₁ h₂ h₃
    simp only [consumeGo]
    repeat' split
    all_goals
      first
        | exact ⟨h₁, h₂, h₃⟩
        | refine consumeGo_measure ledger fuel _ ?_ ?_ ?_ <;> simp <;> omega

theorem tailFlush_fields (op : MergeOp) :
    (tailFlush op).left = op.left
    ∧ (tailFlush op).right = op.right
    ∧ (tailFlush op).left_source = op.left_source
    ∧ (tailFlush op).right_source = op.right_source := by
  unfold tailFlush
  split_ifs <;> exact ⟨rfl, rfl, rfl, rfl⟩

theorem tailFlush_measure (op : MergeOp)
    (h₁ : op.left_idx ≤ op.left.length) (h₂ : op.right_idx ≤ op.right.length)
    (h₃ : op.result.length = op.left_idx + op.right_idx) :
    (tailFlush op).left_idx ≤ op.left.length
    ∧ (tailFlush op).right_idx ≤ op.right.length
    ∧ (tailFlush op).result.length
        = (tailFlush op).left_idx + (tailFlush op).right_idx := by
  unfold tailFlush
  split_ifs <;> simp_all [List.length_drop] <;> omega

/-- On an operation whose cursors are already at the ends, the tail flush is
the identity. -/
theorem tailFlush_of_done (op : MergeOp)
    (hl : op.left_idx = op.left.length) (hr : op.right_idx = op.right.length) :
    tailFlush op = op := by
  obtain ⟨left, right, left_idx, right_idx, result, ls, rs⟩ := op
  simp only at hl hr
  subst hl
  subst hr
  simp [tailFlush, List.drop_length]

/-- On an operation whose cursors are already at the ends, the consume loop
is the identity. -/
theorem consumeGo_of_done (ledger : Ledger) (fuel : Nat) (op : MergeOp)
    (hl : op.left_idx = op.left.length) :
    consumeGo ledger fuel op = op := by
  cases fuel with
  | zero => rfl
  | succ n =>
    simp only [consumeGo]
    rw [dif_neg]
    omega

/-- A source-free operation whose cursors are at the ends passes through the
second pass of `process_merges` unchanged and is reported complete. -/
theorem advanceOp_of_done (ledger : Ledger) (op : MergeOp)
    (hls : op.left_source = none) (hrs : op.right_source = none)
    (hl : op.left_idx = op.left.length) (hr : op.right_idx = op.right.length) :
    advanceOp ledger op = (op, true) := by
  unfold advanceOp consumeLoop
  rw [if_neg (by simp [hls, hrs])]
  rw [consumeGo_of_done ledger _ op hl, tailFlush_of_done op hl hr]
  simp [MergeOp.isDone, hl, hr]

/-- An operation still waiting on a source passes through the second pass
unchanged and is not reported complete. -/
theorem advanceOp_of_pending (ledger : Ledger) (op : MergeOp)
    (h : op.left_source.isSome ∨ op.right_source.isSome) :
    advanceOp ledger op = (op, false) := by
  unfold advanceOp
  rw [if_pos]
  rcases h with h | h <;> simp [h]

/-- The second pass preserves the per-operation invariant. -/
theorem advanceOp_opinv (ledger : Ledger) (op : MergeOp) (h : OpInv op) :
    OpInv (advanceOp ledger op).1 := by
  obtain ⟨hl, hr, hli, hri, hlen, hsrc⟩ := h
  unfold advanceOp consumeLoop
  split
  · exact ⟨hl, hr, hli, hri, hlen, hsrc⟩
  next hpend =>
    simp only
    obtain ⟨e₁, e₂, e₃, e₄⟩ := consumeGo_fields ledger
      (op.left.length - op.left_idx + (op.right.length - op.right_idx)) op
    obtain ⟨m₁, m₂, m₃⟩ := consumeGo_measure ledger
      (op.left.length - op.left_idx + (op.right.length - op.right_idx)) op
      hli hri hlen
    have m₁' : (consumeGo ledger
        (op.left.length - op.left_idx + (op.right.length - op.right_idx))
          op).left_idx
        ≤ (consumeGo ledger
            (op.left.length - op.left_idx + (op.right.length - op.right_idx))
              op).left.length := by
      rw [e₁]; exact m₁
    have m₂' : (consumeGo ledger
        (op.left.length - op.left_idx + (op.right.length - op.right_idx))
          op).right_idx
        ≤ (consumeGo ledger
            (op.left.length - op.left_idx + (op.right.length - op.right_idx))
              op).right.length := by
      rw [e₂]; exact m₂
    obtain ⟨f₁, f₂, f₃, f₄⟩ := tailFlush_fields
      (consumeGo ledger
        (op.left.length - op.left_idx + (op.right.length - op.right_idx)) op)
    obtain ⟨n₁, n₂, n₃⟩ := tailFlush_measure
      (consumeGo ledger
        (op.left.length - op.left_idx + (op.right.length - op.right_idx)) op)
      m₁' m₂' m₃
    refine ⟨?_, ?_, ?_, ?_, n₃, ?_⟩
    · rw [f₁, e₁]; exact hl
    · rw [f₂, e₂]; exact hr
    · rw [f₁]; exact n₁
    · rw [f₂]; exact n₂
    · intro hsome
      exfalso
      apply hpend
      rw [f₃, e₃, f₄, e₄] at hsome
      simpa using hsome

end MergeStrategy

end Rankhaus

namespace Rankhaus

namespace MergeStrategy

theorem mem_of_getElem_some {α : Type} {l : List α} {i : Nat} {a : α}
    (h : l[i]? = some a) : a ∈ l := by
  obtain ⟨hlt, rfl⟩ := List.getElem?_eq_some.mp h
  exact List.getElem_mem hlt

theorem stackinv_set (stack : List MergeOp) (idx : Nat) (op : MergeOp)
    (h : StackInv stack) (hop : OpInv op) : StackInv (stack.set idx op) := by
  intro x hx
  rcases List.mem_or_eq_of_mem_set hx with hx | rfl
  · exact h x hx
  · exact hop

/-- The first pass's substitutions preserve the stack invariant: a
substituted input is a completed source's nonempty result, and the target has
not started. -/
theorem substLeftAt_stackinv (stack : List MergeOp) (idx si : Nat)
    (h : StackInv stack) : StackInv (substLeftAt stack idx si) := by
  unfold substLeftAt
  split
  · exact h
  next src hsrc =>
    split
    · next hdone =>
      split
      · exact h
      next op hop =>
        split
        · next hfresh =>
          refine stackinv_set stack idx _ h ?_
          obtain ⟨hl, hr, hli, hri, hlen, hsome⟩ := h op (mem_of_getElem_some hop)
          have hri0 : op.right_idx = 0 := by
            rw [hfresh.2] at hlen
            simp at hlen
            omega
          exact ⟨hdone.2.2, hr, by simp [hfresh.1], by simp [hri0],
                 by simp [hfresh.1, hfresh.2, hri0], fun _ => ⟨hfresh.1, hri0, hfresh.2⟩⟩
        · exact h
    · exact h

theorem substRightAt_stackinv (stack : List MergeOp) (idx si : Nat)
    (h : StackInv stack) : StackInv (substRightAt stack idx si) := by
  unfold substRightAt
  split
  · exact h
  next src hsrc =>
    split
    · next hdone =>
      split
      · exact h
      next op hop =>
        split
        · next hfresh =>
          refine stackinv_set stack idx _ h ?_
          obtain ⟨hl, hr, hli, hri, hlen, hsome⟩ := h op (mem_of_getElem_some hop)
          have hli0 : op.left_idx = 0 := by
            rw [hfresh.2] at hlen
            simp at hlen
            omega
          exact ⟨hl, hdone.2.2, by simp [hli0], by simp [hfresh.1],
                 by simp [hfresh.1, hfresh.2, hli0], fun _ => ⟨hli0, hfresh.1, hfresh.2⟩⟩
        · exact h
    · exact h

theorem substStep_stackinv (stack : List MergeOp) (idx : Nat)
    (h : StackInv stack) : StackInv (substStep stack idx) := by
  unfold substStep
  split
  · exact h
  · split <;> split
    · exact h
    · exact substRightAt_stackinv _ idx _ h
    · exact substLeftAt_stackinv _ idx _ h
    · exact substRightAt_stackinv _ idx _ (substLeftAt_stackinv _ idx _ h)

theorem substPass_stackinv (stack : List MergeOp) (h : StackInv stack) :
    StackInv (substPass stack) := by
  unfold substPass
  generalize List.range stack.length = idxs
  induction idxs generalizing stack with
  | nil => exact h
  | cons i rest ih => exact ih _ (substStep_stackinv stack i h)

end MergeStrategy

end Rankhaus

namespace Rankhaus

namespace MergeStrategy

/-- The first pass never writes to a slot holding an operation that has
already accumulated output (substitution requires an empty `result`). -/
theorem substLeftAt_getElem_preserve (stack : List MergeOp) (idx si j : Nat)
    (op : MergeOp) (hj : stack[j]? = some op) (hres : op.result ≠ []) :
    (substLeftAt stack idx si)[j]? = some op := by
  unfold substLeftAt
  split
  · exact hj
  · split
    · split
      · exact hj
      next tgt htgt =>
        split
        · next hfresh =>
          by_cases hij : idx = j
          · subst hij
            rw [htgt] at hj
            injection hj with hj
            subst hj
            exact absurd hfresh.2 hres
          · rw [List.getElem?_set_ne hij]
            exact hj
        · exact hj
    · exact hj

theorem substRightAt_getElem_preserve (stack : List MergeOp) (idx si j : Nat)
    (op : MergeOp) (hj : stack[j]? = some op) (hres : op.result ≠ []) :
    (substRightAt stack idx si)[j]? = some op := by
  unfold substRightAt
  split
  · exact hj
  · split
    · split
      · exact hj
      next tgt htgt =>
        split
        · next hfresh =>
          by_cases hij : idx = j
          · subst hij
            rw [htgt] at hj
            injection hj with hj
            subst hj
            exact absurd hfresh.2 hres
          · rw [List.getElem?_set_ne hij]
            exact hj
        · exact hj
    · exact hj

theorem substStep_getElem_preserve (stack : List MergeOp) (idx j : Nat)
    (op : MergeOp) (hj : stack[j]? = some op) (hres : op.result ≠ []) :
    (substStep stack idx)[j]? = some op := by
  unfold substStep
  split
  · exact hj
  · split <;> split
    · exact hj
    · exact substRightAt_getElem_preserve _ idx _ j op hj hres
    · exact substLeftAt_getElem_preserve _ idx _ j op hj hres
    · exact substRightAt_getElem_preserve _ idx _ j op
        (substLeftAt_getElem_preserve _ idx _ j op hj hres) hres

theorem substLeftAt_length (stack : List MergeOp) (idx si : Nat) :
    (substLeftAt stack idx si).length = stack.length := by
  unfold substLeftAt
  repeat' split
  all_goals simp

theorem substRightAt_length (stack : List MergeOp) (idx si : Nat) :
    (substRightAt stack idx si).length = stack.length := by
  unfold substRightAt
  repeat' split
  all_goals simp

theorem substStep_length (stack : List MergeOp) (idx : Nat) :
    (substStep stack idx).length = stack.length := by
  unfold substStep
  split
  · rfl
  · split <;> split
    · rfl
    · exact substRightAt_length _ idx _
    · exact substLeftAt_length _ idx _
    · exact (substRightAt_length _ idx _).trans (substLeftAt_length _ idx _)

theorem substPass_length (stack : List MergeOp) :
    (substPass stack).length = stack.length := by
  unfold substPass
  generalize List.range stack.length = idxs
  induction idxs generalizing stack with
  | nil => rfl
  | cons i rest ih => exact (ih _).trans (substStep_length stack i)

theorem substPass_getElem_preserve (stack : List MergeOp) (j : Nat)
    (op : MergeOp) (hj : stack[j]? = some op) (hres : op.result ≠ []) :
    (substPass stack)[j]? = some op := by
  unfold substPass
  generalize List.range stack.length = idxs
  induction idxs generalizing stack with
  | nil => exact hj
  | cons i rest ih =>
    exact ih _ (substStep_getElem_preserve stack i j op hj hres)

end MergeStrategy

end Rankhaus

namespace Rankhaus

namespace MergeStrategy

/-- Operations created by one pairing level satisfy the structural invariant,
and all produced runs stay nonempty. -/
theorem buildLevel_stackinv :
    ∀ (stack : List MergeOp) (subs : List (List Id × Option Nat)),
      StackInv stack → (∀ p ∈ subs, p.1 ≠ ([] : List Id)) →
      StackInv (buildLevel stack subs).1
      ∧ ∀ p ∈ (buildLevel stack subs).2, p.1 ≠ ([] : List Id)
  | stack, [], h, _ => ⟨h, by simp [buildLevel]⟩
  | stack, [s], h, hne => ⟨h, by
      simpa [buildLevel] using hne s (by simp)⟩
  | stack, s₁ :: s₂ :: rest, h, hne => by
    have hs₁ : s₁.1 ≠ [] := hne s₁ (by simp)
    have hs₂ : s₂.1 ≠ [] := hne s₂ (by simp)
    have hop : OpInv (pairOp s₁ s₂) := by
      refine ⟨hs₁, hs₂, by simp [pairOp], by simp [pairOp], by simp [pairOp], ?_⟩
      intro _
      exact ⟨rfl, rfl, rfl⟩
    have hstack' : StackInv (stack ++ [pairOp s₁ s₂]) := by
      intro x hx
      rcases List.mem_append.mp hx with hx | hx
      · exact h x hx
      · rw [List.mem_singleton.mp hx]
        exact hop
    have ih := buildLevel_stackinv (stack ++ [pairOp s₁ s₂]) rest hstack'
      (fun p hp => hne p (by simp [hp]))
    refine ⟨?_, ?_⟩
    · simpa [buildLevel] using ih.1
    · simp only [buildLevel]
      intro p hp
      rcases List.mem_cons.mp hp with hp | hp
      · subst hp
        simp only [ne_eq, List.append_eq_nil]
        rintro ⟨h1, _⟩
        exact hs₁ h1
      · exact ih.2 p hp

theorem buildLevelsGo_stackinv :
    ∀ (fuel : Nat) (stack : List MergeOp) (subs : List (List Id × Option Nat)),
      StackInv stack → (∀ p ∈ subs, p.1 ≠ ([] : List Id)) →
      StackInv (buildLevelsGo fuel stack subs)
  | 0, _, _, h, _ => h
  | fuel + 1, stack, subs, h, hne => by
    rw [buildLevelsGo]
    split
    · exact h
    · obtain ⟨h₁, h₂⟩ := buildLevel_stackinv stack subs h hne
      exact buildLevelsGo_stackinv fuel _ _ h₁ h₂

theorem init_merge_sort_stackinv (items : List Id) :
    StackInv (init_merge_sort items) := by
  unfold init_merge_sort buildLevels
  refine buildLevelsGo_stackinv _ _ _ (fun x hx => absurd hx (by simp)) ?_
  intro p hp
  obtain ⟨x, _, rfl⟩ := List.mem_map.mp hp
  simp

theorem engineinv_new (items : List Id) : EngineInv (new items) := by
  unfold new EngineInv RootClause
  split_ifs with h₁ h₂
  · refine ⟨fun x hx => absurd hx (by simp), fun _ => Or.inl rfl⟩
  · refine ⟨fun x hx => absurd hx (by simp), fun _ => Or.inl rfl⟩
  · refine ⟨init_merge_sort_stackinv items, fun hcontra => ?_⟩
    exact absurd hcontra (by simp)

end MergeStrategy

end Rankhaus

namespace Rankhaus

namespace MergeStrategy

theorem advanceOp_snd_done (ledger : Ledger) (op : MergeOp)
    (h : (advanceOp ledger op).2 = true) :
    (advanceOp ledger op).1.isDone = true := by
  unfold advanceOp at h ⊢
  by_cases hp : (op.left_source.isSome || op.right_source.isSome) = true
  · rw [if_pos hp] at h
    exact absurd h (by simp)
  · rw [if_neg hp] at h ⊢
    exact h

/-- Characterization of `process_merges` on the state: either the last
operation after the two passes is reported done — then the state completes
with its result — or the state keeps `sorted` and `completed` and only the
stack is replaced by the processed one. -/
theorem process_state_char (ledger : Ledger) (st : MergeState) :
    (∃ op, ((substPass st.merge_stack).map (advanceOp ledger)).getLast?
        = some (op, true)
      ∧ process_merges_state ledger st
        = { merge_stack :=
              ((substPass st.merge_stack).map (advanceOp ledger)).map Prod.fst,
            sorted := op.result, completed := true })
    ∨ process_merges_state ledger st
        = { st with merge_stack :=
              ((substPass st.merge_stack).map (advanceOp ledger)).map Prod.fst } := by
  cases hp : ((substPass st.merge_stack).map (advanceOp ledger)).getLast? with
  | none =>
    have hnil : (substPass st.merge_stack).map (advanceOp ledger) = [] :=
      List.getLast?_eq_none_iff.mp hp
    refine Or.inr ?_
    simp only [process_merges_state, hp]
    rw [if_neg]
    simp [hnil]
  | some pr =>
    obtain ⟨op, done⟩ := pr
    cases done with
    | false =>
      refine Or.inr ?_
      simp only [process_merges_state, hp]
      rw [if_neg]
      simp
    | true =>
      refine Or.inl ⟨op, rfl, ?_⟩
      have hne : ((substPass st.merge_stack).map (advanceOp ledger)).map Prod.fst
          ≠ [] := by
        intro hcontra
        rw [List.map_eq_nil_iff] at hcontra
        rw [hcontra] at hp
        simp at hp
      have hlast2 : (((substPass st.merge_stack).map (advanceOp ledger)).map
          Prod.fst).getLast? = some op := by
        rw [List.getLast?_map, hp]
        rfl
      simp only [process_merges_state, hp]
      rw [if_pos ⟨hne, by trivial⟩, hlast2]

/-- `process_merges` preserves the stack invariant. -/
theorem process_state_stackinv (ledger : Ledger) (st : MergeState)
    (h : StackInv st.merge_stack) :
    StackInv (process_merges_state ledger st).merge_stack := by
  have hmem : StackInv
      (((substPass st.merge_stack).map (advanceOp ledger)).map Prod.fst) := by
    intro x hx
    simp only [List.map_map, List.mem_map, Function.comp_apply] at hx
    obtain ⟨op, hop, rfl⟩ := hx
    exact advanceOp_opinv ledger op (substPass_stackinv _ h op hop)
  rcases process_state_char ledger st with ⟨op, _, heq⟩ | heq <;>
    rw [heq] <;> exact hmem

/-- `process_merges` preserves the root clause. -/
theorem process_state_rootclause (ledger : Ledger) (st : MergeState)
    (_h : StackInv st.merge_stack) (_hr : RootClause st) :
    RootClause (process_merges_state ledger st) := by
  rcases process_state_char ledger st with ⟨op, hlast, heq⟩ | heq
  · intro _
    rw [heq]
    refine Or.inr ⟨op, ?_, ?_, rfl⟩
    · simp only
      rw [List.getLast?_map, hlast]
      rfl
    · have h2 : (advanceOp ledger ((substPass st.merge_stack).getLast?.getD op)).2
          = true := by
        rw [List.getLast?_map] at hlast
        cases hq : (substPass st.merge_stack).getLast? with
        | none => rw [hq] at hlast; simp at hlast
        | some q =>
          rw [hq] at hlast
          simp only [Option.map_some'] at hlast
          injection hlast with hlast
          simp [hq, hlast]
      have h1 : (advanceOp ledger ((substPass st.merge_stack).getLast?.getD op)).1
          = op := by
        rw [List.getLast?_map] at hlast
        cases hq : (substPass st.merge_stack).getLast? with
        | none => rw [hq] at hlast; simp at hlast
        | some q =>
          rw [hq] at hlast
          simp only [Option.map_some'] at hlast
          injection hlast with hlast
          simp [hq, hlast]
      rw [← h1]
      exact advanceOp_snd_done ledger _ h2
  · intro hc
    rw [heq] at hc
    simp only at hc
    rcases _hr hc with hempty | ⟨lastOp, hgl, hdone, hsort⟩
    · refine Or.inl ?_
      rw [heq]
      simp only [hempty]
      simp [substPass]
    · -- the root was already done before this call: it survives both passes
      -- unchanged, so the processed stack's last element is still `lastOp`.
      have hmem : lastOp ∈ st.merge_stack := List.mem_of_mem_getLast? hgl
      obtain ⟨hl, hr, hli, hri, hlen, hsrc⟩ := _h lastOp hmem
      have hdl : lastOp.left_idx = lastOp.left.length := by
        simp [MergeOp.isDone] at hdone
        exact hdone.1
      have hdr : lastOp.right_idx = lastOp.right.length := by
        simp [MergeOp.isDone] at hdone
        exact hdone.2
      have hres : lastOp.result ≠ [] := by
        intro hcontra
        rw [hcontra] at hlen
        simp at hlen
        have : lastOp.left.length = 0 := by omega
        exact hl (List.eq_nil_of_length_eq_zero this)
      have hnosrc : lastOp.left_source = none ∧ lastOp.right_source = none := by
        by_contra hcontra
        have : lastOp.left_source.isSome = true ∨ lastOp.right_source.isSome
            = true := by
          rcases Option.eq_none_or_eq_some lastOp.left_source with h | ⟨v, h⟩
          · rcases Option.eq_none_or_eq_some lastOp.right_source with h' | ⟨v', h'⟩
            · exact absurd ⟨h, h'⟩ hcontra
            · exact Or.inr (by simp [h'])
          · exact Or.inl (by simp [h])
        obtain ⟨hz, _, _⟩ := hsrc this
        rw [hz] at hdl
        exact hl (List.eq_nil_of_length_eq_zero hdl.symm)
      have hidx : st.merge_stack[st.merge_stack.length - 1]? = some lastOp := by
        rw [← List.getLast?_eq_getElem?]
        exact hgl
      have hidx₁ : (substPass st.merge_stack)[st.merge_stack.length - 1]?
          = some lastOp :=
        substPass_getElem_preserve st.merge_stack _ lastOp hidx hres
      have hgl₁ : (substPass st.merge_stack).getLast? = some lastOp := by
        rw [List.getLast?_eq_getElem?, substPass_length]
        exact hidx₁
      have hadv : advanceOp ledger lastOp = (lastOp, true) :=
        advanceOp_of_done ledger lastOp hnosrc.1 hnosrc.2 hdl hdr
      -- but then the characterization's second branch is impossible:
      -- `process_state_char` would have produced the first branch.  Derive
      -- the clause directly instead.
      refine Or.inr ⟨lastOp, ?_, hdone, ?_⟩
      · rw [heq]
        simp only
        rw [List.getLast?_map, List.getLast?_map, hgl₁]
        simp [hadv]
      · rw [heq]
        exact hsort

/-- On a completed engine, `process_merges` keeps `sorted` and `completed`. -/
theorem process_state_of_completed (ledger : Ledger) (st : MergeState)
    (h : StackInv st.merge_stack) (hr : RootClause st)
    (hc : st.completed = true) :
    (process_merges_state ledger st).sorted = st.sorted
    ∧ (process_merges_state ledger st).completed = true := by
  rcases hr hc with hempty | ⟨lastOp, hgl, hdone, hsort⟩
  · have hchar := process_state_char ledger st
    rcases hchar with ⟨op, hlast, heq⟩ | heq
    · rw [hempty] at hlast
      simp [substPass] at hlast
    · rw [heq]
      exact ⟨rfl, hc⟩
  · have hmem : lastOp ∈ st.merge_stack := List.mem_of_mem_getLast? hgl
    obtain ⟨hl, hr', hli, hri, hlen, hsrc⟩ := h lastOp hmem
    have hdl : lastOp.left_idx = lastOp.left.length := by
      simp [MergeOp.isDone] at hdone
      exact hdone.1
    have hdr : lastOp.right_idx = lastOp.right.length := by
      simp [MergeOp.isDone] at hdone
      exact hdone.2
    have hres : lastOp.result ≠ [] := by
      intro hcontra
      rw [hcontra] at hlen
      simp at hlen
      have : lastOp.left.length = 0 := by omega
      exact hl (List.eq_nil_of_length_eq_zero this)
    have hnosrc : lastOp.left_source = none ∧ lastOp.right_source = none := by
      by_contra hcontra
      have : lastOp.left_source.isSome = true ∨ lastOp.right_source.isSome
          = true := by
        rcases Option.eq_none_or_eq_some lastOp.left_source with h' | ⟨v, h'⟩
        · rcases Option.eq_none_or_eq_some lastOp.right_source with h'' | ⟨v', h''⟩
          · exact absurd ⟨h', h''⟩ hcontra
          · exact Or.inr (by simp [h''])
        · exact Or.inl (by simp [h'])
      obtain ⟨hz, _, _⟩ := hsrc this
      rw [hz] at hdl
      exact hl (List.eq_nil_of_length_eq_zero hdl.symm)
    have hidx : st.merge_stack[st.merge_stack.length - 1]? = some lastOp := by
      rw [← List.getLast?_eq_getElem?]
      exact hgl
    have hidx₁ : (substPass st.merge_stack)[st.merge_stack.length - 1]?
        = some lastOp :=
      substPass_getElem_preserve st.merge_stack _ lastOp hidx hres
    have hgl₁ : (substPass st.merge_stack).getLast? = some lastOp := by
      rw [List.getLast?_eq_getElem?, substPass_length]
      exact hidx₁
    have hadv : advanceOp ledger lastOp = (lastOp, true) :=
      advanceOp_of_done ledger lastOp hnosrc.1 hnosrc.2 hdl hdr
    have hlastp : ((substPass st.merge_stack).map (advanceOp ledger)).getLast?
        = some (lastOp, true) := by
      rw [List.getLast?_map, hgl₁]
      simp [hadv]
    rcases process_state_char ledger st with ⟨op, hlast, heq⟩ | heq
    · rw [hlastp] at hlast
      injection hlast with hlast
      have hop : op = lastOp := (congrArg Prod.fst hlast).symm
      subst hop
      rw [heq]
      exact ⟨hsort.symm, rfl⟩
    · -- impossible: the `if` condition held; but the second branch still
      -- keeps `sorted` and `completed` of a completed state, so conclude
      -- directly.
      rw [heq]
      exact ⟨rfl, hc⟩

end MergeStrategy

end Rankhaus

/-! ## Claim C10 — completion is stable and the result frozen -/

namespace Rankhaus

namespace MergeStrategy

theorem compareStep_state (s : MergeStrategy) (a b : Item) (w : Id) :
    (compareStep s a b w).state
      = process_merges_state
          (s.comparisons.insert (get_comparison_key a.id b.id) w.str)
          s.state := rfl

theorem engineinv_compareStep (s : MergeStrategy) (a b : Item) (w : Id)
    (h : EngineInv s) : EngineInv (compareStep s a b w) := by
  obtain ⟨h₁, h₂⟩ := h
  constructor
  · rw [compareStep_state]
    exact process_state_stackinv _ _ h₁
  · rw [compareStep_state]
    exact process_state_rootclause _ _ h₁ h₂

theorem engineinv_applyCalls (s : MergeStrategy)
    (calls : List (Item × Item × Id)) (h : EngineInv s) :
    EngineInv (applyCalls s calls) := by
  induction calls generalizing s with
  | nil => exact h
  | cons c rest ih =>
    exact ih _ (engineinv_compareStep s c.1 c.2.1 c.2.2 h)

theorem engineinv_of_reachable (items : List Id) (s : MergeStrategy)
    (h : ReachableFrom items s) : EngineInv s := by
  obtain ⟨calls, rfl⟩ := h
  exact engineinv_applyCalls _ calls (engineinv_new items)

/-- One further `compare` on a completed engine keeps it complete with the
same sorted order. -/
theorem compareStep_of_completed (s : MergeStrategy) (a b : Item) (w : Id)
    (h : EngineInv s) (hc : is_complete s = true) :
    is_complete (compareStep s a b w) = true
    ∧ (compareStep s a b w).state.sorted = s.state.sorted := by
  obtain ⟨h₁, h₂⟩ := h
  have := process_state_of_completed
    (s.comparisons.insert (get_comparison_key a.id b.id) w.str) s.state h₁ h₂ hc
  exact ⟨by rw [is_complete, compareStep_state]; exact this.2,
         by rw [compareStep_state]; exact this.1⟩

/-- C10: for every engine state reachable from `MergeStrategy::new` (by any
sequence of `compare` calls) in which `is_complete()` is true, any further
sequence of `compare` calls — with arbitrary item pairs and winners — leaves
`is_complete()` true and leaves the value returned by `finalize()`
unchanged. -/
theorem completion_stable (items : List Id) (s : MergeStrategy)
    (hreach : ReachableFrom items s) (hc : is_complete s = true)
    (calls : List (Item × Item × Id)) :
    is_complete (applyCalls s calls) = true
    ∧ (finalize (applyCalls s calls)).1 = (finalize s).1 := by
  have hinv : EngineInv s := engineinv_of_reachable items s hreach
  have key : ∀ (cs : List (Item × Item × Id)) (t : MergeStrategy),
      EngineInv t → is_complete t = true →
      is_complete (applyCalls t cs) = true
      ∧ (applyCalls t cs).state.sorted = t.state.sorted := by
    intro cs
    induction cs with
    | nil => exact fun t _ hct => ⟨hct, rfl⟩
    | cons c rest ih =>
      intro t ht hct
      have hstep := compareStep_of_completed t c.1 c.2.1 c.2.2 ht hct
      have hrec := ih (compareStep t c.1 c.2.1 c.2.2)
        (engineinv_compareStep t c.1 c.2.1 c.2.2 ht) hstep.1
      exact ⟨hrec.1, hrec.2.trans hstep.2⟩
  obtain ⟨hcomp, hsort⟩ := key calls s hinv hc
  refine ⟨hcomp, ?_⟩
  rw [is_complete] at hc hcomp
  simp [finalize, hc, hcomp, hsort]

/-- Witness for C10: a completed two-item engine, hit with a further
`compare` that even flips the recorded winner, stays complete with the same
finalized order. -/
theorem completion_stable_witness :
    is_complete (applyCalls
      (compareStep (new [Fixture.idA, Fixture.idB]) Fixture.itA Fixture.itB
        Fixture.idA)
      [(Fixture.itA, Fixture.itB, Fixture.idB)]) = true
    ∧ (finalize (applyCalls
        (compareStep (new [Fixture.idA, Fixture.idB]) Fixture.itA Fixture.itB
          Fixture.idA)
        [(Fixture.itA, Fixture.itB, Fixture.idB)])).1
      = (finalize (compareStep (new [Fixture.idA, Fixture.idB]) Fixture.itA
          Fixture.itB Fixture.idA)).1 :=
  completion_stable [Fixture.idA, Fixture.idB]
    (compareStep (new [Fixture.idA, Fixture.idB]) Fixture.itA Fixture.itB
      Fixture.idA)
    ⟨[(Fixture.itA, Fixture.itB, Fixture.idA)], rfl⟩ (by decide)
    [(Fixture.itA, Fixture.itB, Fixture.idB)]

end MergeStrategy

end Rankhaus

/-! ## The caller loop, journals and replay -/

namespace Rankhaus

namespace MergeStrategy

theorem runStep_of_none (ans : Id → Id → Id) (s : MergeStrategy)
    (h : next_comparison s = none) : runStep ans s = s := by
  unfold runStep
  rw [h]

theorem runN_of_none (ans : Id → Id → Id) (n : Nat) (s : MergeStrategy)
    (h : next_comparison s = none) : runN ans n s = s := by
  induction n with
  | zero => rfl
  | succ n ih =>
    rw [runN, runStep_of_none ans s h]
    exact ih

/-- Replaying the journal recorded by a run reproduces the run's final
engine state exactly (the engine is deterministic and `next_comparison` has
no side effects). -/
theorem replay_runJournal (ans : Id → Id → Id) :
    ∀ (n : Nat) (s : MergeStrategy),
      replay s (runJournal ans n s) = runN ans n s
  | 0, s => rfl
  | n + 1, s => by
    rw [runJournal, runN]
    cases h : next_comparison s with
    | none =>
      rw [runStep_of_none ans s h, runN_of_none ans n s h]
      rfl
    | some ab =>
      obtain ⟨a, b⟩ := ab
      rw [runStep, h]
      exact replay_runJournal ans n (compareStep s (itemOf a) (itemOf b) (ans a b))

theorem replay_append (s : MergeStrategy) (J₁ J₂ : List (Id × Id × Id)) :
    replay s (J₁ ++ J₂) = replay (replay s J₁) J₂ :=
  List.foldl_append _ _ _ _

theorem runJournal_pairs (ans : Id → Id → Id) :
    ∀ (n : Nat) (s : MergeStrategy),
      (runJournal ans n s).map (fun e => (e.1, e.2.1)) = runTrace ans n s
  | 0, _ => rfl
  | n + 1, s => by
    rw [runJournal, runTrace]
    cases h : next_comparison s with
    | none => rfl
    | some ab =>
      obtain ⟨a, b⟩ := ab
      simp only [List.map_cons]
      rw [runJournal_pairs ans n]

theorem replay_eq_applyCalls (s : MergeStrategy) (J : List (Id × Id × Id)) :
    replay s J
      = applyCalls s (J.map fun e => (itemOf e.1, itemOf e.2.1, e.2.2)) := by
  unfold replay applyCalls
  rw [List.foldl_map]

theorem replay_reachable (items : List Id) (J : List (Id × Id × Id)) :
    ReachableFrom items (replay (new items) J) :=
  ⟨J.map fun e => (itemOf e.1, itemOf e.2.1, e.2.2),
   replay_eq_applyCalls (new items) J⟩

theorem replay_get_preserve (k : String × String) :
    ∀ (J : List (Id × Id × Id)) (s : MergeStrategy),
      (∀ e ∈ J, get_comparison_key e.1 e.2.1 ≠ k) →
      (replay s J).comparisons.get k = s.comparisons.get k
  | [], _, _ => rfl
  | e₀ :: J, s, h => by
    have step : replay s (e₀ :: J)
        = replay (compareStep s (itemOf e₀.1) (itemOf e₀.2.1) e₀.2.2) J := rfl
    rw [step, replay_get_preserve k J _ (fun e he => h e (List.mem_cons_of_mem _ he)),
        compareStep_comparisons]
    simp only [itemOf_id]
    exact Ledger.get_insert_ne _ _ _ _ (h e₀ (List.mem_cons_self _ _)).symm

/-- After replaying a journal whose canonical keys are pairwise distinct,
every journaled comparison is recorded in the ledger with its journaled
winner. -/
theorem replay_records :
    ∀ (J : List (Id × Id × Id)) (s : MergeStrategy),
      ((J.map fun e => get_comparison_key e.1 e.2.1).Nodup) →
      ∀ e ∈ J,
        (replay s J).comparisons.get (get_comparison_key e.1 e.2.1)
          = some e.2.2.str
  | [], _, _, e, he => absurd he (by simp)
  | e₀ :: J, s, hnd, e, he => by
    have step : replay s (e₀ :: J)
        = replay (compareStep s (itemOf e₀.1) (itemOf e₀.2.1) e₀.2.2) J := rfl
    simp only [List.map_cons, List.nodup_cons] at hnd
    rcases List.mem_cons.mp he with rfl | he'
    · rw [step, replay_get_preserve _ J _ ?hne, compareStep_comparisons]
      · simp only [itemOf_id]
        exact Ledger.get_insert_self _ _ _
      case hne =>
        intro e' he' hk
        exact hnd.1 (hk ▸ List.mem_map_of_mem _ he')
    · exact step ▸ replay_records J _ hnd.2 e he'

theorem runJournal_keys_nodup (ans : Id → Id → Id) (n : Nat)
    (s : MergeStrategy) :
    ((runJournal ans n s).map fun e => get_comparison_key e.1 e.2.1).Nodup := by
  have : ((runJournal ans n s).map fun e => get_comparison_key e.1 e.2.1)
      = ((runJournal ans n s).map (fun e => (e.1, e.2.1))).map
          fun p => get_comparison_key p.1 p.2 := by
    rw [List.map_map]
    rfl
  rw [this, runJournal_pairs]
  exact (runTrace_keys_fresh ans n s).1

end MergeStrategy

end Rankhaus

/-! ## Root coverage of the initial merge stack -/

namespace Rankhaus

namespace MergeStrategy

theorem initReach_append (stack ext : List MergeOp) (j k : Nat)
    (h : InitReach stack j k) : InitReach (stack ++ ext) j k := by
  induction h with
  | refl j => exact .refl j
  | left hop hsrc _ ih =>
    refine .left ?_ hsrc ih
    rw [List.getElem?_append, if_pos (List.getElem?_eq_some.mp hop).1]
    exact hop
  | right hop hsrc _ ih =>
    refine .right ?_ hsrc ih
    rw [List.getElem?_append, if_pos (List.getElem?_eq_some.mp hop).1]
    exact hop

theorem buildLevel_cons_cons (stack : List MergeOp)
    (s₁ s₂ : List Id × Option Nat) (rest : List (List Id × Option Nat)) :
    buildLevel stack (s₁ :: s₂ :: rest)
      = ((buildLevel (stack ++ [pairOp s₁ s₂]) rest).1,
         (s₁.1 ++ s₂.1, some stack.length)
           :: (buildLevel (stack ++ [pairOp s₁ s₂]) rest).2) := rfl

theorem buildLevel_covered :
    ∀ (E : Nat → Prop) (stack : List MergeOp)
      (subs : List (List Id × Option Nat)),
      CoveredE E stack subs →
      CoveredE E (buildLevel stack subs).1 (buildLevel stack subs).2
  | _, _, [], h => h
  | _, _, [_], h => h
  | E, stack, s₁ :: s₂ :: rest, h => by
    have hself : (stack ++ [pairOp s₁ s₂])[stack.length]? = some (pairOp s₁ s₂) :=
      List.getElem?_concat_length stack (pairOp s₁ s₂)
    have hcov' : CoveredE (fun j => E j ∨ j = stack.length)
        (stack ++ [pairOp s₁ s₂]) rest := by
      intro k hk
      rw [List.length_append, List.length_singleton] at hk
      by_cases hk' : k < stack.length
      · obtain ⟨j, hj, hreach⟩ := h k hk'
        rcases hj with hj | ⟨p, hp, hpj⟩
        · exact ⟨j, Or.inl (Or.inl hj), initReach_append _ _ _ _ hreach⟩
        · rcases List.mem_cons.mp hp with rfl | hp'
          · exact ⟨stack.length, Or.inl (Or.inr rfl),
              .left hself hpj (initReach_append _ _ _ _ hreach)⟩
          · rcases List.mem_cons.mp hp' with rfl | hp''
            · exact ⟨stack.length, Or.inl (Or.inr rfl),
                .right hself hpj (initReach_append _ _ _ _ hreach)⟩
            · exact ⟨j, Or.inr ⟨p, hp'', hpj⟩, initReach_append _ _ _ _ hreach⟩
      · have hkl : k = stack.length := by omega
        exact ⟨stack.length, Or.inl (Or.inr rfl), hkl ▸ InitReach.refl _⟩
    have ih := buildLevel_covered (fun j => E j ∨ j = stack.length)
      (stack ++ [pairOp s₁ s₂]) rest hcov'
    rw [buildLevel_cons_cons]
    intro k hk
    obtain ⟨j, hj, hreach⟩ := ih k hk
    refine ⟨j, ?_, hreach⟩
    rcases hj with (hj | rfl) | ⟨p, hp, hpj⟩
    · exact Or.inl hj
    · exact Or.inr ⟨(s₁.1 ++ s₂.1, some stack.length), by simp, rfl⟩
    · exact Or.inr ⟨p, by simp [hp], hpj⟩

theorem buildLevelsGo_single (fuel : Nat) (stack : List MergeOp)
    (subs : List (List Id × Option Nat)) (h : subs.length ≤ 1) :
    buildLevelsGo fuel stack subs = stack := by
  cases fuel with
  | zero => rfl
  | succ n =>
    rw [buildLevelsGo, if_pos h]

theorem buildLevelsGo_rooted :
    ∀ (fuel : Nat) (stack : List MergeOp)
      (subs : List (List Id × Option Nat)),
      2 ≤ subs.length → subs.length ≤ fuel →
      CoveredE (fun _ => False) stack subs →
      RootedAll (buildLevelsGo fuel stack subs)
  | 0, _, _, h₂, hf, _ => by omega
  | fuel + 1, stack, subs, h₂, hf, hcov => by
    rw [buildLevelsGo, if_neg (by omega)]
    by_cases hlen : subs.length = 2
    · obtain ⟨s₁, s₂, hsubs⟩ : ∃ s₁ s₂, subs = [s₁, s₂] := by
        cases subs with
        | nil => simp at hlen
        | cons a l =>
          cases l with
          | nil => simp at hlen
          | cons b l₂ =>
            cases l₂ with
            | nil => exact ⟨a, b, rfl⟩
            | cons c l₃ => simp at hlen
      subst hsubs
      simp only [buildLevel_cons_cons, buildLevel]
      rw [buildLevelsGo_single fuel _ _ (by simp)]
      intro k hk
      rw [List.length_append, List.length_singleton] at hk
      have hself : (stack ++ [pairOp s₁ s₂])[stack.length]?
          = some (pairOp s₁ s₂) :=
        List.getElem?_concat_length stack (pairOp s₁ s₂)
      have hlast : (stack ++ [pairOp s₁ s₂]).length - 1 = stack.length := by
        simp
      rw [hlast]
      by_cases hk' : k < stack.length
      · obtain ⟨j, hj, hreach⟩ := hcov k hk'
        rcases hj with hj | ⟨p, hp, hpj⟩
        · exact absurd hj (by simp)
        · rcases List.mem_cons.mp hp with rfl | hp'
          · exact .left hself hpj (initReach_append _ _ _ _ hreach)
          · rcases List.mem_cons.mp hp' with rfl | hp''
            · exact .right hself hpj (initReach_append _ _ _ _ hreach)
            · exact absurd hp'' (by simp)
      · have : k = stack.length := by omega
        exact this ▸ InitReach.refl _
    · have h₃ : 3 ≤ subs.length := by omega
      refine buildLevelsGo_rooted fuel (buildLevel stack subs).1
        (buildLevel stack subs).2 ?_ ?_
        (buildLevel_covered _ stack subs hcov)
      · rw [buildLevel_length]
        omega
      · rw [buildLevel_length]
        omega

/-- Every operation in a freshly constructed engine's stack is reachable
from the root (last) operation by following source links. -/
theorem new_rooted (items : List Id) :
    RootedAll ((new items).state.merge_stack) := by
  unfold new
  split_ifs with h₁ h₂
  · intro k hk
    simp at hk
  · intro k hk
    simp at hk
  · simp only
    unfold init_merge_sort buildLevels
    refine buildLevelsGo_rooted _ _ _ ?_ (by simp) ?_
    · rw [List.length_map]
      rw [List.isEmpty_iff] at h₁
      have : items.length ≠ 0 := fun hc => h₁ (List.eq_nil_of_length_eq_zero hc)
      omega
    · intro k hk
      simp at hk

end MergeStrategy

end Rankhaus

/-! ## Preservation of the source-clause relation -/

namespace Rankhaus

namespace MergeStrategy

theorem done_result_ne (op : MergeOp) (hinv : OpInv op)
    (hd : op.isDone = true) : op.result ≠ [] := by
  obtain ⟨hl, _, _, _, hlen, _⟩ := hinv
  simp [MergeOp.isDone] at hd
  intro hc
  rw [hc] at hlen
  simp at hlen
  rw [hd.1] at hlen
  exact hl (List.eq_nil_of_length_eq_zero (by omega))

theorem done_nosrc (op : MergeOp) (hinv : OpInv op) (hd : op.isDone = true) :
    op.left_source = none ∧ op.right_source = none := by
  obtain ⟨hl, _, _, _, hlen, hsrc⟩ := hinv
  simp [MergeOp.isDone] at hd
  by_contra hcontra
  have hsome : op.left_source.isSome = true ∨ op.right_source.isSome = true := by
    rcases Option.eq_none_or_eq_some op.left_source with h' | ⟨v, h'⟩
    · rcases Option.eq_none_or_eq_some op.right_source with h'' | ⟨v', h''⟩
      · exact absurd ⟨h', h''⟩ hcontra
      · exact Or.inr (by simp [h''])
    · exact Or.inl (by simp [h'])
  obtain ⟨hz, _, _⟩ := hsrc hsome
  rw [hz] at hd
  exact hl (List.eq_nil_of_length_eq_zero hd.1.symm)

theorem advanceOp_done_id (ledger : Ledger) (op : MergeOp) (hinv : OpInv op)
    (hd : op.isDone = true) : advanceOp ledger op = (op, true) := by
  obtain ⟨hls, hrs⟩ := done_nosrc op hinv hd
  simp [MergeOp.isDone] at hd
  exact advanceOp_of_done ledger op hls hrs hd.1 hd.2

/-- A `set` writing to a slot whose operation has an empty `result` leaves
every slot holding a done operation unreadable… unchanged. -/
theorem set_preserves_done_witness (stack : List MergeOp) (idx : Nat)
    (x : MergeOp) (hSI : StackInv stack)
    (hx : ∀ op, stack[idx]? = some op → op.result = [])
    (i : Nat) (opi : MergeOp) (hoi : stack[i]? = some opi)
    (hdi : opi.isDone = true) : (stack.set idx x)[i]? = some opi := by
  by_cases hii : i = idx
  · subst hii
    exact absurd (hx opi hoi) (done_result_ne opi (hSI opi (mem_of_getElem_some hoi)) hdi)
  · rw [List.getElem?_set_ne (fun hh => hii hh.symm)]
    exact hoi

theorem substLeftAt_sources (init stack : List MergeOp) (idx si : Nat)
    (hSI : StackInv stack) (hSC : SourcesClause init stack)
    (hsi : ∀ op, stack[idx]? = some op → op.left_source = some si) :
    SourcesClause init (substLeftAt stack idx si) := by
  unfold substLeftAt
  split
  · exact hSC
  next src hsrc =>
    split
    · next hdone =>
      split
      · exact hSC
      next op hop =>
        split
        · next hfresh =>
          have hsrcdone : src.isDone = true := by
            simp [MergeOp.isDone, hdone.1, hdone.2.1]
          have hne : si ≠ idx := by
            intro hcontra
            subst hcontra
            rw [hop] at hsrc
            injection hsrc with hsrc
            subst hsrc
            exact hdone.2.2 hfresh.2
          have hwit : ∀ (i : Nat) (opi : MergeOp),
              stack[i]? = some opi → opi.isDone = true →
              (stack.set idx { op with left := src.result, left_source := none })[i]?
                = some opi :=
            fun i opi hoi hdi => set_preserves_done_witness stack idx _ hSI
              (fun o ho => by rw [hop] at ho; injection ho with ho; rw [← ho]; exact hfresh.2)
              i opi hoi hdi
          constructor
          · rw [List.length_set]
            exact hSC.1
          · intro j opj iopj hj hij
            by_cases hji : j = idx
            · subst hji
              have hlt : j < stack.length := (List.getElem?_eq_some.mp hop).1
              rw [List.getElem?_set_self hlt] at hj
              injection hj with hj
              subst hj
              obtain ⟨hc₁, hc₂⟩ := hSC.2 j op iopj hop hij
              constructor
              · refine Or.inr ⟨rfl, si, ?_, src, ?_, hsrcdone⟩
                · rcases hc₁ with hc | ⟨hnone, _⟩
                  · rw [← hc]
                    exact hsi op hop
                  · rw [hsi op hop] at hnone
                    cases hnone
                · rw [List.getElem?_set_ne (fun hh => hne hh.symm)]
                  exact hsrc
              · rcases hc₂ with hc | ⟨hnone, i, hii, opi, hoi, hdi⟩
                · exact Or.inl hc
                · exact Or.inr ⟨hnone, i, hii, opi, hwit i opi hoi hdi, hdi⟩
            · rw [List.getElem?_set_ne (fun hh => hji hh.symm)] at hj
              obtain ⟨hc₁, hc₂⟩ := hSC.2 j opj iopj hj hij
              constructor
              · rcases hc₁ with hc | ⟨hnone, i, hii, opi, hoi, hdi⟩
                · exact Or.inl hc
                · exact Or.inr ⟨hnone, i, hii, opi, hwit i opi hoi hdi, hdi⟩
              · rcases hc₂ with hc | ⟨hnone, i, hii, opi, hoi, hdi⟩
                · exact Or.inl hc
                · exact Or.inr ⟨hnone, i, hii, opi, hwit i opi hoi hdi, hdi⟩
        · exact hSC
    · exact hSC

theorem substRightAt_sources (init stack : List MergeOp) (idx si : Nat)
    (hSI : StackInv stack) (hSC : SourcesClause init stack)
    (hsi : ∀ op, stack[idx]? = some op → op.right_source = some si) :
    SourcesClause init (substRightAt stack idx si) := by
  unfold substRightAt
  split
  · exact hSC
  next src hsrc =>
    split
    · next hdone =>
      split
      · exact hSC
      next op hop =>
        split
        · next hfresh =>
          have hsrcdone : src.isDone = true := by
            simp [MergeOp.isDone, hdone.1, hdone.2.1]
          have hne : si ≠ idx := by
            intro hcontra
            subst hcontra
            rw [hop] at hsrc
            injection hsrc with hsrc
            subst hsrc
            exact hdone.2.2 hfresh.2
          have hwit : ∀ (i : Nat) (opi : MergeOp),
              stack[i]? = some opi → opi.isDone = true →
              (stack.set idx { op with right := src.result, right_source := none })[i]?
                = some opi :=
            fun i opi hoi hdi => set_preserves_done_witness stack idx _ hSI
              (fun o ho => by rw [hop] at ho; injection ho with ho; rw [← ho]; exact hfresh.2)
              i opi hoi hdi
          constructor
          · rw [List.length_set]
            exact hSC.1
          · intro j opj iopj hj hij
            by_cases hji : j = idx
            · subst hji
              have hlt : j < stack.length := (List.getElem?_eq_some.mp hop).1
              rw [List.getElem?_set_self hlt] at hj
              injection hj with hj
              subst hj
              obtain ⟨hc₁, hc₂⟩ := hSC.2 j op iopj hop hij
              constructor
              · rcases hc₁ with hc | ⟨hnone, i, hii, opi, hoi, hdi⟩
                · exact Or.inl hc
                · exact Or.inr ⟨hnone, i, hii, opi, hwit i opi hoi hdi, hdi⟩
              · refine Or.inr ⟨rfl, si, ?_, src, ?_, hsrcdone⟩
                · rcases hc₂ with hc | ⟨hnone, _⟩
                  · rw [← hc]
                    exact hsi op hop
                  · rw [hsi op hop] at hnone
                    cases hnone
                · rw [List.getElem?_set_ne (fun hh => hne hh.symm)]
                  exact hsrc
            · rw [List.getElem?_set_ne (fun hh => hji hh.symm)] at hj
              obtain ⟨hc₁, hc₂⟩ := hSC.2 j opj iopj hj hij
              constructor
              · rcases hc₁ with hc | ⟨hnone, i, hii, opi, hoi, hdi⟩
                · exact Or.inl hc
                · exact Or.inr ⟨hnone, i, hii, opi, hwit i opi hoi hdi, hdi⟩
              · rcases hc₂ with hc | ⟨hnone, i, hii, opi, hoi, hdi⟩
                · exact Or.inl hc
                · exact Or.inr ⟨hnone, i, hii, opi, hwit i opi hoi hdi, hdi⟩
        · exact hSC
    · exact hSC

end MergeStrategy

end Rankhaus

namespace Rankhaus

namespace MergeStrategy

theorem substLeftAt_at_idx (stack : List MergeOp) (idx si : Nat)
    (op₀ : MergeOp) (h₀ : stack[idx]? = some op₀) :
    ∃ op', (substLeftAt stack idx si)[idx]? = some op'
      ∧ op'.right_source = op₀.right_source := by
  unfold substLeftAt
  split
  · exact ⟨op₀, h₀, rfl⟩
  next src hsrc =>
    split
    · split
      · exact ⟨op₀, h₀, rfl⟩
      next op hop =>
        split
        · have hoo : op = op₀ := by
            rw [hop] at h₀
            injection h₀ with h₀
          have hlt : idx < stack.length := (List.getElem?_eq_some.mp hop).1
          refine ⟨_, by rw [List.getElem?_set_self]; exact hlt, ?_⟩
          simp [hoo]
        · exact ⟨op₀, h₀, rfl⟩
    · exact ⟨op₀, h₀, rfl⟩

theorem substStep_sources (init stack : List MergeOp) (idx : Nat)
    (hSI : StackInv stack) (hSC : SourcesClause init stack) :
    SourcesClause init (substStep stack idx) := by
  unfold substStep
  split
  · exact hSC
  next op₀ h₀ =>
    cases hls : op₀.left_source with
    | none =>
      cases hrs : op₀.right_source with
      | none => exact hSC
      | some si =>
        exact substRightAt_sources init stack idx si hSI hSC
          (fun op hop => by
            rw [h₀] at hop
            injection hop with hop
            rw [← hop]
            exact hrs)
    | some si =>
      have h₁SI := substLeftAt_stackinv stack idx si hSI
      have h₁SC := substLeftAt_sources init stack idx si hSI hSC
        (fun op hop => by
          rw [h₀] at hop
          injection hop with hop
          rw [← hop]
          exact hls)
      cases hrs : op₀.right_source with
      | none => exact h₁SC
      | some si' =>
        refine substRightAt_sources init _ idx si' h₁SI h₁SC ?_
        intro op hop
        obtain ⟨op', hop', hrs'⟩ := substLeftAt_at_idx stack idx si op₀ h₀
        rw [hop'] at hop
        injection hop with hop
        rw [← hop, hrs']
        exact hrs

theorem substPass_sources (init stack : List MergeOp) (hSI : StackInv stack)
    (hSC : SourcesClause init stack) :
    SourcesClause init (substPass stack) := by
  unfold substPass
  generalize List.range stack.length = idxs
  induction idxs generalizing stack with
  | nil => exact hSC
  | cons i rest ih =>
    exact ih _ (substStep_stackinv stack i hSI)
      (substStep_sources init stack i hSI hSC)

theorem advanceOp_fields (L : Ledger) (op : MergeOp) :
    (advanceOp L op).1.left = op.left
    ∧ (advanceOp L op).1.right = op.right
    ∧ (advanceOp L op).1.left_source = op.left_source
    ∧ (advanceOp L op).1.right_source = op.right_source := by
  unfold advanceOp consumeLoop
  split
  · exact ⟨rfl, rfl, rfl, rfl⟩
  · simp only
    obtain ⟨e₁, e₂, e₃, e₄⟩ := consumeGo_fields L
      (op.left.length - op.left_idx + (op.right.length - op.right_idx)) op
    obtain ⟨f₁, f₂, f₃, f₄⟩ := tailFlush_fields
      (consumeGo L (op.left.length - op.left_idx + (op.right.length - op.right_idx)) op)
    exact ⟨f₁.trans e₁, f₂.trans e₂, f₃.trans e₃, f₄.trans e₄⟩

theorem mapped_sources (init stack : List MergeOp) (L : Ledger)
    (hSI : StackInv stack) (hSC : SourcesClause init stack) :
    SourcesClause init ((stack.map (advanceOp L)).map Prod.fst) := by
  have hwit : ∀ (i : Nat) (opi : MergeOp), stack[i]? = some opi →
      opi.isDone = true →
      ((stack.map (advanceOp L)).map Prod.fst)[i]? = some opi := by
    intro i opi hoi hdi
    rw [List.map_map, List.getElem?_map, hoi]
    simp [advanceOp_done_id L opi (hSI opi (mem_of_getElem_some hoi)) hdi]
  constructor
  · simp [hSC.1]
  · intro j opj iopj hj hij
    have hj' : ∃ op, stack[j]? = some op ∧ (advanceOp L op).1 = opj := by
      rw [List.map_map, List.getElem?_map] at hj
      cases hq : stack[j]? with
      | none => rw [hq] at hj; cases hj
      | some op =>
        rw [hq] at hj
        injection hj with hj
        exact ⟨op, rfl, hj⟩
    obtain ⟨op, hopj, hfst⟩ := hj'
    obtain ⟨hc₁, hc₂⟩ := hSC.2 j op iopj hopj hij
    obtain ⟨_, _, g₃, g₄⟩ := advanceOp_fields L op
    constructor
    · rcases hc₁ with hc | ⟨hnone, i, hii, opi, hoi, hdi⟩
      · exact Or.inl (by rw [← hfst, g₃, hc])
      · refine Or.inr ⟨by rw [← hfst, g₃, hnone], i, hii, opi,
          hwit i opi hoi hdi, hdi⟩
    · rcases hc₂ with hc | ⟨hnone, i, hii, opi, hoi, hdi⟩
      · exact Or.inl (by rw [← hfst, g₄, hc])
      · refine Or.inr ⟨by rw [← hfst, g₄, hnone], i, hii, opi,
          hwit i opi hoi hdi, hdi⟩

theorem process_state_sources (init : List MergeOp) (L : Ledger)
    (st : MergeState) (hSI : StackInv st.merge_stack)
    (hSC : SourcesClause init st.merge_stack) :
    SourcesClause init (process_merges_state L st).merge_stack := by
  rcases process_state_char L st with ⟨op, _, heq⟩ | heq <;> rw [heq] <;>
    exact mapped_sources init _ L (substPass_stackinv _ hSI)
      (substPass_sources init _ hSI hSC)

end MergeStrategy

end Rankhaus

/-! ## All operations are done when the engine completes -/

namespace Rankhaus

namespace MergeStrategy

theorem done_down (init stack : List MergeOp) (hSI : StackInv stack)
    (hSC : SourcesClause init stack) {j k : Nat}
    (hreach : InitReach init j k) :
    ∀ opj, stack[j]? = some opj → opj.isDone = true →
      ∃ opk, stack[k]? = some opk ∧ opk.isDone = true := by
  induction hreach with
  | refl j => exact fun opj hj hd => ⟨opj, hj, hd⟩
  | left hop hsrc _ ih =>
    intro opj hj hd
    obtain ⟨hls, _⟩ := done_nosrc opj (hSI opj (mem_of_getElem_some hj)) hd
    obtain ⟨hc₁, _⟩ := hSC.2 _ opj _ hj hop
    rcases hc₁ with hc | ⟨_, i', hii', opi, hoi, hdi⟩
    · rw [hls, hsrc] at hc
      cases hc
    · rw [hsrc] at hii'
      injection hii' with hii'
      subst hii'
      exact ih opi hoi hdi
  | right hop hsrc _ ih =>
    intro opj hj hd
    obtain ⟨_, hrs⟩ := done_nosrc opj (hSI opj (mem_of_getElem_some hj)) hd
    obtain ⟨_, hc₂⟩ := hSC.2 _ opj _ hj hop
    rcases hc₂ with hc | ⟨_, i', hii', opi, hoi, hdi⟩
    · rw [hrs, hsrc] at hc
      cases hc
    · rw [hsrc] at hii'
      injection hii' with hii'
      subst hii'
      exact ih opi hoi hdi

theorem sc_of_reachable (items : List Id) (s : MergeStrategy)
    (h : ReachableFrom items s) :
    SourcesClause ((new items).state.merge_stack) s.state.merge_stack := by
  obtain ⟨calls, rfl⟩ := h
  have base : SourcesClause ((new items).state.merge_stack)
      ((new items).state.merge_stack) := by
    refine ⟨rfl, ?_⟩
    intro j op iop h1 h2
    rw [h1] at h2
    injection h2 with h2
    exact ⟨Or.inl (by rw [h2]), Or.inl (by rw [h2])⟩
  have key : ∀ (cs : List (Item × Item × Id)) (t : MergeStrategy),
      EngineInv t →
      SourcesClause ((new items).state.merge_stack) t.state.merge_stack →
      SourcesClause ((new items).state.merge_stack)
        (applyCalls t cs).state.merge_stack := by
    intro cs
    induction cs with
    | nil => exact fun t _ hsc => hsc
    | cons c rest ih =>
      intro t ht hsc
      refine ih _ (engineinv_compareStep t c.1 c.2.1 c.2.2 ht) ?_
      rw [compareStep_state]
      exact process_state_sources _ _ _ ht.1 hsc
  exact key calls (new items) (engineinv_new items) base

/-- When a reachable engine is complete, every merge operation on its stack
is done. -/
theorem reachable_completed_all_done (items : List Id) (s : MergeStrategy)
    (hre : ReachableFrom items s) (hc : is_complete s = true) :
    ∀ op ∈ s.state.merge_stack, op.isDone = true := by
  have hinv := engineinv_of_reachable items s hre
  have hsc := sc_of_reachable items s hre
  have hrooted := new_rooted items
  rcases hinv.2 hc with hempty | ⟨lastOp, hlast, hdone, _⟩
  · intro op hop
    rw [hempty] at hop
    cases hop
  · intro op hop
    obtain ⟨k, hk⟩ := List.get_of_mem hop
    have hklt : k.1 < s.state.merge_stack.length := k.2
    have hkget : s.state.merge_stack[k.1]? = some op := by
      rw [List.getElem?_eq_some]
      exact ⟨hklt, by rw [← List.get_eq_getElem]; exact hk⟩
    have hlastidx : s.state.merge_stack[s.state.merge_stack.length - 1]?
        = some lastOp := by
      rw [← List.getLast?_eq_getElem?]
      exact hlast
    have hreach : InitReach ((new items).state.merge_stack)
        ((new items).state.merge_stack.length - 1) k.1 := by
      refine hrooted k.1 ?_
      rw [← hsc.1]
      exact hklt
    have hlastidx' : s.state.merge_stack[(new items).state.merge_stack.length - 1]?
        = some lastOp := by
      rw [← hsc.1]
      exact hlastidx
    obtain ⟨opk, hopk, hdk⟩ := done_down _ _ hinv.1 hsc hreach lastOp
      hlastidx' hdone
    rw [hkget] at hopk
    injection hopk with hopk
    rw [← hopk] at hdk
    exact hdk

end MergeStrategy

end Rankhaus

/-! ## Claim C2 — replay equivalence -/

namespace Rankhaus

namespace MergeStrategy

theorem substStep_id_of_nosrc (stack : List MergeOp) (idx : Nat)
    (h : ∀ op ∈ stack, op.left_source = none ∧ op.right_source = none) :
    substStep stack idx = stack := by
  unfold substStep
  split
  · rfl
  next op₀ h₀ =>
    rw [(h op₀ (mem_of_getElem_some h₀)).1, (h op₀ (mem_of_getElem_some h₀)).2]

theorem substPass_id_of_nosrc (stack : List MergeOp)
    (h : ∀ op ∈ stack, op.left_source = none ∧ op.right_source = none) :
    substPass stack = stack := by
  unfold substPass
  generalize List.range stack.length = idxs
  induction idxs with
  | nil => rfl
  | cons i rest ih =>
    simp only [List.foldl_cons]
    rw [substStep_id_of_nosrc stack i h]
    exact ih

theorem mapped_id_of_done (L : Ledger) :
    ∀ (stack : List MergeOp), StackInv stack →
      (∀ op ∈ stack, op.isDone = true) →
      (stack.map (advanceOp L)).map Prod.fst = stack
  | [], _, _ => rfl
  | op :: rest, hSI, h => by
    simp only [List.map_cons]
    rw [advanceOp_done_id L op (hSI op (List.mem_cons_self _ _))
      (h op (List.mem_cons_self _ _))]
    rw [mapped_id_of_done L rest (fun o ho => hSI o (List.mem_cons_of_mem _ ho))
      (fun o ho => h o (List.mem_cons_of_mem _ ho))]

/-- On a completed state all of whose operations are done, `process_merges`
is the identity. -/
theorem process_state_id (L : Ledger) (st : MergeState)
    (hSI : StackInv st.merge_stack) (hroot : RootClause st)
    (halldone : ∀ op ∈ st.merge_stack, op.isDone = true)
    (hc : st.completed = true) :
    process_merges_state L st = st := by
  have hnosrc : ∀ op ∈ st.merge_stack,
      op.left_source = none ∧ op.right_source = none :=
    fun op hop => done_nosrc op (hSI op hop) (halldone op hop)
  have hsubst : substPass st.merge_stack = st.merge_stack :=
    substPass_id_of_nosrc _ hnosrc
  have hmapped : ((substPass st.merge_stack).map (advanceOp L)).map Prod.fst
      = st.merge_stack := by
    rw [hsubst]
    exact mapped_id_of_done L _ hSI halldone
  rcases process_state_char L st with ⟨op, hlast, heq⟩ | heq
  · rcases hroot hc with hempty | ⟨lastOp, hlastst, hdone, hsort⟩
    · rw [hsubst, hempty] at hlast
      simp at hlast
    · have hthis : (st.merge_stack.map (advanceOp L)).getLast? = some (op, true) := by
        rw [← hsubst]
        exact hlast
      rw [List.getLast?_map, hlastst] at hthis
      simp only [Option.map_some'] at hthis
      injection hthis with hthis
      rw [advanceOp_done_id L lastOp
        (hSI lastOp (List.mem_of_mem_getLast? hlastst)) hdone] at hthis
      have hopq : op = lastOp := by
        have := congrArg Prod.fst hthis
        simpa using this.symm
      rw [heq, hmapped]
      cases st with
      | mk ms so co =>
        simp only at hsort hc ⊢
        rw [hopq, ← hsort, hc]
  · rw [heq, hmapped]

/-- On a completed reachable engine whose ledger already holds a comparison
with the same winner, `compare` is the identity on the engine. -/
theorem compareStep_id (s : MergeStrategy) (a b : Item) (w : Id)
    (hSI : StackInv s.state.merge_stack) (hroot : RootClause s.state)
    (halldone : ∀ op ∈ s.state.merge_stack, op.isDone = true)
    (hc : s.state.completed = true)
    (hmem : s.comparisons.get (get_comparison_key a.id b.id) = some w.str) :
    compareStep s a b w = s := by
  have hins : s.comparisons.insert (get_comparison_key a.id b.id) w.str
      = s.comparisons := Ledger.insert_of_get_eq _ _ _ hmem
  have hproc : process_merges_state s.comparisons s.state = s.state :=
    process_state_id _ _ hSI hroot halldone hc
  cases s with
  | mk it cc stt =>
    simp only at hins hproc
    simp only [compareStep, compare, process_merges]
    rw [hins, hproc]

/-- Replaying, a second time, a journal all of whose entries are already
recorded (same canonical key, same winner) in a completed reachable engine
leaves the engine unchanged. -/
theorem replay_id (items : List Id) :
    ∀ (J : List (Id × Id × Id)) (T : MergeStrategy),
      ReachableFrom items T → is_complete T = true →
      (∀ e ∈ J, T.comparisons.get (get_comparison_key e.1 e.2.1)
        = some e.2.2.str) →
      replay T J = T
  | [], _, _, _, _ => rfl
  | e :: J, T, hre, hc, hmem => by
    have hinv := engineinv_of_reachable items T hre
    have hall := reachable_completed_all_done items T hre hc
    have hstep : compareStep T (itemOf e.1) (itemOf e.2.1) e.2.2 = T := by
      refine compareStep_id T _ _ _ hinv.1 hinv.2 hall hc ?_
      simp only [itemOf_id]
      exact hmem e (List.mem_cons_self _ _)
    have : replay T (e :: J)
        = replay (compareStep T (itemOf e.1) (itemOf e.2.1) e.2.2) J := rfl
    rw [this, hstep]
    exact replay_id items J T hre hc
      (fun e' he' => hmem e' (List.mem_cons_of_mem _ he'))

/-- C2: for every engine run to completion through the
`next_comparison`/`compare` loop (`runN`, with journal `runJournal`):
replaying the journal on a fresh engine over the same item list reproduces
completion and the same `finalize` result (indeed the identical engine
state); replaying the journal twice equals replaying it once; and replay
decomposes over prefix/suffix concatenation. -/
theorem replay_equivalence (items : List Id) (ans : Id → Id → Id) (n : Nat)
    (hcomplete : is_complete (runN ans n (new items)) = true) :
    (is_complete (replay (new items) (runJournal ans n (new items))) = true
      ∧ (finalize (replay (new items) (runJournal ans n (new items)))).1
          = (finalize (runN ans n (new items))).1)
    ∧ replay (new items)
        (runJournal ans n (new items) ++ runJournal ans n (new items))
        = replay (new items) (runJournal ans n (new items))
    ∧ ∀ J₁ J₂ : List (Id × Id × Id),
        replay (replay (new items) J₁) J₂ = replay (new items) (J₁ ++ J₂) := by
  have hrepl := replay_runJournal ans n (new items)
  refine ⟨⟨by rw [hrepl]; exact hcomplete, by rw [hrepl]⟩, ?_,
    fun J₁ J₂ => (replay_append _ _ _).symm⟩
  rw [replay_append]
  refine replay_id items _ _ (replay_reachable items _)
    (by rw [hrepl]; exact hcomplete) ?_
  exact replay_records _ (new items) (runJournal_keys_nodup ans n (new items))

/-- Witness for C2 on a concrete two-item run to completion (the answer
function always prefers the first item of the asked pair). -/
theorem replay_equivalence_witness :
    is_complete (replay (new [Fixture.idA, Fixture.idB])
      (runJournal (fun a _ => a) 1 (new [Fixture.idA, Fixture.idB]))) = true
    ∧ replay (new [Fixture.idA, Fixture.idB])
        (runJournal (fun a _ => a) 1 (new [Fixture.idA, Fixture.idB])
          ++ runJournal (fun a _ => a) 1 (new [Fixture.idA, Fixture.idB]))
        = replay (new [Fixture.idA, Fixture.idB])
            (runJournal (fun a _ => a) 1 (new [Fixture.idA, Fixture.idB])) :=
  ⟨(replay_equivalence [Fixture.idA, Fixture.idB] (fun a _ => a) 1
      (by decide)).1.1,
   (replay_equivalence [Fixture.idA, Fixture.idB] (fun a _ => a) 1
      (by decide)).2.1⟩

end MergeStrategy

end Rankhaus

/-! ## Canonical keys identify unordered pairs -/

namespace Rankhaus

theorem strLtGo_irrefl : ∀ xs : List Char, strLtGo xs xs = false
  | [] => rfl
  | c :: cs => by
    simp only [strLtGo]
    rw [if_neg (by omega), if_neg (by omega)]
    exact strLtGo_irrefl cs

theorem strLt_irrefl (s : String) : strLt s s = false := strLtGo_irrefl s.data

theorem strLtGo_asymm : ∀ xs ys : List Char,
    strLtGo xs ys = true → strLtGo ys xs = false
  | [], [], h => Bool.noConfusion h
  | [], _ :: _, _ => rfl
  | _ :: _, [], h => Bool.noConfusion h
  | c :: cs, d :: ds, h => by
    simp only [strLtGo] at h ⊢
    by_cases hc : c.toNat < d.toNat
    · rw [if_neg (by omega), if_pos hc]
    · rw [if_neg hc] at h
      by_cases hd : d.toNat < c.toNat
      · rw [if_pos hd] at h
        exact Bool.noConfusion h
      · rw [if_neg hd] at h
        rw [if_neg hd, if_neg hc]
        exact strLtGo_asymm cs ds h

theorem strLtGo_conn : ∀ xs ys : List Char,
    strLtGo xs ys = false → strLtGo ys xs = false → xs = ys
  | [], [], _, _ => rfl
  | [], _ :: _, h, _ => Bool.noConfusion h
  | _ :: _, [], _, h => Bool.noConfusion h
  | c :: cs, d :: ds, h, h' => by
    simp only [strLtGo] at h h'
    by_cases hc : c.toNat < d.toNat
    · rw [if_pos hc] at h
      exact Bool.noConfusion h
    · by_cases hd : d.toNat < c.toNat
      · rw [if_pos hd] at h'
        exact Bool.noConfusion h'
      · rw [if_neg hc, if_neg hd] at h
        rw [if_neg hd, if_neg hc] at h'
        have hn : c.toNat = d.toNat := by omega
        have hcd : c = d := Char.ext (UInt32.ext hn)
        rw [hcd, strLtGo_conn cs ds h h']

namespace MergeStrategy

theorem Id.str_injective (u v : Id) (h : u.str = v.str) : u = v := by
  cases u
  cases v
  simpa using h

/-- Equal canonical keys come from the same unordered pair. -/
theorem key_eq_unordered (u v u' v' : Id)
    (h : get_comparison_key u v = get_comparison_key u' v') :
    (u = u' ∧ v = v') ∨ (u = v' ∧ v = u') := by
  unfold get_comparison_key at h
  split_ifs at h with h₁ h₂ h₂
  · injection h with ha hb
    exact Or.inl ⟨Id.str_injective _ _ ha, Id.str_injective _ _ hb⟩
  · injection h with ha hb
    exact Or.inr ⟨Id.str_injective _ _ ha, Id.str_injective _ _ hb⟩
  · injection h with ha hb
    exact Or.inr ⟨Id.str_injective _ _ hb, Id.str_injective _ _ ha⟩
  · injection h with ha hb
    exact Or.inl ⟨Id.str_injective _ _ hb, Id.str_injective _ _ ha⟩

/-- The canonical key is symmetric in its two arguments. -/
theorem get_comparison_key_comm (u v : Id) :
    get_comparison_key u v = get_comparison_key v u := by
  unfold get_comparison_key
  split_ifs with h₁ h₂ h₂
  · exfalso
    have ha : strLtGo u.str.data v.str.data = true := h₁
    have hb : strLtGo v.str.data u.str.data = true := h₂
    rw [strLtGo_asymm u.str.data v.str.data ha] at hb
    exact Bool.noConfusion hb
  · rfl
  · rfl
  · have ha : strLtGo u.str.data v.str.data = false := by
      cases hx : strLt u.str v.str with
      | false => exact hx
      | true => exact absurd hx h₁
    have hb : strLtGo v.str.data u.str.data = false := by
      cases hx : strLt v.str u.str with
      | false => exact hx
      | true => exact absurd hx h₂
    have hd := strLtGo_conn u.str.data v.str.data ha hb
    have hs : u.str = v.str := congrArg String.mk hd
    rw [hs]

end MergeStrategy

end Rankhaus

/-! ## The deterministic merge and its properties -/

namespace Rankhaus

namespace MergeStrategy

theorem mergeR_nil (better : Id → Id → Bool) (ys : List Id) :
    mergeR better [] ys = ys := by
  rw [mergeR.eq_def]

theorem mergeR_nil_right (better : Id → Id → Bool) (xs : List Id) :
    mergeR better xs [] = xs := by
  rw [mergeR.eq_def]
  cases xs <;> rfl

theorem mergeR_cons_cons (better : Id → Id → Bool) (x y : Id)
    (xs ys : List Id) :
    mergeR better (x :: xs) (y :: ys)
      = if better x y then x :: mergeR better xs (y :: ys)
        else y :: mergeR better (x :: xs) ys := by
  rw [mergeR.eq_def]

theorem mergeR_perm_n (better : Id → Id → Bool) :
    ∀ (n : Nat) (l r : List Id), l.length + r.length ≤ n →
      (mergeR better l r).Perm (l ++ r)
  | _, [], r, _ => by rw [mergeR_nil]; simp
  | _, x :: xs, [], _ => by rw [mergeR_nil_right]; simp
  | 0, _ :: _, _ :: _, h => by simp at h
  | n + 1, x :: xs, y :: ys, h => by
    rw [mergeR_cons_cons]
    split_ifs with hb
    · have ih := mergeR_perm_n better n xs (y :: ys)
        (by simp only [List.length_cons] at h ⊢; omega)
      simpa using ih.cons x
    · have ih := mergeR_perm_n better n (x :: xs) ys
        (by simp only [List.length_cons] at h ⊢; omega)
      refine (ih.cons y).trans ?_
      exact (List.perm_middle).symm

theorem mergeR_perm (better : Id → Id → Bool) (l r : List Id) :
    (mergeR better l r).Perm (l ++ r) :=
  mergeR_perm_n better (l.length + r.length) l r le_rfl

theorem mem_mergeR (better : Id → Id → Bool) (l r : List Id) (z : Id) :
    z ∈ mergeR better l r ↔ z ∈ l ++ r :=
  (mergeR_perm better l r).mem_iff

theorem mergeR_pairwise_n (better : Id → Id → Bool) :
    ∀ (n : Nat) (l r : List Id), l.length + r.length ≤ n →
      List.Pairwise (fun a b => better a b = true) l →
      List.Pairwise (fun a b => better a b = true) r →
      (∀ x ∈ l, ∀ y ∈ r, x ≠ y) →
      (∀ x ∈ l, ∀ y ∈ r, better x y = true ∨ better y x = true) →
      (∀ x y z, x ∈ l ++ r → y ∈ l ++ r → z ∈ l ++ r →
        better x y = true → better y z = true → better x z = true) →
      List.Pairwise (fun a b => better a b = true) (mergeR better l r) := by
  intro n
  induction n with
  | zero =>
    intro l r h hl hr hne htot htr
    cases l with
    | nil => rw [mergeR_nil]; exact hr
    | cons x xs =>
      cases r with
      | nil => rw [mergeR_nil_right]; exact hl
      | cons y ys => simp at h
  | succ n ih =>
    intro l r h hl hr hne htot htr
    cases l with
    | nil => rw [mergeR_nil]; exact hr
    | cons x xs =>
      cases r with
      | nil => rw [mergeR_nil_right]; exact hl
      | cons y ys =>
        rw [mergeR_cons_cons]
        obtain ⟨hlh, hlt⟩ := List.pairwise_cons.mp hl
        obtain ⟨hrh, hrt⟩ := List.pairwise_cons.mp hr
        split_ifs with hb
        · refine List.pairwise_cons.mpr ⟨?_, ?_⟩
          · intro z hz
            rw [mem_mergeR] at hz
            rcases List.mem_append.mp hz with hz | hz
            · exact hlh z hz
            · rcases List.mem_cons.mp hz with rfl | hz
              · exact hb
              · exact htr x y z (by simp) (by simp) (by simp [hz]) hb
                  (hrh z hz)
          · have lift : ∀ u, u ∈ xs ++ (y :: ys) → u ∈ (x :: xs) ++ (y :: ys) :=
              fun u hu => List.mem_cons_of_mem x hu
            refine ih xs (y :: ys)
              (by simp only [List.length_cons] at h ⊢; omega) hlt hr ?_ ?_ ?_
            · exact fun u hu v hv => hne u (by simp [hu]) v hv
            · exact fun u hu v hv => htot u (by simp [hu]) v hv
            · exact fun u v z hu hv hz =>
                htr u v z (lift u hu) (lift v hv) (lift z hz)
        · have hxy : x ≠ y := hne x (by simp) y (by simp)
          have hyx : better y x = true := by
            rcases htot x (by simp) y (by simp) with hc | hc
            · exact absurd hc hb
            · exact hc
          refine List.pairwise_cons.mpr ⟨?_, ?_⟩
          · intro z hz
            rw [mem_mergeR] at hz
            rcases List.mem_append.mp hz with hz | hz
            · rcases List.mem_cons.mp hz with rfl | hz
              · exact hyx
              · exact htr y x z (by simp) (by simp) (by simp [hz]) hyx
                  (hlh z hz)
            · exact hrh z hz
          · have lift : ∀ u, u ∈ (x :: xs) ++ ys → u ∈ (x :: xs) ++ (y :: ys) := by
              intro u hu
              rcases List.mem_append.mp hu with hm | hm
              · exact List.mem_append_left _ hm
              · exact List.mem_append_right _ (List.mem_cons_of_mem y hm)
            refine ih (x :: xs) ys
              (by simp only [List.length_cons] at h ⊢; omega) hl hrt ?_ ?_ ?_
            · exact fun u hu v hv => hne u hu v (by simp [hv])
            · exact fun u hu v hv => htot u hu v (by simp [hv])
            · exact fun u v z hu hv hz =>
                htr u v z (lift u hu) (lift v hv) (lift z hz)

theorem mergeR_pairwise (better : Id → Id → Bool) (l r : List Id)
    (hl : List.Pairwise (fun a b => better a b = true) l)
    (hr : List.Pairwise (fun a b => better a b = true) r)
    (hne : ∀ x ∈ l, ∀ y ∈ r, x ≠ y)
    (htot : ∀ x ∈ l, ∀ y ∈ r, better x y = true ∨ better y x = true)
    (htr : ∀ x y z, x ∈ l ++ r → y ∈ l ++ r → z ∈ l ++ r →
      better x y = true → better y z = true → better x z = true) :
    List.Pairwise (fun a b => better a b = true) (mergeR better l r) :=
  mergeR_pairwise_n better (l.length + r.length) l r le_rfl hl hr hne htot htr

end MergeStrategy

end Rankhaus

/-! ## Static structure of the initial merge stack: contiguous segments -/

namespace Rankhaus

namespace MergeStrategy

theorem subEntryOk_mono (stack ext : List MergeOp) (p : List Id × Option Nat)
    (h : SubEntryOk stack p) : SubEntryOk (stack ++ ext) p := by
  obtain ⟨h₁, h₂, h₃⟩ := h
  refine ⟨h₁, h₂, ?_⟩
  intro i hi
  obtain ⟨hlt, src, hsrc, heq⟩ := h₃ i hi
  refine ⟨by rw [List.length_append]; omega, src, ?_, heq⟩
  rw [List.getElem?_append_left hlt]
  exact hsrc

theorem staticOp_mono (items : List Id) (stack ext : List MergeOp) (j : Nat)
    (op : MergeOp) (h : StaticOp items stack j op) :
    StaticOp items (stack ++ ext) j op := by
  obtain ⟨h₁, h₂, h₃, h₄, h₅, h₆, h₇, h₈, h₉, h₁₀⟩ := h
  refine ⟨h₁, h₂, h₃, h₄, h₅, h₆, h₇, h₈, ?_, ?_⟩
  · intro i hi
    obtain ⟨hlt, src, hsrc, heq⟩ := h₉ i hi
    have hlt' : i < stack.length := (List.getElem?_eq_some.mp hsrc).1
    exact ⟨hlt, src, by rw [List.getElem?_append_left hlt']; exact hsrc, heq⟩
  · intro i hi
    obtain ⟨hlt, src, hsrc, heq⟩ := h₁₀ i hi
    have hlt' : i < stack.length := (List.getElem?_eq_some.mp hsrc).1
    exact ⟨hlt, src, by rw [List.getElem?_append_left hlt']; exact hsrc, heq⟩

theorem buildLevel_static (items : List Id) :
    ∀ (stack : List MergeOp) (subs : List (List Id × Option Nat))
      (acc : List Id),
      StaticWf items stack →
      (∀ p ∈ subs, SubEntryOk stack p) →
      acc ++ (subs.map Prod.fst).flatten = items →
      ∃ ext, (buildLevel stack subs).1 = stack ++ ext
        ∧ StaticWf items (buildLevel stack subs).1
        ∧ (∀ p ∈ (buildLevel stack subs).2,
            SubEntryOk (buildLevel stack subs).1 p)
        ∧ acc ++ (((buildLevel stack subs).2.map Prod.fst)).flatten = items
  | stack, [], acc, hW, _, hacc =>
    ⟨[], by simp [buildLevel], hW, by simp [buildLevel], hacc⟩
  | stack, [s₀], acc, hW, hS, hacc => by
    refine ⟨[], by simp [buildLevel], hW, ?_, hacc⟩
    simp only [buildLevel]
    intro p hp
    rw [List.mem_singleton] at hp
    subst hp
    exact hS p (by simp)
  | stack, s₁ :: s₂ :: rest, acc, hW, hS, hacc => by
    have hS₁ := hS s₁ (by simp)
    have hS₂ := hS s₂ (by simp)
    have hacc' : (acc ++ s₁.1 ++ s₂.1) ++ (rest.map Prod.fst).flatten
        = items := by
      simp only [List.map_cons, List.flatten_cons] at hacc
      rw [← hacc]
      simp [List.append_assoc]
    have hW₀ : StaticWf items (stack ++ [pairOp s₁ s₂]) := by
      intro j opj hj
      by_cases hjl : j < stack.length
      · rw [List.getElem?_append_left hjl] at hj
        exact staticOp_mono items stack _ j opj (hW j opj hj)
      · have hjlen : j < stack.length + 1 := by
          have := (List.getElem?_eq_some.mp hj).1
          simpa using this
        have hje : j = stack.length := by omega
        subst hje
        rw [List.getElem?_concat_length] at hj
        injection hj with hj
        subst hj
        refine ⟨?_, rfl, rfl, rfl, hS₁.1, hS₂.1, ?_, ?_, ?_, ?_⟩
        · refine ⟨acc, (rest.map Prod.fst).flatten, ?_⟩
          rw [← hacc']
          simp [pairOp, List.append_assoc]
        · intro hnone
          exact hS₁.2.1 hnone
        · intro hnone
          exact hS₂.2.1 hnone
        · intro i hi
          obtain ⟨hlt, src, hsrc, heq⟩ := hS₁.2.2 i hi
          exact ⟨hlt, src, by rw [List.getElem?_append_left hlt]; exact hsrc,
            heq⟩
        · intro i hi
          obtain ⟨hlt, src, hsrc, heq⟩ := hS₂.2.2 i hi
          exact ⟨hlt, src, by rw [List.getElem?_append_left hlt]; exact hsrc,
            heq⟩
    have hSrest : ∀ p ∈ rest, SubEntryOk (stack ++ [pairOp s₁ s₂]) p :=
      fun p hp => subEntryOk_mono stack _ p (hS p (by simp [hp]))
    obtain ⟨ext', h1', h2', h3', h4'⟩ := buildLevel_static items
      (stack ++ [pairOp s₁ s₂]) rest (acc ++ s₁.1 ++ s₂.1) hW₀ hSrest hacc'
    rw [buildLevel_cons_cons]
    refine ⟨[pairOp s₁ s₂] ++ ext', ?_, h2', ?_, ?_⟩
    · rw [h1', List.append_assoc]
    · intro p hp
      rcases List.mem_cons.mp hp with rfl | hp
      · refine ⟨?_, ?_, ?_⟩
        · simp only [ne_eq, List.append_eq_nil]
          rintro ⟨hc, _⟩
          exact hS₁.1 hc
        · intro hc
          cases hc
        · intro i hi
          injection hi with hi
          subst hi
          have hget : (buildLevel (stack ++ [pairOp s₁ s₂]) rest).1[stack.length]?
              = some (pairOp s₁ s₂) := by
            rw [h1']
            have hlt : stack.length < (stack ++ [pairOp s₁ s₂]).length := by
              simp
            rw [List.getElem?_append_left hlt]
            exact List.getElem?_concat_length stack (pairOp s₁ s₂)
          refine ⟨(List.getElem?_eq_some.mp hget).1, pairOp s₁ s₂, hget, rfl⟩
      · exact h3' p hp
    · simp only [List.map_cons, List.flatten_cons]
      rw [← h4']
      simp [List.append_assoc]

theorem buildLevelsGo_static (items : List Id) :
    ∀ (fuel : Nat) (stack : List MergeOp)
      (subs : List (List Id × Option Nat)),
      StaticWf items stack →
      (∀ p ∈ subs, SubEntryOk stack p) →
      (subs.map Prod.fst).flatten = items →
      StaticWf items (buildLevelsGo fuel stack subs)
  | 0, _, _, hW, _, _ => hW
  | fuel + 1, stack, subs, hW, hS, hflat => by
    rw [buildLevelsGo]
    split
    · exact hW
    · obtain ⟨ext, h1, h2, h3, h4⟩ := buildLevel_static items stack subs []
        hW hS (by simpa using hflat)
      exact buildLevelsGo_static items fuel _ _ h2 h3 (by simpa using h4)

theorem map_singleton_flatten :
    ∀ (l : List Id),
      ((l.map fun v => ([v], (none : Option Nat))).map Prod.fst).flatten = l
  | [] => rfl
  | x :: xs => by
    simp only [List.map_cons, List.flatten_cons]
    rw [map_singleton_flatten xs]
    rfl

theorem init_static (items : List Id) :
    StaticWf items (init_merge_sort items) := by
  unfold init_merge_sort buildLevels
  refine buildLevelsGo_static items _ _ _ ?_ ?_ ?_
  · intro j op hj
    simp at hj
  · intro p hp
    obtain ⟨x, _, rfl⟩ := List.mem_map.mp hp
    exact ⟨by simp, fun _ => ⟨x, rfl⟩, fun i hi => by simp at hi⟩
  · exact map_singleton_flatten items

theorem init_nil (items : List Id) (h : items.length ≤ 1) :
    init_merge_sort items = [] := by
  unfold init_merge_sort buildLevels
  exact buildLevelsGo_single _ _ _ (by simpa using h)

theorem buildLevelsGo_root (items : List Id) :
    ∀ (fuel : Nat) (stack : List MergeOp)
      (subs : List (List Id × Option Nat)),
      StaticWf items stack →
      (∀ p ∈ subs, SubEntryOk stack p) →
      (subs.map Prod.fst).flatten = items →
      2 ≤ subs.length → subs.length ≤ fuel →
      ∃ root, (buildLevelsGo fuel stack subs).getLast? = some root
        ∧ root.left ++ root.right = items
  | 0, _, _, _, _, _, h2, hf => by omega
  | fuel + 1, stack, subs, hW, hS, hflat, h2, hf => by
    rw [buildLevelsGo, if_neg (by omega)]
    by_cases hlen : subs.length = 2
    · obtain ⟨s₁, s₂, rfl⟩ : ∃ s₁ s₂, subs = [s₁, s₂] := by
        cases subs with
        | nil => simp at hlen
        | cons a l =>
          cases l with
          | nil => simp at hlen
          | cons b l₂ =>
            cases l₂ with
            | nil => exact ⟨a, b, rfl⟩
            | cons c l₃ => simp at hlen
      have hb : buildLevel stack [s₁, s₂]
          = (stack ++ [pairOp s₁ s₂],
             [(s₁.1 ++ s₂.1, some stack.length)]) := rfl
      rw [hb]
      rw [buildLevelsGo_single fuel _ _ (by simp)]
      refine ⟨pairOp s₁ s₂, List.getLast?_concat _, ?_⟩
      simp only [List.map_cons, List.map_nil, List.flatten_cons,
        List.flatten_nil, List.append_nil] at hflat
      exact hflat
    · obtain ⟨ext, h1, h2', h3', h4'⟩ := buildLevel_static items stack subs []
        hW hS (by simpa using hflat)
      refine buildLevelsGo_root items fuel _ _ h2' h3' (by simpa using h4')
        ?_ ?_
      · rw [buildLevel_length]
        omega
      · rw [buildLevel_length]
        omega

theorem init_root (items : List Id) (h2 : 2 ≤ items.length) :
    ∃ root, (init_merge_sort items).getLast? = some root
      ∧ root.left ++ root.right = items := by
  unfold init_merge_sort buildLevels
  refine buildLevelsGo_root items _ _ _ ?_ ?_ ?_ ?_ ?_
  · intro j op hj
    simp at hj
  · intro p hp
    obtain ⟨x, _, rfl⟩ := List.mem_map.mp hp
    exact ⟨by simp, fun _ => ⟨x, rfl⟩, fun i hi => by simp at hi⟩
  · exact map_singleton_flatten items
  · simpa using h2
  · simp

theorem init_rooted (items : List Id) (h2 : 2 ≤ items.length) :
    RootedAll (init_merge_sort items) := by
  have hthis := new_rooted items
  unfold new at hthis
  have hne : ¬items.isEmpty = true := by
    intro hc
    rw [List.isEmpty_iff] at hc
    rw [hc] at h2
    simp at h2
  have hne1 : ¬items.length = 1 := by omega
  rw [if_neg hne, if_neg hne1] at hthis
  exact hthis

theorem static_span_nodup (items : List Id) (hnd : items.Nodup)
    (stack : List MergeOp) (hW : StaticWf items stack) (j : Nat)
    (op : MergeOp) (hj : stack[j]? = some op) :
    (op.left ++ op.right).Nodup :=
  hnd.sublist (hW j op hj).1.sublist

end MergeStrategy

end Rankhaus

/-! ## Laminar structure: cross pairs identify their operation -/

namespace Rankhaus

namespace MergeStrategy

theorem initReach_span (items : List Id) (init : List MergeOp)
    (hW : StaticWf items init) {j k : Nat} (h : InitReach init j k) :
    ∀ opj opk, init[j]? = some opj → init[k]? = some opk →
      ∀ x, x ∈ opk.left ++ opk.right → x ∈ opj.left ++ opj.right := by
  induction h with
  | refl j =>
    intro opj opk hj hk
    rw [hj] at hk
    injection hk with hk
    subst hk
    exact fun x hx => hx
  | left hop hsrc h ih =>
    intro opj opk hj hk x hx
    rw [hop] at hj
    injection hj with hj
    subst hj
    obtain ⟨_, _, _, _, _, _, _, _, hls, _⟩ := hW _ _ hop
    obtain ⟨hlt, src, hget, heq⟩ := hls _ hsrc
    have hx' : x ∈ src.left ++ src.right := ih src opk hget hk x hx
    refine List.mem_append_left _ ?_
    rw [heq]
    exact hx'
  | right hop hsrc h ih =>
    intro opj opk hj hk x hx
    rw [hop] at hj
    injection hj with hj
    subst hj
    obtain ⟨_, _, _, _, _, _, _, _, _, hrs⟩ := hW _ _ hop
    obtain ⟨hlt, src, hget, heq⟩ := hrs _ hsrc
    have hx' : x ∈ src.left ++ src.right := ih src opk hget hk x hx
    refine List.mem_append_right _ ?_
    rw [heq]
    exact hx'

theorem initReach_laminar (items : List Id) (hnd : items.Nodup)
    (init : List MergeOp) (hW : StaticWf items init) :
    ∀ {r j : Nat}, InitReach init r j → ∀ (k : Nat), InitReach init r k →
      InitReach init j k ∨ InitReach init k j ∨
      (∀ (x : Id) (opj opk : MergeOp), init[j]? = some opj →
        init[k]? = some opk → x ∈ opj.left ++ opj.right →
        x ∈ opk.left ++ opk.right → False) := by
  intro r j h₁
  induction h₁ with
  | refl r => exact fun k h₂ => Or.inl h₂
  | left hop hsrc h ih =>
    intro k h₂
    cases h₂ with
    | refl => exact Or.inr (Or.inl (.left hop hsrc h))
    | left hop' hsrc' h' =>
      rw [hop] at hop'
      injection hop' with hop'
      subst hop'
      rw [hsrc] at hsrc'
      injection hsrc' with hsrc'
      subst hsrc'
      exact ih k h'
    | right hop' hsrc' h' =>
      rw [hop] at hop'
      injection hop' with hop'
      subst hop'
      refine Or.inr (Or.inr ?_)
      intro x opj opk hopj hopk hxj hxk
      obtain ⟨_, _, _, _, _, _, _, _, hls, hrs⟩ := hW _ _ hop
      obtain ⟨_, srcL, hgetL, heqL⟩ := hls _ hsrc
      obtain ⟨_, srcR, hgetR, heqR⟩ := hrs _ hsrc'
      have hxl : x ∈ srcL.left ++ srcL.right :=
        initReach_span items init hW h srcL opj hgetL hopj x hxj
      have hxr : x ∈ srcR.left ++ srcR.right :=
        initReach_span items init hW h' srcR opk hgetR hopk x hxk
      have hnodup := static_span_nodup items hnd init hW _ _ hop
      have hd := (List.nodup_append.mp hnodup).2.2
      exact hd (by rw [heqL]; exact hxl) (by rw [heqR]; exact hxr)
  | right hop hsrc h ih =>
    intro k h₂
    cases h₂ with
    | refl => exact Or.inr (Or.inl (.right hop hsrc h))
    | right hop' hsrc' h' =>
      rw [hop] at hop'
      injection hop' with hop'
      subst hop'
      rw [hsrc] at hsrc'
      injection hsrc' with hsrc'
      subst hsrc'
      exact ih k h'
    | left hop' hsrc' h' =>
      rw [hop] at hop'
      injection hop' with hop'
      subst hop'
      refine Or.inr (Or.inr ?_)
      intro x opj opk hopj hopk hxj hxk
      obtain ⟨_, _, _, _, _, _, _, _, hls, hrs⟩ := hW _ _ hop
      obtain ⟨_, srcR, hgetR, heqR⟩ := hrs _ hsrc
      obtain ⟨_, srcL, hgetL, heqL⟩ := hls _ hsrc'
      have hxr : x ∈ srcR.left ++ srcR.right :=
        initReach_span items init hW h srcR opj hgetR hopj x hxj
      have hxl : x ∈ srcL.left ++ srcL.right :=
        initReach_span items init hW h' srcL opk hgetL hopk x hxk
      have hnodup := static_span_nodup items hnd init hW _ _ hop
      have hd := (List.nodup_append.mp hnodup).2.2
      exact hd (by rw [heqL]; exact hxl) (by rw [heqR]; exact hxr)

end MergeStrategy

end Rankhaus

namespace Rankhaus

namespace MergeStrategy

/-- Distinct operations never share a cross pair (one element from the left
segment, one from the right segment), even as unordered pairs: the canonical
ledger keys differ. -/
theorem cross_unique (items : List Id) (hnd : items.Nodup)
    {j k : Nat} (hjk : j ≠ k) (opj opk : MergeOp)
    (hopj : (init_merge_sort items)[j]? = some opj)
    (hopk : (init_merge_sort items)[k]? = some opk)
    {x y u v : Id} (hx : x ∈ opj.left) (hy : y ∈ opj.right)
    (hu : u ∈ opk.left) (hv : v ∈ opk.right) :
    get_comparison_key x y ≠ get_comparison_key u v := by
  intro hkey
  have hW := init_static items
  have hjlt : j < (init_merge_sort items).length :=
    (List.getElem?_eq_some.mp hopj).1
  have hklt : k < (init_merge_sort items).length :=
    (List.getElem?_eq_some.mp hopk).1
  have h2 : 2 ≤ items.length := by
    by_contra hc
    rw [init_nil items (by omega)] at hjlt
    simp at hjlt
  have hroot := init_rooted items h2
  have hrj : InitReach (init_merge_sort items)
      ((init_merge_sort items).length - 1) j := hroot j hjlt
  have hrk := hroot k hklt
  have hlam := initReach_laminar items hnd (init_merge_sort items) hW hrj k hrk
  have hpair := key_eq_unordered x y u v hkey
  have hndj := static_span_nodup items hnd _ hW j opj hopj
  have hndk := static_span_nodup items hnd _ hW k opk hopk
  have hdj := (List.nodup_append.mp hndj).2.2
  have hdk := (List.nodup_append.mp hndk).2.2
  rcases hlam with hreach | hreach | hdisj
  · -- k lies strictly inside operation j's tree
    cases hreach with
    | refl => exact hjk rfl
    | left hop hsrc h =>
      rw [hopj] at hop
      injection hop with hop
      subst hop
      obtain ⟨_, _, _, _, _, _, _, _, hls, _⟩ := hW _ _ hopj
      obtain ⟨_, src, hget, heq⟩ := hls _ hsrc
      have hus : u ∈ opj.left := by
        rw [heq]
        exact initReach_span items _ hW h src opk hget hopk u
          (List.mem_append_left _ hu)
      have hvs : v ∈ opj.left := by
        rw [heq]
        exact initReach_span items _ hW h src opk hget hopk v
          (List.mem_append_right _ hv)
      rcases hpair with ⟨hxu, hyv⟩ | ⟨hxv, hyu⟩
      · exact hdj (by rw [hyv]; exact hvs) hy
      · exact hdj (by rw [hyu]; exact hus) hy
    | right hop hsrc h =>
      rw [hopj] at hop
      injection hop with hop
      subst hop
      obtain ⟨_, _, _, _, _, _, _, _, _, hrs⟩ := hW _ _ hopj
      obtain ⟨_, src, hget, heq⟩ := hrs _ hsrc
      have hus : u ∈ opj.right := by
        rw [heq]
        exact initReach_span items _ hW h src opk hget hopk u
          (List.mem_append_left _ hu)
      have hvs : v ∈ opj.right := by
        rw [heq]
        exact initReach_span items _ hW h src opk hget hopk v
          (List.mem_append_right _ hv)
      rcases hpair with ⟨hxu, hyv⟩ | ⟨hxv, hyu⟩
      · exact hdj hx (by rw [hxu]; exact hus)
      · exact hdj hx (by rw [hxv]; exact hvs)
  · -- j lies strictly inside operation k's tree
    cases hreach with
    | refl => exact hjk rfl.symm
    | left hop hsrc h =>
      rw [hopk] at hop
      injection hop with hop
      subst hop
      obtain ⟨_, _, _, _, _, _, _, _, hls, _⟩ := hW _ _ hopk
      obtain ⟨_, src, hget, heq⟩ := hls _ hsrc
      have hxs : x ∈ opk.left := by
        rw [heq]
        exact initReach_span items _ hW h src opj hget hopj x
          (List.mem_append_left _ hx)
      have hys : y ∈ opk.left := by
        rw [heq]
        exact initReach_span items _ hW h src opj hget hopj y
          (List.mem_append_right _ hy)
      rcases hpair with ⟨hxu, hyv⟩ | ⟨hxv, hyu⟩
      · exact hdk (by rw [← hyv]; exact hys) hv
      · exact hdk (by rw [← hxv]; exact hxs) hv
    | right hop hsrc h =>
      rw [hopk] at hop
      injection hop with hop
      subst hop
      obtain ⟨_, _, _, _, _, _, _, _, _, hrs⟩ := hW _ _ hopk
      obtain ⟨_, src, hget, heq⟩ := hrs _ hsrc
      have hxs : x ∈ opk.right := by
        rw [heq]
        exact initReach_span items _ hW h src opj hget hopj x
          (List.mem_append_left _ hx)
      have hys : y ∈ opk.right := by
        rw [heq]
        exact initReach_span items _ hW h src opj hget hopj y
          (List.mem_append_right _ hy)
      rcases hpair with ⟨hxu, hyv⟩ | ⟨hxv, hyu⟩
      · exact hdk hu (by rw [← hxu]; exact hxs)
      · exact hdk hu (by rw [← hyu]; exact hys)
  · -- the two trees are disjoint
    rcases hpair with ⟨hxu, _⟩ | ⟨hxv, _⟩
    · exact hdisj x opj opk hopj hopk (List.mem_append_left _ hx)
        (by rw [hxu]; exact List.mem_append_left _ hu)
    · exact hdisj x opj opk hopj hopk (List.mem_append_left _ hx)
        (by rw [hxv]; exact List.mem_append_right _ hv)

end MergeStrategy

end Rankhaus

/-! ## Consequences of the dynamic invariant: finished operations hold
sorted permutations of their segments -/

namespace Rankhaus

namespace MergeStrategy

theorem span_sub_items (items : List Id) (j : Nat) (iop : MergeOp)
    (hiop : (init_merge_sort items)[j]? = some iop) :
    ∀ x, x ∈ iop.left ++ iop.right → x ∈ items :=
  fun _ hx => ((init_static items) j iop hiop).1.sublist.subset hx

theorem done_result_perm (items : List Id) (better : Id → Id → Bool)
    (stack : List MergeOp) (hSI : StackInv stack)
    (hD : DynStack better (init_merge_sort items) stack) :
    ∀ (j : Nat) (op iop : MergeOp), stack[j]? = some op →
      (init_merge_sort items)[j]? = some iop →
      op.isDone = true → op.result.Perm (iop.left ++ iop.right) := by
  intro j
  induction j using Nat.strong_induction_on with
  | _ j ih =>
    intro op iop hop hiop hdone
    have hW := init_static items
    have hinv := hSI op (mem_of_getElem_some hop)
    obtain ⟨hsl, hsr, hme⟩ := hD.2 j op iop hop hiop
    have hleft : op.left.Perm iop.left := by
      rcases hsl with ⟨_, hcur⟩ | ⟨_, i, hisrc, src, hsget, hsdone, hcur⟩
      · rw [hcur]
      · obtain ⟨_, _, _, _, _, _, _, _, hls, _⟩ := hW _ _ hiop
        obtain ⟨hilt, isrc, hgeti, heqi⟩ := hls _ hisrc
        have hp := ih i hilt src isrc hsget hgeti hsdone
        rw [hcur, heqi]
        exact hp
    have hright : op.right.Perm iop.right := by
      rcases hsr with ⟨_, hcur⟩ | ⟨_, i, hisrc, src, hsget, hsdone, hcur⟩
      · rw [hcur]
      · obtain ⟨_, _, _, _, _, _, _, _, _, hrs⟩ := hW _ _ hiop
        obtain ⟨hilt, isrc, hgeti, heqi⟩ := hrs _ hisrc
        have hp := ih i hilt src isrc hsget hgeti hsdone
        rw [hcur, heqi]
        exact hp
    simp only [MergeOp.isDone, Bool.and_eq_true, decide_eq_true_eq] at hdone
    have hme' : op.result ++ mergeR better (op.left.drop op.left_idx)
        (op.right.drop op.right_idx) = mergeR better op.left op.right := hme
    rw [hdone.1, hdone.2, List.drop_length, List.drop_length, mergeR_nil,
      List.append_nil] at hme'
    rw [hme']
    exact (mergeR_perm better _ _).trans (hleft.append hright)

theorem side_elems (items : List Id) (better : Id → Id → Bool)
    (stack : List MergeOp) (hSI : StackInv stack)
    (hD : DynStack better (init_merge_sort items) stack)
    (j : Nat) (op iop : MergeOp) (hop : stack[j]? = some op)
    (hiop : (init_merge_sort items)[j]? = some iop) :
    (∀ x ∈ op.left, x ∈ iop.left) ∧ (∀ x ∈ op.right, x ∈ iop.right) := by
  have hW := init_static items
  obtain ⟨hsl, hsr, _⟩ := hD.2 j op iop hop hiop
  constructor
  · rcases hsl with ⟨_, hcur⟩ | ⟨_, i, hisrc, src, hsget, hsdone, hcur⟩
    · rw [hcur]
      exact fun x hx => hx
    · intro x hx
      obtain ⟨_, _, _, _, _, _, _, _, hls, _⟩ := hW _ _ hiop
      obtain ⟨hilt, isrc, hgeti, heqi⟩ := hls _ hisrc
      have hp := done_result_perm items better stack hSI hD i src isrc
        hsget hgeti hsdone
      rw [hcur] at hx
      rw [heqi]
      exact hp.mem_iff.mp hx
  · rcases hsr with ⟨_, hcur⟩ | ⟨_, i, hisrc, src, hsget, hsdone, hcur⟩
    · rw [hcur]
      exact fun x hx => hx
    · intro x hx
      obtain ⟨_, _, _, _, _, _, _, _, _, hrs⟩ := hW _ _ hiop
      obtain ⟨hilt, isrc, hgeti, heqi⟩ := hrs _ hisrc
      have hp := done_result_perm items better stack hSI hD i src isrc
        hsget hgeti hsdone
      rw [hcur] at hx
      rw [heqi]
      exact hp.mem_iff.mp hx

theorem ledger_winner_of_op (items : List Id) (better : Id → Id → Bool)
    (hnd : items.Nodup) (L : Ledger)
    (hL : LedgerOk better (init_merge_sort items) L)
    (j : Nat) (iop : MergeOp)
    (hiop : (init_merge_sort items)[j]? = some iop) :
    ∀ l r, l ∈ iop.left → r ∈ iop.right →
      l ≠ r ∧ ∀ v, L.get (get_comparison_key l r) = some v →
        v = (if better l r then l else r).str := by
  intro l r hl hr
  have hndspan := static_span_nodup items hnd _ (init_static items) j iop hiop
  have hd := (List.nodup_append.mp hndspan).2.2
  have hlr : l ≠ r := fun hc => hd hl (by rw [hc]; exact hr)
  refine ⟨hlr, ?_⟩
  intro v hv
  obtain ⟨j', iop', x, y, hiop', hx, hy, hkey, hval⟩ := hL _ v hv
  by_cases hjj : j' = j
  · subst hjj
    rw [hiop'] at hiop
    injection hiop with hiop
    subst hiop
    rcases key_eq_unordered l r x y hkey with ⟨hlx, hry⟩ | ⟨hly, hrx⟩
    · rw [hval, ← hlx, ← hry]
    · exact absurd (hd hl (by rw [hly]; exact hy)) (fun hc => hc)
  · exact absurd hkey
      (cross_unique items hnd (fun hc => hjj hc.symm) iop iop' hiop hiop'
        hl hr hx hy)

theorem done_result_sorted (items : List Id) (better : Id → Id → Bool)
    (hnd : items.Nodup)
    (htr : ∀ a ∈ items, ∀ b ∈ items, ∀ c ∈ items,
      better a b = true → better b c = true → better a c = true)
    (hord : ∀ a ∈ items, ∀ b ∈ items, a ≠ b → better b a = (!better a b))
    (stack : List MergeOp) (hSI : StackInv stack)
    (hD : DynStack better (init_merge_sort items) stack) :
    ∀ (j : Nat) (op iop : MergeOp), stack[j]? = some op →
      (init_merge_sort items)[j]? = some iop →
      op.isDone = true →
      List.Pairwise (fun a b => better a b = true) op.result := by
  intro j
  induction j using Nat.strong_induction_on with
  | _ j ih =>
    intro op iop hop hiop hdone
    have hW := init_static items
    have hinv := hSI op (mem_of_getElem_some hop)
    obtain ⟨hnsl, hnsr⟩ := done_nosrc op hinv hdone
    obtain ⟨hsl, hsr, hme⟩ := hD.2 j op iop hop hiop
    have hlsort : List.Pairwise (fun a b => better a b = true) op.left := by
      rcases hsl with ⟨hcs, hcur⟩ | ⟨_, i, hisrc, src, hsget, hsdone, hcur⟩
      · rw [hnsl] at hcs
        obtain ⟨_, _, _, _, _, _, hsing, _, _, _⟩ := hW _ _ hiop
        obtain ⟨x, hx⟩ := hsing hcs.symm
        rw [hcur, hx]
        exact List.pairwise_singleton _ _
      · obtain ⟨_, _, _, _, _, _, _, _, hls, _⟩ := hW _ _ hiop
        obtain ⟨hilt, isrc, hgeti, _⟩ := hls _ hisrc
        rw [hcur]
        exact ih i hilt src isrc hsget hgeti hsdone
    have hrsort : List.Pairwise (fun a b => better a b = true) op.right := by
      rcases hsr with ⟨hcs, hcur⟩ | ⟨_, i, hisrc, src, hsget, hsdone, hcur⟩
      · rw [hnsr] at hcs
        obtain ⟨_, _, _, _, _, _, _, hsing, _, _⟩ := hW _ _ hiop
        obtain ⟨x, hx⟩ := hsing hcs.symm
        rw [hcur, hx]
        exact List.pairwise_singleton _ _
      · obtain ⟨_, _, _, _, _, _, _, _, _, hrs⟩ := hW _ _ hiop
        obtain ⟨hilt, isrc, hgeti, _⟩ := hrs _ hisrc
        rw [hcur]
        exact ih i hilt src isrc hsget hgeti hsdone
    simp only [MergeOp.isDone, Bool.and_eq_true, decide_eq_true_eq] at hdone
    have hme' : op.result ++ mergeR better (op.left.drop op.left_idx)
        (op.right.drop op.right_idx) = mergeR better op.left op.right := hme
    rw [hdone.1, hdone.2, List.drop_length, List.drop_length, mergeR_nil,
      List.append_nil] at hme'
    rw [hme']
    have helems := side_elems items better stack hSI hD j op iop hop hiop
    have hsub := span_sub_items items j iop hiop
    have hmeml : ∀ x ∈ op.left, x ∈ items :=
      fun x hx => hsub x (List.mem_append_left _ (helems.1 x hx))
    have hmemr : ∀ x ∈ op.right, x ∈ items :=
      fun x hx => hsub x (List.mem_append_right _ (helems.2 x hx))
    have hndspan := static_span_nodup items hnd _ hW j iop hiop
    have hd := (List.nodup_append.mp hndspan).2.2
    have hnecross : ∀ u ∈ op.left, ∀ v ∈ op.right, u ≠ v := by
      intro u hu v hv hc
      exact hd (helems.1 u hu) (by rw [hc]; exact helems.2 v hv)
    refine mergeR_pairwise better op.left op.right hlsort hrsort hnecross
      ?_ ?_
    · intro u hu v hv
      have hne := hnecross u hu v hv
      have hflip := hord u (hmeml u hu) v (hmemr v hv) hne
      cases hb : better u v with
      | true => exact Or.inl rfl
      | false =>
        refine Or.inr ?_
        rw [hflip, hb]
        rfl
    · intro u v z hu hv hz hbuv hbvz
      have hmem : ∀ w, w ∈ op.left ++ op.right → w ∈ items := by
        intro w hw
        rcases List.mem_append.mp hw with hw | hw
        · exact hmeml w hw
        · exact hmemr w hw
      exact htr u (hmem u hu) v (hmem v hv) z (hmem z hz) hbuv hbvz

end MergeStrategy

end Rankhaus

/-! ## The consume loop follows the deterministic merge -/

namespace Rankhaus

namespace MergeStrategy

theorem consumeGo_mergeEq (better : Id → Id → Bool) (L : Ledger) :
    ∀ (fuel : Nat) (op : MergeOp),
      (∀ l r, l ∈ op.left → r ∈ op.right → l ≠ r ∧
        ∀ v, L.get (get_comparison_key l r) = some v →
          v = (if better l r then l else r).str) →
      MergeEq better op → MergeEq better (consumeGo L fuel op)
  | 0, op, _, hme => hme
  | fuel + 1, op, hSC, hme => by
    simp only [consumeGo]
    split
    next hl =>
      split
      next hr =>
        split
        next hget => exact hme
        next w hget =>
          obtain ⟨hlr, hw⟩ := hSC op.left[op.left_idx] op.right[op.right_idx]
            (List.getElem_mem hl) (List.getElem_mem hr)
          have hw' := hw w hget
          have hmel : op.left.drop op.left_idx
              = op.left[op.left_idx] :: op.left.drop (op.left_idx + 1) :=
            List.drop_eq_getElem_cons hl
          have hmer : op.right.drop op.right_idx
              = op.right[op.right_idx] :: op.right.drop (op.right_idx + 1) :=
            List.drop_eq_getElem_cons hr
          cases hb : better op.left[op.left_idx] op.right[op.right_idx] with
          | true =>
            rw [if_pos hb] at hw'
            rw [if_pos hw']
            rw [if_pos rfl]
            refine consumeGo_mergeEq better L fuel _ hSC ?_
            show op.result ++ [op.left[op.left_idx]]
                ++ mergeR better (op.left.drop (op.left_idx + 1))
                  (op.right.drop op.right_idx)
              = mergeR better op.left op.right
            have hme' : op.result ++ mergeR better (op.left.drop op.left_idx)
                (op.right.drop op.right_idx)
              = mergeR better op.left op.right := hme
            rw [hmel, hmer, mergeR_cons_cons, if_pos hb, ← hmer] at hme'
            rw [← hme']
            simp [List.append_assoc]
          | false =>
            rw [if_neg (by simp [hb])] at hw'
            have hcond : ¬ w = (op.left[op.left_idx]).str := by
              rw [hw']
              intro hc
              exact hlr (Id.str_injective _ _ hc).symm
            rw [if_neg hcond]
            rw [if_neg (fun hc => hlr hc.symm)]
            refine consumeGo_mergeEq better L fuel _ hSC ?_
            show op.result ++ [op.right[op.right_idx]]
                ++ mergeR better (op.left.drop op.left_idx)
                  (op.right.drop (op.right_idx + 1))
              = mergeR better op.left op.right
            have hme' : op.result ++ mergeR better (op.left.drop op.left_idx)
                (op.right.drop op.right_idx)
              = mergeR better op.left op.right := hme
            rw [hmel, hmer, mergeR_cons_cons, if_neg (by simp [hb]), ← hmel]
              at hme'
            rw [← hme']
            simp [List.append_assoc]
      next hr => exact hme
    next hl => exact hme

theorem tailFlush_mergeEq (better : Id → Id → Bool) (op : MergeOp)
    (hme : MergeEq better op) : MergeEq better (tailFlush op) := by
  unfold tailFlush
  split_ifs with h1 h2
  · have hme' : op.result ++ mergeR better (op.left.drop op.left_idx)
        (op.right.drop op.right_idx) = mergeR better op.left op.right := hme
    rw [h1, List.drop_length, mergeR_nil] at hme'
    show (op.result ++ op.right.drop op.right_idx)
        ++ mergeR better (op.left.drop op.left_idx)
          (op.right.drop op.right.length)
      = mergeR better op.left op.right
    rw [h1, List.drop_length, List.drop_length, mergeR_nil, List.append_nil]
    exact hme'
  · have hme' : op.result ++ mergeR better (op.left.drop op.left_idx)
        (op.right.drop op.right_idx) = mergeR better op.left op.right := hme
    rw [h2, List.drop_length, mergeR_nil_right] at hme'
    show (op.result ++ op.left.drop op.left_idx)
        ++ mergeR better (op.left.drop op.left.length)
          (op.right.drop op.right_idx)
      = mergeR better op.left op.right
    rw [h2, List.drop_length, List.drop_length, mergeR_nil, List.append_nil]
    exact hme'
  · exact hme

theorem advanceOp_mergeEq (better : Id → Id → Bool) (L : Ledger)
    (op : MergeOp)
    (hSC : ∀ l r, l ∈ op.left → r ∈ op.right → l ≠ r ∧
      ∀ v, L.get (get_comparison_key l r) = some v →
        v = (if better l r then l else r).str)
    (hme : MergeEq better op) : MergeEq better (advanceOp L op).1 := by
  unfold advanceOp consumeLoop
  split
  · exact hme
  · simp only
    refine tailFlush_mergeEq better _ ?_
    have hfields := consumeGo_fields L
      (op.left.length - op.left_idx + (op.right.length - op.right_idx)) op
    refine consumeGo_mergeEq better L _ op hSC hme

end MergeStrategy

end Rankhaus

namespace Rankhaus

namespace MergeStrategy

theorem consumeGo_stall (L : Ledger) :
    ∀ (fuel : Nat) (op : MergeOp),
      op.left_idx ≤ op.left.length → op.right_idx ≤ op.right.length →
      op.left.length - op.left_idx + (op.right.length - op.right_idx) ≤ fuel →
      (consumeGo L fuel op).left_idx = (consumeGo L fuel op).left.length
      ∨ (consumeGo L fuel op).right_idx = (consumeGo L fuel op).right.length
      ∨ ((consumeGo L fuel op).left_idx < (consumeGo L fuel op).left.length
        ∧ (consumeGo L fuel op).right_idx < (consumeGo L fuel op).right.length
        ∧ ∀ l r,
            (consumeGo L fuel op).left[(consumeGo L fuel op).left_idx]?
              = some l →
            (consumeGo L fuel op).right[(consumeGo L fuel op).right_idx]?
              = some r →
            L.get (get_comparison_key l r) = none)
  | 0, op, hbl, hbr, hf => by
    simp only [consumeGo]
    exact Or.inl (by omega)
  | fuel + 1, op, hbl, hbr, hf => by
    simp only [consumeGo]
    split
    next hl =>
      split
      next hr =>
        split
        next hget =>
          refine Or.inr (Or.inr ⟨hl, hr, ?_⟩)
          intro l r hgl hgr
          rw [List.getElem?_eq_getElem hl] at hgl
          injection hgl with hgl
          rw [List.getElem?_eq_getElem hr] at hgr
          injection hgr with hgr
          rw [← hgl, ← hgr]
          exact hget
        next w hget =>
          split
          next hwin =>
            rw [if_pos rfl]
            refine consumeGo_stall L fuel _ ?_ ?_ ?_
            · show op.left_idx + 1 ≤ op.left.length
              omega
            · show op.right_idx ≤ op.right.length
              omega
            · show op.left.length - (op.left_idx + 1)
                + (op.right.length - op.right_idx) ≤ fuel
              omega
          next hwin =>
            split
            next heq2 =>
              refine consumeGo_stall L fuel _ ?_ ?_ ?_
              · show op.left_idx + 1 ≤ op.left.length
                omega
              · show op.right_idx ≤ op.right.length
                omega
              · show op.left.length - (op.left_idx + 1)
                  + (op.right.length - op.right_idx) ≤ fuel
                omega
            next heq2 =>
              refine consumeGo_stall L fuel _ ?_ ?_ ?_
              · show op.left_idx ≤ op.left.length
                omega
              · show op.right_idx + 1 ≤ op.right.length
                omega
              · show op.left.length - op.left_idx
                  + (op.right.length - (op.right_idx + 1)) ≤ fuel
                omega
      next hr => exact Or.inr (Or.inl (by omega))
    next hl => exact Or.inl (by omega)

theorem advanceOp_stall (L : Ledger) (op : MergeOp) (hinv : OpInv op)
    (hls : op.left_source = none) (hrs : op.right_source = none) :
    (advanceOp L op).1.isDone = true ∨
    ((advanceOp L op).1.left_idx < (advanceOp L op).1.left.length
      ∧ (advanceOp L op).1.right_idx < (advanceOp L op).1.right.length
      ∧ ∀ l r,
          (advanceOp L op).1.left[(advanceOp L op).1.left_idx]? = some l →
          (advanceOp L op).1.right[(advanceOp L op).1.right_idx]? = some r →
          L.get (get_comparison_key l r) = none) := by
  obtain ⟨hnl, hnr, hbl, hbr, hlen, _⟩ := hinv
  unfold advanceOp consumeLoop
  rw [if_neg (by simp [hls, hrs])]
  simp only
  obtain ⟨e₁, e₂, _, _⟩ := consumeGo_fields L
    (op.left.length - op.left_idx + (op.right.length - op.right_idx)) op
  obtain ⟨m₁, m₂, _⟩ := consumeGo_measure L
    (op.left.length - op.left_idx + (op.right.length - op.right_idx)) op
    hbl hbr hlen
  have hst := consumeGo_stall L
    (op.left.length - op.left_idx + (op.right.length - op.right_idx)) op
    hbl hbr le_rfl
  rcases hst with hst | hst | hst
  · refine Or.inl ?_
    unfold tailFlush
    rw [if_pos hst]
    simp [MergeOp.isDone, hst]
  · by_cases hstl : (consumeGo L
        (op.left.length - op.left_idx + (op.right.length - op.right_idx))
          op).left_idx
      = (consumeGo L
          (op.left.length - op.left_idx + (op.right.length - op.right_idx))
            op).left.length
    · refine Or.inl ?_
      unfold tailFlush
      rw [if_pos hstl]
      simp [MergeOp.isDone, hstl]
    · refine Or.inl ?_
      unfold tailFlush
      rw [if_neg hstl, if_pos hst]
      simp [MergeOp.isDone, hst]
  · obtain ⟨hcl, hcr, hmiss⟩ := hst
    have hid : tailFlush (consumeGo L
        (op.left.length - op.left_idx + (op.right.length - op.right_idx)) op)
      = consumeGo L
        (op.left.length - op.left_idx + (op.right.length - op.right_idx))
          op := by
      unfold tailFlush
      rw [if_neg (by omega), if_neg (by omega)]
    rw [hid]
    exact Or.inr ⟨hcl, hcr, hmiss⟩

theorem advanceOp_snd_false (L : Ledger) (op : MergeOp) (hinv : OpInv op)
    (h : (advanceOp L op).2 = false) : (advanceOp L op).1.isDone = false := by
  unfold advanceOp at h ⊢
  by_cases hp : (op.left_source.isSome || op.right_source.isSome) = true
  · rw [if_pos hp]
    obtain ⟨hnl, _, _, _, _, hpend⟩ := hinv
    have hp' : op.left_source.isSome = true ∨ op.right_source.isSome = true :=
      by simpa using hp
    obtain ⟨hz, _, _⟩ := hpend hp'
    have hlen : op.left.length ≠ 0 :=
      fun hc => hnl (List.eq_nil_of_length_eq_zero hc)
    simp only [MergeOp.isDone, hz]
    simp only [Bool.and_eq_false_iff, decide_eq_false_iff_not]
    left
    omega
  · rw [if_neg hp] at h ⊢
    exact h

end MergeStrategy

end Rankhaus

/-! ## The substitution pass preserves the dynamic invariant -/

namespace Rankhaus

namespace MergeStrategy

theorem sideOk_frozen (stack stack' : List MergeOp) (cur : List Id)
    (csrc isrc : Option Nat) (iside : List Id)
    (hwit : ∀ (i : Nat) (opi : MergeOp), stack[i]? = some opi →
      opi.isDone = true → stack'[i]? = some opi)
    (h : SideOk stack cur csrc isrc iside) :
    SideOk stack' cur csrc isrc iside := by
  rcases h with ⟨h₁, h₂⟩ | ⟨h₁, i, hi, src, hget, hdone, hcur⟩
  · exact Or.inl ⟨h₁, h₂⟩
  · exact Or.inr ⟨h₁, i, hi, src, hwit i src hget hdone, hdone, hcur⟩

theorem set_left_dyn (better : Id → Id → Bool) (init stack : List MergeOp)
    (idx si : Nat) (op src : MergeOp)
    (hSI : StackInv stack) (hD : DynStack better init stack)
    (hop : stack[idx]? = some op) (hsrc : stack[si]? = some src)
    (hsd : src.isDone = true) (hls : op.left_source = some si)
    (hfresh : op.left_idx = 0 ∧ op.result = []) :
    DynStack better init
      (stack.set idx { op with left := src.result, left_source := none }) := by
  have hwit : ∀ (i : Nat) (opi : MergeOp), stack[i]? = some opi →
      opi.isDone = true →
      (stack.set idx { op with left := src.result, left_source := none })[i]?
        = some opi :=
    fun i opi hoi hdi => set_preserves_done_witness stack idx _ hSI
      (fun o ho => by
        rw [hop] at ho
        injection ho with ho
        rw [← ho]
        exact hfresh.2)
      i opi hoi hdi
  have hridx : op.right_idx = 0 := by
    obtain ⟨_, _, _, _, hlen, _⟩ := hSI op (mem_of_getElem_some hop)
    rw [hfresh.2] at hlen
    simp at hlen
    omega
  constructor
  · rw [List.length_set]
    exact hD.1
  · intro j opj iopj hj hij
    by_cases hji : j = idx
    · subst hji
      have hlt : j < stack.length := (List.getElem?_eq_some.mp hop).1
      rw [List.getElem?_set_self hlt] at hj
      injection hj with hj
      subst hj
      obtain ⟨hsl, hsr, hme⟩ := hD.2 j op iopj hop hij
      refine ⟨?_, ?_, ?_⟩
      · refine Or.inr ⟨rfl, si, ?_, src, hwit si src hsrc hsd, hsd, rfl⟩
        rcases hsl with ⟨hc, _⟩ | ⟨hnone, _⟩
        · rw [← hc]
          exact hls
        · rw [hls] at hnone
          cases hnone
      · exact sideOk_frozen stack _ op.right op.right_source
          iopj.right_source iopj.right hwit hsr
      · show op.result ++ mergeR better (src.result.drop op.left_idx)
            (op.right.drop op.right_idx)
          = mergeR better src.result op.right
        rw [hfresh.1, hfresh.2, hridx, List.drop_zero, List.drop_zero]
        rfl
    · rw [List.getElem?_set_ne (fun hh => hji hh.symm)] at hj
      obtain ⟨hsl, hsr, hme⟩ := hD.2 j opj iopj hj hij
      exact ⟨sideOk_frozen stack _ _ _ _ _ hwit hsl,
        sideOk_frozen stack _ _ _ _ _ hwit hsr, hme⟩

theorem set_right_dyn (better : Id → Id → Bool) (init stack : List MergeOp)
    (idx si : Nat) (op src : MergeOp)
    (hSI : StackInv stack) (hD : DynStack better init stack)
    (hop : stack[idx]? = some op) (hsrc : stack[si]? = some src)
    (hsd : src.isDone = true) (hrs : op.right_source = some si)
    (hfresh : op.right_idx = 0 ∧ op.result = []) :
    DynStack better init
      (stack.set idx { op with right := src.result, right_source := none }) := by
  have hwit : ∀ (i : Nat) (opi : MergeOp), stack[i]? = some opi →
      opi.isDone = true →
      (stack.set idx { op with right := src.result, right_source := none })[i]?
        = some opi :=
    fun i opi hoi hdi => set_preserves_done_witness stack idx _ hSI
      (fun o ho => by
        rw [hop] at ho
        injection ho with ho
        rw [← ho]
        exact hfresh.2)
      i opi hoi hdi
  have hlidx : op.left_idx = 0 := by
    obtain ⟨_, _, _, _, hlen, _⟩ := hSI op (mem_of_getElem_some hop)
    rw [hfresh.2] at hlen
    simp at hlen
    omega
  constructor
  · rw [List.length_set]
    exact hD.1
  · intro j opj iopj hj hij
    by_cases hji : j = idx
    · subst hji
      have hlt : j < stack.length := (List.getElem?_eq_some.mp hop).1
      rw [List.getElem?_set_self hlt] at hj
      injection hj with hj
      subst hj
      obtain ⟨hsl, hsr, hme⟩ := hD.2 j op iopj hop hij
      refine ⟨?_, ?_, ?_⟩
      · exact sideOk_frozen stack _ op.left op.left_source
          iopj.left_source iopj.left hwit hsl
      · refine Or.inr ⟨rfl, si, ?_, src, hwit si src hsrc hsd, hsd, rfl⟩
        rcases hsr with ⟨hc, _⟩ | ⟨hnone, _⟩
        · rw [← hc]
          exact hrs
        · rw [hrs] at hnone
          cases hnone
      · show op.result ++ mergeR better (op.left.drop op.left_idx)
            (src.result.drop op.right_idx)
          = mergeR better op.left src.result
        rw [hfresh.1, hfresh.2, hlidx, List.drop_zero, List.drop_zero]
        rfl
    · rw [List.getElem?_set_ne (fun hh => hji hh.symm)] at hj
      obtain ⟨hsl, hsr, hme⟩ := hD.2 j opj iopj hj hij
      exact ⟨sideOk_frozen stack _ _ _ _ _ hwit hsl,
        sideOk_frozen stack _ _ _ _ _ hwit hsr, hme⟩

theorem substLeftAt_dyn (better : Id → Id → Bool) (init stack : List MergeOp)
    (idx si : Nat) (hSI : StackInv stack) (hD : DynStack better init stack)
    (hsi : ∀ op, stack[idx]? = some op → op.left_source = some si) :
    DynStack better init (substLeftAt stack idx si) := by
  unfold substLeftAt
  split
  · exact hD
  next src hsrc =>
    split
    · next hdone =>
      split
      · exact hD
      next op hop =>
        split
        · next hfresh =>
          have hsrcdone : src.isDone = true := by
            simp [MergeOp.isDone, hdone.1, hdone.2.1]
          exact set_left_dyn better init stack idx si op src hSI hD hop hsrc
            hsrcdone (hsi op hop) hfresh
        · exact hD
    · exact hD

theorem substRightAt_dyn (better : Id → Id → Bool) (init stack : List MergeOp)
    (idx si : Nat) (hSI : StackInv stack) (hD : DynStack better init stack)
    (hsi : ∀ op, stack[idx]? = some op → op.right_source = some si) :
    DynStack better init (substRightAt stack idx si) := by
  unfold substRightAt
  split
  · exact hD
  next src hsrc =>
    split
    · next hdone =>
      split
      · exact hD
      next op hop =>
        split
        · next hfresh =>
          have hsrcdone : src.isDone = true := by
            simp [MergeOp.isDone, hdone.1, hdone.2.1]
          exact set_right_dyn better init stack idx si op src hSI hD hop hsrc
            hsrcdone (hsi op hop) hfresh
        · exact hD
    · exact hD

theorem substStep_dyn (better : Id → Id → Bool) (init stack : List MergeOp)
    (idx : Nat) (hSI : StackInv stack) (hD : DynStack better init stack) :
    DynStack better init (substStep stack idx) := by
  unfold substStep
  split
  · exact hD
  next op₀ h₀ =>
    cases hls : op₀.left_source with
    | none =>
      cases hrs : op₀.right_source with
      | none => exact hD
      | some si =>
        exact substRightAt_dyn better init stack idx si hSI hD
          (fun op hop => by
            rw [h₀] at hop
            injection hop with hop
            rw [← hop]
            exact hrs)
    | some si =>
      have h₁SI := substLeftAt_stackinv stack idx si hSI
      have h₁D := substLeftAt_dyn better init stack idx si hSI hD
        (fun op hop => by
          rw [h₀] at hop
          injection hop with hop
          rw [← hop]
          exact hls)
      cases hrs : op₀.right_source with
      | none => exact h₁D
      | some si' =>
        refine substRightAt_dyn better init _ idx si' h₁SI h₁D ?_
        intro op hop
        obtain ⟨op', hop', hrs'⟩ := substLeftAt_at_idx stack idx si op₀ h₀
        rw [hop'] at hop
        injection hop with hop
        rw [← hop, hrs']
        exact hrs

theorem substPass_dyn (better : Id → Id → Bool) (init stack : List MergeOp)
    (hSI : StackInv stack) (hD : DynStack better init stack) :
    DynStack better init (substPass stack) := by
  unfold substPass
  generalize List.range stack.length = idxs
  induction idxs generalizing stack with
  | nil => exact hD
  | cons i rest ih =>
    exact ih _ (substStep_stackinv stack i hSI)
      (substStep_dyn better init stack i hSI hD)

end MergeStrategy

end Rankhaus

/-! ## The second pass preserves the dynamic invariant -/

namespace Rankhaus

namespace MergeStrategy

theorem mapped_dyn (items : List Id) (better : Id → Id → Bool)
    (hnd : items.Nodup) (stack : List MergeOp) (L : Ledger)
    (hSI : StackInv stack)
    (hD : DynStack better (init_merge_sort items) stack)
    (hL : LedgerOk better (init_merge_sort items) L) :
    DynStack better (init_merge_sort items)
      ((stack.map (advanceOp L)).map Prod.fst) := by
  have hwit : ∀ (i : Nat) (opi : MergeOp), stack[i]? = some opi →
      opi.isDone = true →
      ((stack.map (advanceOp L)).map Prod.fst)[i]? = some opi := by
    intro i opi hoi hdi
    rw [List.map_map, List.getElem?_map, hoi]
    simp [advanceOp_done_id L opi (hSI opi (mem_of_getElem_some hoi)) hdi]
  constructor
  · simp [hD.1]
  · intro j opj iopj hj hij
    have hj' : ∃ op, stack[j]? = some op ∧ (advanceOp L op).1 = opj := by
      rw [List.map_map, List.getElem?_map] at hj
      cases hq : stack[j]? with
      | none => rw [hq] at hj; cases hj
      | some op =>
        rw [hq] at hj
        injection hj with hj
        exact ⟨op, rfl, hj⟩
    obtain ⟨op, hopj, hfst⟩ := hj'
    obtain ⟨hsl, hsr, hme⟩ := hD.2 j op iopj hopj hij
    obtain ⟨g₁, g₂, g₃, g₄⟩ := advanceOp_fields L op
    have helems := side_elems items better stack hSI hD j op iopj hopj hij
    have hSC : ∀ l r, l ∈ op.left → r ∈ op.right → l ≠ r ∧
        ∀ v, L.get (get_comparison_key l r) = some v →
          v = (if better l r then l else r).str := by
      intro l r hl hr
      exact ledger_winner_of_op items better hnd L hL j iopj hij l r
        (helems.1 l hl) (helems.2 r hr)
    refine ⟨?_, ?_, ?_⟩
    · rw [← hfst, g₁, g₃]
      exact sideOk_frozen stack _ _ _ _ _ hwit hsl
    · rw [← hfst, g₂, g₄]
      exact sideOk_frozen stack _ _ _ _ _ hwit hsr
    · rw [← hfst]
      exact advanceOp_mergeEq better L op hSC hme

theorem process_state_dyn (items : List Id) (better : Id → Id → Bool)
    (hnd : items.Nodup) (L : Ledger) (st : MergeState)
    (hSI : StackInv st.merge_stack)
    (hD : DynStack better (init_merge_sort items) st.merge_stack)
    (hL : LedgerOk better (init_merge_sort items) L) :
    DynStack better (init_merge_sort items)
      (process_merges_state L st).merge_stack := by
  rcases process_state_char L st with ⟨op, _, heq⟩ | heq <;> rw [heq] <;>
    exact mapped_dyn items better hnd _ L (substPass_stackinv _ hSI)
      (substPass_dyn better _ _ hSI hD) hL

theorem substLeftAt_src_back (stack : List MergeOp) (idx si j : Nat)
    (op' : MergeOp) (h : (substLeftAt stack idx si)[j]? = some op') :
    ∃ op, stack[j]? = some op
      ∧ (op'.left_source.isSome = true → op.left_source.isSome = true)
      ∧ (op'.right_source.isSome = true → op.right_source.isSome = true) := by
  unfold substLeftAt at h
  split at h
  · exact ⟨op', h, fun hx => hx, fun hx => hx⟩
  next src hsrc =>
    split at h
    · split at h
      · exact ⟨op', h, fun hx => hx, fun hx => hx⟩
      next op hop =>
        split at h
        · by_cases hij : idx = j
          · subst hij
            have hlt : idx < stack.length := (List.getElem?_eq_some.mp hop).1
            rw [List.getElem?_set_self hlt] at h
            injection h with h
            refine ⟨op, hop, ?_, ?_⟩
            · intro hx
              rw [← h] at hx
              simp at hx
            · intro hx
              rw [← h] at hx
              exact hx
          · rw [List.getElem?_set_ne hij] at h
            exact ⟨op', h, fun hx => hx, fun hx => hx⟩
        · exact ⟨op', h, fun hx => hx, fun hx => hx⟩
    · exact ⟨op', h, fun hx => hx, fun hx => hx⟩

theorem substRightAt_src_back (stack : List MergeOp) (idx si j : Nat)
    (op' : MergeOp) (h : (substRightAt stack idx si)[j]? = some op') :
    ∃ op, stack[j]? = some op
      ∧ (op'.left_source.isSome = true → op.left_source.isSome = true)
      ∧ (op'.right_source.isSome = true → op.right_source.isSome = true) := by
  unfold substRightAt at h
  split at h
  · exact ⟨op', h, fun hx => hx, fun hx => hx⟩
  next src hsrc =>
    split at h
    · split at h
      · exact ⟨op', h, fun hx => hx, fun hx => hx⟩
      next op hop =>
        split at h
        · by_cases hij : idx = j
          · subst hij
            have hlt : idx < stack.length := (List.getElem?_eq_some.mp hop).1
            rw [List.getElem?_set_self hlt] at h
            injection h with h
            refine ⟨op, hop, ?_, ?_⟩
            · intro hx
              rw [← h] at hx
              exact hx
            · intro hx
              rw [← h] at hx
              simp at hx
          · rw [List.getElem?_set_ne hij] at h
            exact ⟨op', h, fun hx => hx, fun hx => hx⟩
        · exact ⟨op', h, fun hx => hx, fun hx => hx⟩
    · exact ⟨op', h, fun hx => hx, fun hx => hx⟩

theorem substStep_src_back (stack : List MergeOp) (idx j : Nat)
    (op' : MergeOp) (h : (substStep stack idx)[j]? = some op') :
    ∃ op, stack[j]? = some op
      ∧ (op'.left_source.isSome = true → op.left_source.isSome = true)
      ∧ (op'.right_source.isSome = true → op.right_source.isSome = true) := by
  unfold substStep at h
  split at h
  · exact ⟨op', h, fun hx => hx, fun hx => hx⟩
  next op₀ h₀ =>
    cases hls : op₀.left_source with
    | none =>
      rw [hls] at h
      cases hrs : op₀.right_source with
      | none =>
        rw [hrs] at h
        exact ⟨op', h, fun hx => hx, fun hx => hx⟩
      | some si =>
        rw [hrs] at h
        exact substRightAt_src_back stack idx si j op' h
    | some si =>
      rw [hls] at h
      cases hrs : op₀.right_source with
      | none =>
        rw [hrs] at h
        exact substLeftAt_src_back stack idx si j op' h
      | some si' =>
        rw [hrs] at h
        obtain ⟨op₁, h₁, f₁, g₁⟩ := substRightAt_src_back _ idx si' j op' h
        obtain ⟨op₂, h₂, f₂, g₂⟩ := substLeftAt_src_back stack idx si j op₁ h₁
        exact ⟨op₂, h₂, fun hx => f₂ (f₁ hx), fun hx => g₂ (g₁ hx)⟩

theorem substPass_src_back (stack : List MergeOp) (j : Nat) (op' : MergeOp)
    (h : (substPass stack)[j]? = some op') :
    ∃ op, stack[j]? = some op
      ∧ (op'.left_source.isSome = true → op.left_source.isSome = true)
      ∧ (op'.right_source.isSome = true → op.right_source.isSome = true) := by
  unfold substPass at h
  revert h
  generalize List.range stack.length = idxs
  intro h
  induction idxs generalizing stack with
  | nil => exact ⟨op', h, fun hx => hx, fun hx => hx⟩
  | cons i rest ih =>
    obtain ⟨op₁, h₁, f₁, g₁⟩ := ih (substStep stack i) h
    obtain ⟨op₂, h₂, f₂, g₂⟩ := substStep_src_back stack i j op₁ h₁
    exact ⟨op₂, h₂, fun hx => f₂ (f₁ hx), fun hx => g₂ (g₁ hx)⟩

theorem process_src_back (L : Ledger) (st : MergeState) (j : Nat)
    (op' : MergeOp)
    (h : (process_merges_state L st).merge_stack[j]? = some op') :
    ∃ op, st.merge_stack[j]? = some op
      ∧ (op'.left_source.isSome = true → op.left_source.isSome = true)
      ∧ (op'.right_source.isSome = true → op.right_source.isSome = true) := by
  have hmap : ∀ op'',
      (((substPass st.merge_stack).map (advanceOp L)).map Prod.fst)[j]?
        = some op'' →
      ∃ op, st.merge_stack[j]? = some op
        ∧ (op''.left_source.isSome = true → op.left_source.isSome = true)
        ∧ (op''.right_source.isSome = true → op.right_source.isSome = true) := by
    intro op'' h''
    rw [List.map_map, List.getElem?_map] at h''
    cases hq : (substPass st.merge_stack)[j]? with
    | none => rw [hq] at h''; cases h''
    | some op₁ =>
      rw [hq] at h''
      injection h'' with h''
      obtain ⟨_, _, g₃, g₄⟩ := advanceOp_fields L op₁
      obtain ⟨op, hop, f, g⟩ := substPass_src_back st.merge_stack j op₁ hq
      refine ⟨op, hop, ?_, ?_⟩
      · intro hx
        rw [← h''] at hx
        simp only [Function.comp_apply] at hx
        rw [g₃] at hx
        exact f hx
      · intro hx
        rw [← h''] at hx
        simp only [Function.comp_apply] at hx
        rw [g₄] at hx
        exact g hx
  rcases process_state_char L st with ⟨op₀, _, heq⟩ | heq <;>
    rw [heq] at h <;> exact hmap op' h

theorem process_state_stalled (L : Ledger) (st : MergeState)
    (hSI : StackInv st.merge_stack) :
    Stalled L (process_merges_state L st).merge_stack := by
  have hmap : ∀ op' ∈ ((substPass st.merge_stack).map (advanceOp L)).map
      Prod.fst,
      op'.left_source = none → op'.right_source = none →
      op'.isDone = true ∨
      (op'.left_idx < op'.left.length ∧ op'.right_idx < op'.right.length ∧
        ∀ l r, op'.left[op'.left_idx]? = some l →
          op'.right[op'.right_idx]? = some r →
          L.get (get_comparison_key l r) = none) := by
    intro op' hmem hls' hrs'
    rw [List.map_map] at hmem
    obtain ⟨op₁, hmem₁, hfst⟩ := List.mem_map.mp hmem
    simp only [Function.comp_apply] at hfst
    obtain ⟨_, _, g₃, g₄⟩ := advanceOp_fields L op₁
    have hls₁ : op₁.left_source = none := by
      rw [← g₃, hfst]
      exact hls'
    have hrs₁ : op₁.right_source = none := by
      rw [← g₄, hfst]
      exact hrs'
    have hinv₁ : OpInv op₁ := substPass_stackinv _ hSI op₁ hmem₁
    have := advanceOp_stall L op₁ hinv₁ hls₁ hrs₁
    rw [hfst] at this
    exact this
  intro op hop
  rcases process_state_char L st with ⟨op₀, _, heq⟩ | heq <;>
    rw [heq] at hop <;> exact hmap op hop

theorem process_state_incomplete_last (L : Ledger) (st : MergeState)
    (hc : (process_merges_state L st).completed = false) :
    st.completed = false
    ∧ ∀ pr, ((substPass st.merge_stack).map (advanceOp L)).getLast? = some pr →
        pr.2 = false := by
  cases hp : ((substPass st.merge_stack).map (advanceOp L)).getLast? with
  | none =>
    simp only [process_merges_state, hp] at hc
    rw [if_neg (by simp)] at hc
    exact ⟨hc, fun pr hpr => Option.noConfusion hpr⟩
  | some pr₀ =>
    obtain ⟨op, done⟩ := pr₀
    cases done with
    | false =>
      simp only [process_merges_state, hp] at hc
      rw [if_neg (by simp)] at hc
      refine ⟨hc, ?_⟩
      intro pr hpr
      injection hpr with hpr
      rw [← hpr]
    | true =>
      exfalso
      have hne : ((substPass st.merge_stack).map (advanceOp L)).map Prod.fst
          ≠ [] := by
        intro hcontra
        rw [List.map_eq_nil_iff] at hcontra
        rw [hcontra] at hp
        simp at hp
      have hlast2 : ((((substPass st.merge_stack).map (advanceOp L)).map
          Prod.fst)).getLast? = some op := by
        rw [List.getLast?_map, hp]
        rfl
      simp only [process_merges_state, hp] at hc
      rw [if_pos ⟨hne, by trivial⟩, hlast2] at hc
      simp at hc

end MergeStrategy

end Rankhaus

/-! ## The scan of `next_comparison`: specification and witnesses -/

namespace Rankhaus

namespace MergeStrategy

theorem next_aux_spec (L : Ledger) :
    ∀ (stack : List MergeOp) (a b : Id),
      next_comparison_aux L stack = some (a, b) →
      ∃ (j : Nat) (op : MergeOp), stack[j]? = some op
        ∧ op.left[op.left_idx]? = some a ∧ op.right[op.right_idx]? = some b
        ∧ L.get (get_comparison_key a b) = none
        ∧ ∀ (j' : Nat) (op' : MergeOp), j' < j → stack[j']? = some op' →
            ∀ a' b', op'.left[op'.left_idx]? = some a' →
              op'.right[op'.right_idx]? = some b' →
              L.get (get_comparison_key a' b') ≠ none
  | [], a, b, h => by
    rw [next_comparison_aux.eq_def] at h
    exact absurd h (by simp)
  | op :: rest, a, b, h => by
    rw [next_comparison_aux.eq_def] at h
    rcases hl : op.left[op.left_idx]? with _ | l <;>
      rcases hr : op.right[op.right_idx]? with _ | r <;>
        simp only [hl, hr] at h
    · obtain ⟨j, op₁, hj, hfa, hfb, hmiss, hmin⟩ := next_aux_spec L rest a b h
      refine ⟨j + 1, op₁, by rw [List.getElem?_cons_succ]; exact hj, hfa, hfb,
        hmiss, ?_⟩
      intro j' op' hlt hop' a' b' ha' hb'
      cases j' with
      | zero =>
        rw [List.getElem?_cons_zero] at hop'
        injection hop' with hop'
        subst hop'
        rw [hl] at ha'
        cases ha'
      | succ j'' =>
        rw [List.getElem?_cons_succ] at hop'
        exact hmin j'' op' (by omega) hop' a' b' ha' hb'
    · obtain ⟨j, op₁, hj, hfa, hfb, hmiss, hmin⟩ := next_aux_spec L rest a b h
      refine ⟨j + 1, op₁, by rw [List.getElem?_cons_succ]; exact hj, hfa, hfb,
        hmiss, ?_⟩
      intro j' op' hlt hop' a' b' ha' hb'
      cases j' with
      | zero =>
        rw [List.getElem?_cons_zero] at hop'
        injection hop' with hop'
        subst hop'
        rw [hl] at ha'
        cases ha'
      | succ j'' =>
        rw [List.getElem?_cons_succ] at hop'
        exact hmin j'' op' (by omega) hop' a' b' ha' hb'
    · obtain ⟨j, op₁, hj, hfa, hfb, hmiss, hmin⟩ := next_aux_spec L rest a b h
      refine ⟨j + 1, op₁, by rw [List.getElem?_cons_succ]; exact hj, hfa, hfb,
        hmiss, ?_⟩
      intro j' op' hlt hop' a' b' ha' hb'
      cases j' with
      | zero =>
        rw [List.getElem?_cons_zero] at hop'
        injection hop' with hop'
        subst hop'
        rw [hr] at hb'
        cases hb'
      | succ j'' =>
        rw [List.getElem?_cons_succ] at hop'
        exact hmin j'' op' (by omega) hop' a' b' ha' hb'
    · by_cases hn : (get_winner L l r).isNone
      · rw [if_pos hn] at h
        injection h with h
        have hla : l = a := congrArg Prod.fst h
        have hrb : r = b := congrArg Prod.snd h
        subst hla
        subst hrb
        refine ⟨0, op, List.getElem?_cons_zero, hl, hr, ?_, ?_⟩
        · simpa [get_winner, Option.isNone_iff_eq_none] using hn
        · intro j' op' hlt
          omega
      · rw [if_neg hn] at h
        obtain ⟨j, op₁, hj, hfa, hfb, hmiss, hmin⟩ := next_aux_spec L rest a b h
        refine ⟨j + 1, op₁, by rw [List.getElem?_cons_succ]; exact hj, hfa, hfb,
        hmiss, ?_⟩
        intro j' op' hlt hop' a' b' ha' hb'
        cases j' with
        | zero =>
          rw [List.getElem?_cons_zero] at hop'
          injection hop' with hop'
          subst hop'
          rw [hl] at ha'
          injection ha' with ha'
          rw [hr] at hb'
          injection hb' with hb'
          subst ha'
          subst hb'
          intro hc
          rw [get_winner, hc] at hn
          simp at hn
        | succ j'' =>
          rw [List.getElem?_cons_succ] at hop'
          exact hmin j'' op' (by omega) hop' a' b' ha' hb'

theorem next_aux_some (L : Ledger) :
    ∀ (stack : List MergeOp),
      (∃ op ∈ stack, ∃ a b,
        op.left[op.left_idx]? = some a ∧ op.right[op.right_idx]? = some b ∧
        L.get (get_comparison_key a b) = none) →
      ∃ p, next_comparison_aux L stack = some p
  | [], h => by
    obtain ⟨op, hmem, _⟩ := h
    cases hmem
  | op :: rest, h => by
    rw [next_comparison_aux.eq_def]
    rcases hl : op.left[op.left_idx]? with _ | l <;>
      rcases hr : op.right[op.right_idx]? with _ | r <;> simp only [hl, hr]
    · refine next_aux_some L rest ?_
      obtain ⟨op₀, hmem, a, b, ha, hb, hm⟩ := h
      rcases List.mem_cons.mp hmem with rfl | hmem
      · rw [hl] at ha
        cases ha
      · exact ⟨op₀, hmem, a, b, ha, hb, hm⟩
    · refine next_aux_some L rest ?_
      obtain ⟨op₀, hmem, a, b, ha, hb, hm⟩ := h
      rcases List.mem_cons.mp hmem with rfl | hmem
      · rw [hl] at ha
        cases ha
      · exact ⟨op₀, hmem, a, b, ha, hb, hm⟩
    · refine next_aux_some L rest ?_
      obtain ⟨op₀, hmem, a, b, ha, hb, hm⟩ := h
      rcases List.mem_cons.mp hmem with rfl | hmem
      · rw [hr] at hb
        cases hb
      · exact ⟨op₀, hmem, a, b, ha, hb, hm⟩
    · by_cases hn : (get_winner L l r).isNone
      · rw [if_pos hn]
        exact ⟨(l, r), rfl⟩
      · rw [if_neg hn]
        refine next_aux_some L rest ?_
        obtain ⟨op₀, hmem, a, b, ha, hb, hm⟩ := h
        rcases List.mem_cons.mp hmem with rfl | hmem
        · rw [hl] at ha
          injection ha with ha
          rw [hr] at hb
          injection hb with hb
          subst ha
          subst hb
          rw [get_winner, hm] at hn
          simp at hn
        · exact ⟨op₀, hmem, a, b, ha, hb, hm⟩

theorem next_aux_none_of_done (L : Ledger) :
    ∀ (stack : List MergeOp), (∀ op ∈ stack, op.isDone = true) →
      next_comparison_aux L stack = none
  | [], _ => rfl
  | op :: rest, h => by
    rw [next_comparison_aux.eq_def]
    have hd := h op (by simp)
    simp only [MergeOp.isDone, Bool.and_eq_true, decide_eq_true_eq] at hd
    have hl : op.left[op.left_idx]? = none :=
      List.getElem?_eq_none (by omega)
    rcases hr : op.right[op.right_idx]? with _ | r <;> simp only [hl, hr] <;>
      exact next_aux_none_of_done L rest (fun o ho => h o (by simp [ho]))

end MergeStrategy

end Rankhaus

/-! ## The first pass, computed at an unblocked waiting operation -/

namespace Rankhaus

namespace MergeStrategy

theorem done_parts (op : MergeOp) (h : op.isDone = true) :
    op.left_idx = op.left.length ∧ op.right_idx = op.right.length := by
  simp only [MergeOp.isDone, Bool.and_eq_true, decide_eq_true_eq] at h
  exact h

theorem substLeftAt_ne (stack : List MergeOp) (idx si j : Nat)
    (hne : idx ≠ j) : (substLeftAt stack idx si)[j]? = stack[j]? := by
  unfold substLeftAt
  repeat' split
  all_goals first | rfl | rw [List.getElem?_set_ne hne]

theorem substRightAt_ne (stack : List MergeOp) (idx si j : Nat)
    (hne : idx ≠ j) : (substRightAt stack idx si)[j]? = stack[j]? := by
  unfold substRightAt
  repeat' split
  all_goals first | rfl | rw [List.getElem?_set_ne hne]

theorem substStep_ne (stack : List MergeOp) (idx j : Nat) (hne : idx ≠ j) :
    (substStep stack idx)[j]? = stack[j]? := by
  unfold substStep
  split
  · rfl
  next op₀ h₀ =>
    cases hls : op₀.left_source with
    | none =>
      cases hrs : op₀.right_source with
      | none => rfl
      | some si => exact substRightAt_ne stack idx si j hne
    | some si =>
      cases hrs : op₀.right_source with
      | none => exact substLeftAt_ne stack idx si j hne
      | some si' =>
        rw [substRightAt_ne _ idx si' j hne]
        exact substLeftAt_ne stack idx si j hne

theorem foldl_substStep_ne :
    ∀ (idxs : List Nat) (stack : List MergeOp) (j : Nat),
      (∀ i ∈ idxs, i ≠ j) → (idxs.foldl substStep stack)[j]? = stack[j]?
  | [], _, _, _ => rfl
  | i :: rest, stack, j, h => by
    rw [List.foldl_cons]
    rw [foldl_substStep_ne rest _ j (fun i' hi' => h i' (by simp [hi']))]
    exact substStep_ne stack i j (h i (by simp))

theorem foldl_substStep_done :
    ∀ (idxs : List Nat) (stack : List MergeOp) (i : Nat) (src : MergeOp),
      stack[i]? = some src → src.result ≠ [] →
      (idxs.foldl substStep stack)[i]? = some src
  | [], _, _, _, h, _ => h
  | k :: rest, stack, i, src, h, hres => by
    rw [List.foldl_cons]
    exact foldl_substStep_done rest _ i src
      (substStep_getElem_preserve stack k i src h hres) hres

theorem range_split (j n : Nat) (h : j < n) :
    ∃ post : List Nat, List.range n = List.range j ++ j :: post
      ∧ ∀ i ∈ post, j < i := by
  have hn : n = j + (n - j - 1 + 1) := by omega
  refine ⟨(List.range (n - j - 1)).map (fun x => j + (x + 1)), ?_, ?_⟩
  · conv_lhs => rw [hn, List.range_add, List.range_succ_eq_map]
    simp only [List.map_cons, List.map_map, Nat.add_zero]
    rfl
  · intro i hi
    obtain ⟨x, _, rfl⟩ := List.mem_map.mp hi
    omega

theorem substLeftAt_fires (stack : List MergeOp) (idx si : Nat)
    (op src : MergeOp) (hop : stack[idx]? = some op)
    (hsrc : stack[si]? = some src)
    (hdone : src.left_idx = src.left.length
      ∧ src.right_idx = src.right.length ∧ src.result ≠ [])
    (hfresh : op.left_idx = 0 ∧ op.result = []) :
    substLeftAt stack idx si
      = stack.set idx { op with left := src.result, left_source := none } := by
  unfold substLeftAt
  split
  next hnone =>
    rw [hsrc] at hnone
    cases hnone
  next src' hsrc' =>
    rw [hsrc] at hsrc'
    injection hsrc' with hsrc'
    subst hsrc'
    rw [if_pos hdone]
    split
    next hnone =>
      rw [hop] at hnone
      cases hnone
    next op₁ hop₁ =>
      rw [hop] at hop₁
      injection hop₁ with hop₁
      subst hop₁
      rw [if_pos hfresh]

theorem substRightAt_fires (stack : List MergeOp) (idx si : Nat)
    (op src : MergeOp) (hop : stack[idx]? = some op)
    (hsrc : stack[si]? = some src)
    (hdone : src.left_idx = src.left.length
      ∧ src.right_idx = src.right.length ∧ src.result ≠ [])
    (hfresh : op.right_idx = 0 ∧ op.result = []) :
    substRightAt stack idx si
      = stack.set idx { op with right := src.result, right_source := none } := by
  unfold substRightAt
  split
  next hnone =>
    rw [hsrc] at hnone
    cases hnone
  next src' hsrc' =>
    rw [hsrc] at hsrc'
    injection hsrc' with hsrc'
    subst hsrc'
    rw [if_pos hdone]
    split
    next hnone =>
      rw [hop] at hnone
      cases hnone
    next op₁ hop₁ =>
      rw [hop] at hop₁
      injection hop₁ with hop₁
      subst hop₁
      rw [if_pos hfresh]

theorem substPass_at_unblocked (stack : List MergeOp) (j : Nat)
    (op : MergeOp) (hSI : StackInv stack) (hj : stack[j]? = some op)
    (hun : op.left_idx = 0 ∧ op.right_idx = 0 ∧ op.result = [])
    (hls : ∀ i, op.left_source = some i →
      ∃ src, stack[i]? = some src ∧ src.isDone = true)
    (hrs : ∀ i, op.right_source = some i →
      ∃ src, stack[i]? = some src ∧ src.isDone = true) :
    ∃ op', (substPass stack)[j]? = some op'
      ∧ op'.left_source = none ∧ op'.right_source = none := by
  have hjl : j < stack.length := (List.getElem?_eq_some.mp hj).1
  obtain ⟨post, hrange, hpost⟩ := range_split j stack.length hjl
  unfold substPass
  rw [hrange, List.foldl_append]
  have hTj : ((List.range j).foldl substStep stack)[j]? = some op := by
    rw [foldl_substStep_ne _ _ _ (fun i hi => by
      have := List.mem_range.mp hi
      omega)]
    exact hj
  have hTdone : ∀ (i : Nat) (src : MergeOp), stack[i]? = some src →
      src.isDone = true →
      ((List.range j).foldl substStep stack)[i]? = some src := by
    intro i src hsrc hdone
    exact foldl_substStep_done _ _ i src hsrc
      (done_result_ne src (hSI src (mem_of_getElem_some hsrc)) hdone)
  have hstep : ∀ T : List MergeOp, T[j]? = some op →
      (∀ (i : Nat) (src : MergeOp), stack[i]? = some src →
        src.isDone = true → T[i]? = some src) →
      ∃ op', (substStep T j)[j]? = some op'
        ∧ op'.left_source = none ∧ op'.right_source = none := by
    intro T hT hTd
    unfold substStep
    split
    next hnone =>
      rw [hT] at hnone
      cases hnone
    next op₀ h₀ =>
      rw [hT] at h₀
      injection h₀ with h₀
      subst h₀
      cases hlsrc : op.left_source with
      | none =>
        cases hrsrc : op.right_source with
        | none => exact ⟨op, hT, hlsrc, hrsrc⟩
        | some si =>
          obtain ⟨src, hsrcS, hsrcD⟩ := hrs si hrsrc
          have hsrcT := hTd si src hsrcS hsrcD
          have hresne := done_result_ne src
            (hSI src (mem_of_getElem_some hsrcS)) hsrcD
          show ∃ op', (substRightAt T j si)[j]? = some op'
            ∧ op'.left_source = none ∧ op'.right_source = none
          rw [substRightAt_fires T j si op src hT hsrcT
            ⟨(done_parts src hsrcD).1, (done_parts src hsrcD).2, hresne⟩
            ⟨hun.2.1, hun.2.2⟩]
          refine ⟨{ op with right := src.result, right_source := none },
            ?_, hlsrc, rfl⟩
          rw [List.getElem?_set_self (List.getElem?_eq_some.mp hT).1]
      | some si =>
        obtain ⟨srcL, hsrcLS, hsrcLD⟩ := hls si hlsrc
        have hsrcLT := hTd si srcL hsrcLS hsrcLD
        have hresLne := done_result_ne srcL
          (hSI srcL (mem_of_getElem_some hsrcLS)) hsrcLD
        have hsetL := substLeftAt_fires T j si op srcL hT hsrcLT
          ⟨(done_parts srcL hsrcLD).1, (done_parts srcL hsrcLD).2, hresLne⟩
          ⟨hun.1, hun.2.2⟩
        cases hrsrc : op.right_source with
        | none =>
          show ∃ op', (substLeftAt T j si)[j]? = some op'
            ∧ op'.left_source = none ∧ op'.right_source = none
          rw [hsetL]
          refine ⟨{ op with left := srcL.result, left_source := none },
            ?_, rfl, hrsrc⟩
          rw [List.getElem?_set_self (List.getElem?_eq_some.mp hT).1]
        | some si' =>
          obtain ⟨srcR, hsrcRS, hsrcRD⟩ := hrs si' hrsrc
          have hresRne := done_result_ne srcR
            (hSI srcR (mem_of_getElem_some hsrcRS)) hsrcRD
          have hsine : si' ≠ j := by
            intro hc
            subst hc
            rw [hTd si' srcR hsrcRS hsrcRD] at hT
            injection hT with hT
            rw [hT] at hresRne
            exact hresRne hun.2.2
          have hjlt : j < T.length := (List.getElem?_eq_some.mp hT).1
          have hgetj : (T.set j
              { op with left := srcL.result, left_source := none })[j]?
              = some { op with left := srcL.result, left_source := none } :=
            List.getElem?_set_self hjlt
          have hgetsi : (T.set j
              { op with left := srcL.result, left_source := none })[si']?
              = some srcR := by
            rw [List.getElem?_set_ne (fun hc => hsine hc.symm)]
            exact hTd si' srcR hsrcRS hsrcRD
          have hsetR := substRightAt_fires
            (T.set j { op with left := srcL.result, left_source := none })
            j si' { op with left := srcL.result, left_source := none } srcR
            hgetj hgetsi
            ⟨(done_parts srcR hsrcRD).1, (done_parts srcR hsrcRD).2, hresRne⟩
            ⟨hun.2.1, hun.2.2⟩
          show ∃ op', (substRightAt (substLeftAt T j si) j si')[j]?
              = some op'
            ∧ op'.left_source = none ∧ op'.right_source = none
          rw [hsetL, hsetR]
          refine ⟨{ { op with left := srcL.result, left_source := none } with
                      right := srcR.result, right_source := none },
            ?_, rfl, rfl⟩
          rw [List.getElem?_set_self]
          rw [List.length_set]
          exact hjlt
  obtain ⟨op', hop', hls', hrs'⟩ :=
    hstep ((List.range j).foldl substStep stack) hTj hTdone
  refine ⟨op', ?_, hls', hrs'⟩
  rw [List.foldl_cons]
  rw [foldl_substStep_ne post _ j (fun i hi => by
    have := hpost i hi
    omega)]
  exact hop'

end MergeStrategy

end Rankhaus

/-! ## The full invariant: base case and ledger bookkeeping -/

namespace Rankhaus

theorem Ledger.insert_eq_append (L : Ledger) (k : String × String)
    (v : String) (h : L.get k = none) : L.insert k v = L ++ [(k, v)] := by
  induction L with
  | nil => rfl
  | cons kv rest ih =>
    obtain ⟨k₁, v₁⟩ := kv
    by_cases hk : k₁ = k
    · subst hk
      simp [Ledger.get] at h
    · simp only [Ledger.get, if_neg hk] at h
      simp [Ledger.insert, hk, ih h]

theorem Ledger.mem_keys_get (L : Ledger) (k : String × String)
    (h : k ∈ L.map Prod.fst) : ∃ v, L.get k = some v := by
  induction L with
  | nil => cases h
  | cons kv rest ih =>
    obtain ⟨k₁, v₁⟩ := kv
    rcases List.mem_cons.mp h with heq | hmem
    · simp only at heq
      subst heq
      exact ⟨v₁, by simp [Ledger.get]⟩
    · by_cases hk : k₁ = k
      · subst hk
        exact ⟨v₁, by simp [Ledger.get]⟩
      · obtain ⟨v, hv⟩ := ih hmem
        exact ⟨v, by simp [Ledger.get, hk, hv]⟩

theorem Ledger.keys_nodup_insert (L : Ledger) (k : String × String)
    (v : String) (hn : (L.map Prod.fst).Nodup) (h : L.get k = none) :
    ((L.insert k v).map Prod.fst).Nodup := by
  rw [Ledger.insert_eq_append L k v h]
  rw [List.map_append]
  rw [List.nodup_append]
  refine ⟨hn, by simp, ?_⟩
  intro x hx
  simp only [List.map_cons, List.map_nil, List.mem_singleton]
  intro hc
  subst hc
  obtain ⟨v', hv'⟩ := Ledger.mem_keys_get L x hx
  rw [h] at hv'
  cases hv'

theorem Ledger.insert_length (L : Ledger) (k : String × String) (v : String)
    (h : L.get k = none) : (L.insert k v).length = L.length + 1 := by
  rw [Ledger.insert_eq_append L k v h]
  simp

namespace MergeStrategy

theorem vinv_new (items : List Id) (better : Id → Id → Bool) :
    VInv items better (new items) := by
  refine ⟨new_items items, (engineinv_new items).1, (engineinv_new items).2,
    ?_, ?_, ?_, ?_, ?_, ?_⟩
  · -- DynStack
    unfold new
    split_ifs with h₁ h₂
    · rw [List.isEmpty_iff] at h₁
      constructor
      · simp only
        rw [init_nil items (by rw [h₁]; simp)]
      · intro j op iop hop hiop
        simp at hop
    · constructor
      · simp only
        rw [init_nil items (by omega)]
      · intro j op iop hop hiop
        simp at hop
    · refine ⟨rfl, ?_⟩
      intro j op iop hop hiop
      simp only at hop
      rw [hop] at hiop
      injection hiop with hiop
      subst hiop
      obtain ⟨_, hli, hri, hres, _, _, _, _, _, _⟩ :=
        init_static items j op hop
      refine ⟨Or.inl ⟨rfl, rfl⟩, Or.inl ⟨rfl, rfl⟩, ?_⟩
      show op.result ++ mergeR better (op.left.drop op.left_idx)
          (op.right.drop op.right_idx) = mergeR better op.left op.right
      rw [hli, hri, hres, List.drop_zero, List.drop_zero, List.nil_append]
  · -- LedgerOk
    intro k v hv
    rw [new_comparisons] at hv
    cases hv
  · -- PendingFresh
    intro j op iop _ _ _ x y _ _
    rw [new_comparisons]
    rfl
  · -- Stalled
    intro op hop hls hrs
    have hidx := List.getElem_of_mem hop
    obtain ⟨j, hjlt, hj⟩ := hidx
    have hj' : (new items).state.merge_stack[j]? = some op := by
      rw [List.getElem?_eq_getElem hjlt, hj]
    have hst : ∃ iop, (init_merge_sort items)[j]? = some iop ∧ iop = op := by
      revert hj'
      unfold new
      split_ifs with h₁ h₂ <;> intro hj'
      · simp at hj'
      · simp at hj'
      · exact ⟨op, hj', rfl⟩
    obtain ⟨iop, hiop, rfl⟩ := hst
    obtain ⟨_, hli, hri, _, hnl, hnr, _, _, _, _⟩ :=
      init_static items j iop hiop
    refine Or.inr ⟨?_, ?_, ?_⟩
    · rw [hli]
      exact List.length_pos.mpr hnl
    · rw [hri]
      exact List.length_pos.mpr hnr
    · intro l r _ _
      rw [new_comparisons]
      rfl
  · -- keys nodup
    show ((new items).comparisons.map Prod.fst).Nodup
    rw [new_comparisons]
    simp
  · -- LastLive
    intro hc
    revert hc
    unfold new
    split_ifs with h₁ h₂ <;> intro hc
    · cases hc
    · cases hc
    · have h2 : 2 ≤ items.length := by
        rw [List.isEmpty_iff] at h₁
        have : items.length ≠ 0 :=
          fun hcontra => h₁ (List.eq_nil_of_length_eq_zero hcontra)
        omega
      obtain ⟨root, hroot, _⟩ := init_root items h2
      refine ⟨root, hroot, ?_⟩
      have hrootidx : (init_merge_sort items)[(init_merge_sort items).length
          - 1]? = some root := by
        rw [← List.getLast?_eq_getElem?]
        exact hroot
      obtain ⟨_, hli, _, _, hnl, _, _, _, _, _⟩ :=
        init_static items _ root hrootidx
      have hlenne : root.left.length ≠ 0 :=
        fun hcontra => hnl (List.eq_nil_of_length_eq_zero hcontra)
      simp only [MergeOp.isDone, hli]
      simp only [Bool.and_eq_false_iff, decide_eq_false_iff_not]
      left
      omega

end MergeStrategy

end Rankhaus

/-! ## Preservation of the full invariant by one `process_merges` call -/

namespace Rankhaus

namespace MergeStrategy

theorem vinv_process (items : List Id) (better : Id → Id → Bool)
    (hnd : items.Nodup) (s : MergeStrategy) (hV : VInv items better s)
    (L' : Ledger)
    (hL' : LedgerOk better (init_merge_sort items) L')
    (hN' : LedgerKeysNodup L')
    (hpf' : ∀ (j : Nat) (op iop : MergeOp),
      s.state.merge_stack[j]? = some op →
      (init_merge_sort items)[j]? = some iop →
      (op.left_source.isSome = true ∨ op.right_source.isSome = true) →
      (∀ x y, x ∈ iop.left → y ∈ iop.right →
        L'.get (get_comparison_key x y) = none)
      ∨ ((∀ i, op.left_source = some i →
            ∃ src, s.state.merge_stack[i]? = some src ∧ src.isDone = true)
         ∧ (∀ i, op.right_source = some i →
            ∃ src, s.state.merge_stack[i]? = some src
              ∧ src.isDone = true))) :
    VInv items better
      { items := s.items, comparisons := L',
        state := process_merges_state L' s.state } := by
  obtain ⟨hIt, hSI, hRC, hD, hL, hPF, hST, hKN, hLL⟩ := hV
  refine ⟨hIt, ?_, ?_, ?_, hL', ?_, ?_, hN', ?_⟩
  · exact process_state_stackinv L' s.state hSI
  · exact process_state_rootclause L' s.state hSI hRC
  · exact process_state_dyn items better hnd L' s.state hSI hD hL'
  · -- PendingFresh
    intro j op' iop hop' hiop hpend x y hx hy
    obtain ⟨op, hop, fb, gb⟩ := process_src_back L' s.state j op' hop'
    have hpend₀ : op.left_source.isSome = true
        ∨ op.right_source.isSome = true := by
      rcases hpend with hp | hp
      · exact Or.inl (fb hp)
      · exact Or.inr (gb hp)
    rcases hpf' j op iop hop hiop hpend₀ with hfree | hdone
    · exact hfree x y hx hy
    · exfalso
      have hinv := hSI op (mem_of_getElem_some hop)
      obtain ⟨_, _, _, _, _, hpcl⟩ := hinv
      obtain ⟨hz1, hz2, hz3⟩ := hpcl hpend₀
      obtain ⟨opc, hopc, hcls, hcrs⟩ := substPass_at_unblocked
        s.state.merge_stack j op hSI hop ⟨hz1, hz2, hz3⟩ hdone.1 hdone.2
      have hmap : (process_merges_state L' s.state).merge_stack[j]?
          = some (advanceOp L' opc).1 := by
        rcases process_state_char L' s.state with ⟨o, _, heq⟩ | heq <;>
          rw [heq] <;>
          · simp only [List.map_map, List.getElem?_map, hopc,
              Option.map_some', Function.comp_apply]
      rw [hmap] at hop'
      injection hop' with hop'
      obtain ⟨_, _, g₃, g₄⟩ := advanceOp_fields L' opc
      rcases hpend with hp | hp
      · rw [← hop', g₃, hcls] at hp
        simp at hp
      · rw [← hop', g₄, hcrs] at hp
        simp at hp
  · exact process_state_stalled L' s.state hSI
  · -- LastLive
    intro hc
    have hinc := process_state_incomplete_last L' s.state hc
    obtain ⟨l₀, hl₀, _⟩ := hLL hinc.1
    have hne : s.state.merge_stack ≠ [] := by
      intro hcontra
      rw [hcontra] at hl₀
      cases hl₀
    have hlen2 : (substPass s.state.merge_stack).map (advanceOp L') ≠ [] := by
      intro hcontra
      have hlencontra := congrArg List.length hcontra
      rw [List.length_map, substPass_length] at hlencontra
      exact hne (List.eq_nil_of_length_eq_zero hlencontra)
    cases hpr : ((substPass s.state.merge_stack).map
        (advanceOp L')).getLast? with
    | none => exact absurd (List.getLast?_eq_none_iff.mp hpr) hlen2
    | some pr =>
      have hfalse := hinc.2 pr hpr
      have hprmem : pr ∈ (substPass s.state.merge_stack).map (advanceOp L') :=
        List.mem_of_mem_getLast? hpr
      obtain ⟨op₁, hop₁mem, hpreq⟩ := List.mem_map.mp hprmem
      have hinv₁ : OpInv op₁ := substPass_stackinv _ hSI op₁ hop₁mem
      have hfalse₁ : (advanceOp L' op₁).2 = false := by
        rw [hpreq]
        exact hfalse
      have hnotdone : (advanceOp L' op₁).1.isDone = false :=
        advanceOp_snd_false L' op₁ hinv₁ hfalse₁
      rcases process_state_char L' s.state with ⟨o, hlast, heq⟩ | heq
      · rw [heq] at hc
        simp at hc
      · rw [heq]
        refine ⟨(advanceOp L' op₁).1, ?_, hnotdone⟩
        simp only
        rw [List.getLast?_map, hpr, ← hpreq]
        rfl

end MergeStrategy

end Rankhaus

/-! ## Preservation of the full invariant along the question/answer loop -/

namespace Rankhaus

namespace MergeStrategy

theorem vinv_runStep (items : List Id) (better : Id → Id → Bool)
    (hnd : items.Nodup) (s : MergeStrategy) (hV : VInv items better s) :
    VInv items better (runStep (ansOf better) s) := by
  unfold runStep
  cases hnext : next_comparison s with
  | none => exact hV
  | some p =>
    obtain ⟨a, b⟩ := p
    obtain ⟨j₀, op₀, hop₀, hfa, hfb, hmiss, hmin⟩ :=
      next_aux_spec s.comparisons s.state.merge_stack a b hnext
    obtain ⟨hIt, hSI, hRC, hD, hL, hPF, hST, hKN, hLL⟩ := hV
    have hjlt : j₀ < s.state.merge_stack.length :=
      (List.getElem?_eq_some.mp hop₀).1
    have hjlt' : j₀ < (init_merge_sort items).length := by
      rw [← hD.1]
      exact hjlt
    obtain ⟨iop₀, hiop₀⟩ : ∃ iop, (init_merge_sort items)[j₀]? = some iop :=
      ⟨_, List.getElem?_eq_getElem hjlt'⟩
    have hamem : a ∈ op₀.left := by
      obtain ⟨hlt, heq⟩ := List.getElem?_eq_some.mp hfa
      rw [← heq]
      exact List.getElem_mem hlt
    have hbmem : b ∈ op₀.right := by
      obtain ⟨hlt, heq⟩ := List.getElem?_eq_some.mp hfb
      rw [← heq]
      exact List.getElem_mem hlt
    have helems := side_elems items better s.state.merge_stack hSI hD
      j₀ op₀ iop₀ hop₀ hiop₀
    have haiop : a ∈ iop₀.left := helems.1 a hamem
    have hbiop : b ∈ iop₀.right := helems.2 b hbmem
    have hL' : LedgerOk better (init_merge_sort items)
        (s.comparisons.insert (get_comparison_key a b)
          (ansOf better a b).str) := by
      intro k v hv
      by_cases hk : k = get_comparison_key a b
      · subst hk
        rw [Ledger.get_insert_self] at hv
        injection hv with hv
        refine ⟨j₀, iop₀, a, b, hiop₀, haiop, hbiop, rfl, ?_⟩
        rw [← hv]
        rfl
      · rw [Ledger.get_insert_ne _ _ _ _ hk] at hv
        exact hL k v hv
    have hN' : LedgerKeysNodup (s.comparisons.insert (get_comparison_key a b)
        (ansOf better a b).str) :=
      Ledger.keys_nodup_insert _ _ _ hKN hmiss
    have hsrcdone : ∀ (i : Nat), i < (init_merge_sort items).length →
        (∀ src, s.state.merge_stack[i]? = some src → i < j₀ →
          src.isDone = true) := by
      intro i hilt' src hsrc hij
      by_contra hnotdone
      by_cases hsrcless : src.left_source = none ∧ src.right_source = none
      · rcases hST src (mem_of_getElem_some hsrc) hsrcless.1 hsrcless.2 with
          hd | ⟨hcl, hcr, hm⟩
        · exact hnotdone hd
        · have hfl : src.left[src.left_idx]? = some src.left[src.left_idx] :=
            List.getElem?_eq_getElem hcl
          have hfr : src.right[src.right_idx]?
              = some src.right[src.right_idx] :=
            List.getElem?_eq_getElem hcr
          exact hmin i src hij hsrc _ _ hfl hfr (hm _ _ hfl hfr)
      · have hsrcpend : src.left_source.isSome = true
            ∨ src.right_source.isSome = true := by
          rcases Option.eq_none_or_eq_some src.left_source with he | ⟨w, he⟩
          · rcases Option.eq_none_or_eq_some src.right_source with
              he' | ⟨w', he'⟩
            · exact absurd ⟨he, he'⟩ hsrcless
            · exact Or.inr (by simp [he'])
          · exact Or.inl (by simp [he])
        have hinvs := hSI src (mem_of_getElem_some hsrc)
        obtain ⟨hsnl, hsnr, _, _, _, hspcl⟩ := hinvs
        obtain ⟨hs1, hs2, _⟩ := hspcl hsrcpend
        obtain ⟨isrc, hgeti⟩ : ∃ isrc, (init_merge_sort items)[i]?
            = some isrc := ⟨_, List.getElem?_eq_getElem hilt'⟩
        have hcl : src.left_idx < src.left.length := by
          rw [hs1]
          exact List.length_pos.mpr hsnl
        have hcr : src.right_idx < src.right.length := by
          rw [hs2]
          exact List.length_pos.mpr hsnr
        have hfl : src.left[src.left_idx]? = some src.left[src.left_idx] :=
          List.getElem?_eq_getElem hcl
        have hfr : src.right[src.right_idx]? = some src.right[src.right_idx] :=
          List.getElem?_eq_getElem hcr
        have helems' := side_elems items better s.state.merge_stack hSI hD
          i src isrc hsrc hgeti
        have hmiss' := hPF i src isrc hsrc hgeti hsrcpend
          src.left[src.left_idx] src.right[src.right_idx]
          (helems'.1 _ (List.getElem_mem hcl))
          (helems'.2 _ (List.getElem_mem hcr))
        exact hmin i src hij hsrc _ _ hfl hfr hmiss'
    have hpf' : ∀ (j : Nat) (op iop : MergeOp),
        s.state.merge_stack[j]? = some op →
        (init_merge_sort items)[j]? = some iop →
        (op.left_source.isSome = true ∨ op.right_source.isSome = true) →
        (∀ x y, x ∈ iop.left → y ∈ iop.right →
          (s.comparisons.insert (get_comparison_key a b)
            (ansOf better a b).str).get (get_comparison_key x y) = none)
        ∨ ((∀ i, op.left_source = some i →
              ∃ src, s.state.merge_stack[i]? = some src ∧ src.isDone = true)
           ∧ (∀ i, op.right_source = some i →
              ∃ src, s.state.merge_stack[i]? = some src
                ∧ src.isDone = true)) := by
      intro j op iop hop hiop hpend
      by_cases hjj : j = j₀
      · subst hjj
        rw [hop₀] at hop
        injection hop with hop
        subst hop
        rw [hiop₀] at hiop
        injection hiop with hiop
        subst hiop
        obtain ⟨hsl, hsr, _⟩ := hD.2 j op₀ iop₀ hop₀ hiop₀
        refine Or.inr ⟨?_, ?_⟩
        · intro i hlsi
          have hisl : iop₀.left_source = some i := by
            rcases hsl with ⟨hcs, _⟩ | ⟨hnone, _⟩
            · rw [← hcs]
              exact hlsi
            · rw [hlsi] at hnone
              cases hnone
          obtain ⟨_, _, _, _, _, _, _, _, hlsstat, _⟩ :=
            init_static items j iop₀ hiop₀
          obtain ⟨hilt, isrc, hgeti, _⟩ := hlsstat i hisl
          have hilt2 : i < s.state.merge_stack.length := by
            rw [hD.1]
            exact (List.getElem?_eq_some.mp hgeti).1
          obtain ⟨src, hsrc⟩ : ∃ src, s.state.merge_stack[i]? = some src :=
            ⟨_, List.getElem?_eq_getElem hilt2⟩
          exact ⟨src, hsrc,
            hsrcdone i (List.getElem?_eq_some.mp hgeti).1 src hsrc hilt⟩
        · intro i hrsi
          have hisr : iop₀.right_source = some i := by
            rcases hsr with ⟨hcs, _⟩ | ⟨hnone, _⟩
            · rw [← hcs]
              exact hrsi
            · rw [hrsi] at hnone
              cases hnone
          obtain ⟨_, _, _, _, _, _, _, _, _, hrsstat⟩ :=
            init_static items j iop₀ hiop₀
          obtain ⟨hilt, isrc, hgeti, _⟩ := hrsstat i hisr
          have hilt2 : i < s.state.merge_stack.length := by
            rw [hD.1]
            exact (List.getElem?_eq_some.mp hgeti).1
          obtain ⟨src, hsrc⟩ : ∃ src, s.state.merge_stack[i]? = some src :=
            ⟨_, List.getElem?_eq_getElem hilt2⟩
          exact ⟨src, hsrc,
            hsrcdone i (List.getElem?_eq_some.mp hgeti).1 src hsrc hilt⟩
      · refine Or.inl ?_
        intro x y hx hy
        have hkne : get_comparison_key x y ≠ get_comparison_key a b :=
          cross_unique items hnd hjj iop iop₀ hiop hiop₀ hx hy haiop hbiop
        rw [Ledger.get_insert_ne _ _ _ _ hkne]
        exact hPF j op iop hop hiop hpend x y hx hy
    exact vinv_process items better hnd s
      ⟨hIt, hSI, hRC, hD, hL, hPF, hST, hKN, hLL⟩ _ hL' hN' hpf'

end MergeStrategy

end Rankhaus

/-! ## Runs: duplicates, liveness, termination, final value -/

namespace Rankhaus

namespace MergeStrategy

theorem vinv_dup (items : List Id) (better : Id → Id → Bool)
    (hnd : items.Nodup) (s : MergeStrategy) (hV : VInv items better s)
    (u v : Item) (w : Id)
    (hrec : s.comparisons.get (get_comparison_key u.id v.id) = some w.str) :
    VInv items better (compareStep s u v w) := by
  have hins : s.comparisons.insert (get_comparison_key u.id v.id) w.str
      = s.comparisons := Ledger.insert_of_get_eq _ _ _ hrec
  obtain ⟨hIt, hSI, hRC, hD, hL, hPF, hST, hKN, hLL⟩ := hV
  have hpf' : ∀ (j : Nat) (op iop : MergeOp),
      s.state.merge_stack[j]? = some op →
      (init_merge_sort items)[j]? = some iop →
      (op.left_source.isSome = true ∨ op.right_source.isSome = true) →
      (∀ x y, x ∈ iop.left → y ∈ iop.right →
        s.comparisons.get (get_comparison_key x y) = none)
      ∨ ((∀ i, op.left_source = some i →
            ∃ src, s.state.merge_stack[i]? = some src ∧ src.isDone = true)
         ∧ (∀ i, op.right_source = some i →
            ∃ src, s.state.merge_stack[i]? = some src ∧ src.isDone = true)) :=
    fun j op iop hop hiop hpend =>
      Or.inl (fun x y hx hy => hPF j op iop hop hiop hpend x y hx hy)
  have hres := vinv_process items better hnd s
    ⟨hIt, hSI, hRC, hD, hL, hPF, hST, hKN, hLL⟩ s.comparisons hL hKN hpf'
  have heq : compareStep s u v w
      = { items := s.items,
          comparisons := s.comparisons.insert
            (get_comparison_key u.id v.id) w.str,
          state := process_merges_state
            (s.comparisons.insert (get_comparison_key u.id v.id) w.str)
            s.state } := rfl
  rw [heq, hins]
  exact hres

theorem vinv_runN (items : List Id) (better : Id → Id → Bool)
    (hnd : items.Nodup) :
    ∀ (n : Nat) (s : MergeStrategy), VInv items better s →
      VInv items better (runN (ansOf better) n s)
  | 0, _, h => h
  | n + 1, s, h =>
    vinv_runN items better hnd n _ (vinv_runStep items better hnd s h)

theorem vinv_next_some (items : List Id) (better : Id → Id → Bool)
    (s : MergeStrategy) (hV : VInv items better s)
    (hc : s.state.completed = false) :
    ∃ p, next_comparison s = some p := by
  obtain ⟨hIt, hSI, hRC, hD, hL, hPF, hST, hKN, hLL⟩ := hV
  obtain ⟨ld, hld, hldn⟩ := hLL hc
  have hldmem := List.mem_of_mem_getLast? hld
  refine next_aux_some s.comparisons s.state.merge_stack ?_
  by_cases hsrcless : ld.left_source = none ∧ ld.right_source = none
  · rcases hST ld hldmem hsrcless.1 hsrcless.2 with hd | ⟨hcl, hcr, hm⟩
    · rw [hd] at hldn
      cases hldn
    · refine ⟨ld, hldmem, ld.left[ld.left_idx], ld.right[ld.right_idx],
        List.getElem?_eq_getElem hcl, List.getElem?_eq_getElem hcr, ?_⟩
      exact hm _ _ (List.getElem?_eq_getElem hcl)
        (List.getElem?_eq_getElem hcr)
  · have hpend : ld.left_source.isSome = true
        ∨ ld.right_source.isSome = true := by
      rcases Option.eq_none_or_eq_some ld.left_source with he | ⟨w', he⟩
      · rcases Option.eq_none_or_eq_some ld.right_source with he' | ⟨w', he'⟩
        · exact absurd ⟨he, he'⟩ hsrcless
        · exact Or.inr (by simp [he'])
      · exact Or.inl (by simp [he])
    have hinvl := hSI ld hldmem
    obtain ⟨hlnl, hlnr, _, _, _, hlpcl⟩ := hinvl
    obtain ⟨hl1, hl2, _⟩ := hlpcl hpend
    have hldidx : s.state.merge_stack[s.state.merge_stack.length - 1]?
        = some ld := by
      rw [← List.getLast?_eq_getElem?]
      exact hld
    have hlt' : s.state.merge_stack.length - 1
        < (init_merge_sort items).length := by
      rw [← hD.1]
      exact (List.getElem?_eq_some.mp hldidx).1
    obtain ⟨iop, hiop⟩ : ∃ iop, (init_merge_sort
        items)[s.state.merge_stack.length - 1]? = some iop :=
      ⟨_, List.getElem?_eq_getElem hlt'⟩
    have hcl : ld.left_idx < ld.left.length := by
      rw [hl1]
      exact List.length_pos.mpr hlnl
    have hcr : ld.right_idx < ld.right.length := by
      rw [hl2]
      exact List.length_pos.mpr hlnr
    have helems := side_elems items better s.state.merge_stack hSI hD
      _ ld iop hldidx hiop
    refine ⟨ld, hldmem, ld.left[ld.left_idx], ld.right[ld.right_idx],
      List.getElem?_eq_getElem hcl, List.getElem?_eq_getElem hcr, ?_⟩
    exact hPF _ ld iop hldidx hiop hpend _ _
      (helems.1 _ (List.getElem_mem hcl)) (helems.2 _ (List.getElem_mem hcr))

theorem vinv_sources_clause (better : Id → Id → Bool)
    (init stack : List MergeOp) (hD : DynStack better init stack) :
    SourcesClause init stack := by
  refine ⟨hD.1, ?_⟩
  intro j op iop hop hiop
  obtain ⟨hsl, hsr, _⟩ := hD.2 j op iop hop hiop
  constructor
  · rcases hsl with ⟨hcs, _⟩ | ⟨hnone, i, hi, src, hget, hdone, _⟩
    · exact Or.inl hcs
    · exact Or.inr ⟨hnone, i, hi, src, hget, hdone⟩
  · rcases hsr with ⟨hcs, _⟩ | ⟨hnone, i, hi, src, hget, hdone, _⟩
    · exact Or.inl hcs
    · exact Or.inr ⟨hnone, i, hi, src, hget, hdone⟩

theorem vinv_completed_all_done (items : List Id) (better : Id → Id → Bool)
    (s : MergeStrategy) (hV : VInv items better s)
    (hc : s.state.completed = true) :
    ∀ op ∈ s.state.merge_stack, op.isDone = true := by
  obtain ⟨hIt, hSI, hRC, hD, hL, hPF, hST, hKN, hLL⟩ := hV
  intro op hop
  rcases hRC hc with hempty | ⟨lastOp, hlast, hdone, _⟩
  · rw [hempty] at hop
    cases hop
  · have hne : s.state.merge_stack ≠ [] := List.ne_nil_of_mem hop
    have hinitne : init_merge_sort items ≠ [] := by
      intro hcontra
      have hlen := hD.1
      rw [hcontra] at hlen
      simp at hlen
      exact hne hlen
    have h2 : 2 ≤ items.length := by
      by_contra hcl
      exact hinitne (init_nil items (by omega))
    have hrooted := init_rooted items h2
    have hsc := vinv_sources_clause better _ _ hD
    obtain ⟨k, hklt, hk⟩ := List.getElem_of_mem hop
    have hkget : s.state.merge_stack[k]? = some op := by
      rw [List.getElem?_eq_getElem hklt, hk]
    have hreach : InitReach (init_merge_sort items)
        ((init_merge_sort items).length - 1) k := by
      refine hrooted k ?_
      rw [← hD.1]
      exact hklt
    have hlastidx : s.state.merge_stack[s.state.merge_stack.length - 1]?
        = some lastOp := by
      rw [← List.getLast?_eq_getElem?]
      exact hlast
    have hlastidx' :
        s.state.merge_stack[(init_merge_sort items).length - 1]?
        = some lastOp := by
      rw [← hD.1]
      exact hlastidx
    obtain ⟨opk, hopk, hdk⟩ := done_down _ _ hSI hsc hreach lastOp
      hlastidx' hdone
    rw [hkget] at hopk
    injection hopk with hopk
    rw [← hopk] at hdk
    exact hdk

theorem vinv_completed_next_none (items : List Id) (better : Id → Id → Bool)
    (s : MergeStrategy) (hV : VInv items better s)
    (hc : s.state.completed = true) : next_comparison s = none :=
  next_aux_none_of_done _ _ (vinv_completed_all_done items better s hV hc)

theorem vinv_ledger_le (items : List Id) (better : Id → Id → Bool)
    (s : MergeStrategy) (hV : VInv items better s) :
    s.comparisons.length ≤ ((items.product items).map
      (fun p => get_comparison_key p.1 p.2)).length := by
  obtain ⟨_, _, _, _, hL, _, _, hKN, _⟩ := hV
  have hsub : (s.comparisons.map Prod.fst) ⊆
      (items.product items).map (fun p => get_comparison_key p.1 p.2) := by
    intro k hk
    obtain ⟨v, hv⟩ := Ledger.mem_keys_get _ k hk
    obtain ⟨j, iop, x, y, hiop, hx, hy, hkey, _⟩ := hL k v hv
    have hxi : x ∈ items :=
      span_sub_items items j iop hiop x (List.mem_append_left _ hx)
    have hyi : y ∈ items :=
      span_sub_items items j iop hiop y (List.mem_append_right _ hy)
    rw [hkey]
    exact List.mem_map.mpr ⟨(x, y), List.pair_mem_product.mpr ⟨hxi, hyi⟩, rfl⟩
  have hle := (List.subperm_of_subset hKN hsub).length_le
  simpa using hle

theorem vinv_terminates (items : List Id) (better : Id → Id → Bool)
    (hnd : items.Nodup) :
    ∀ (m : Nat) (s : MergeStrategy), VInv items better s →
      ((items.product items).map
        (fun p => get_comparison_key p.1 p.2)).length + 1
        ≤ m + s.comparisons.length →
      (runN (ansOf better) m s).state.completed = true := by
  intro m
  induction m with
  | zero =>
    intro s hV hb
    exfalso
    have hlen := vinv_ledger_le items better s hV
    omega
  | succ m ih =>
    intro s hV hb
    cases hc : s.state.completed with
    | true =>
      have hnone := vinv_completed_next_none items better s hV hc
      show (runN (ansOf better) m (runStep (ansOf better) s)).state.completed
        = true
      rw [runStep_of_none _ _ hnone, runN_of_none _ _ _ hnone]
      exact hc
    | false =>
      obtain ⟨p, hp⟩ := vinv_next_some items better s hV hc
      obtain ⟨a, b⟩ := p
      have hfresh := next_comparison_asks_unknown s a b hp
      have hV' := vinv_runStep items better hnd s hV
      refine ih _ hV' ?_
      unfold runStep
      rw [hp]
      rw [compareStep_comparisons]
      simp only [itemOf_id]
      rw [Ledger.insert_length _ _ _ hfresh]
      omega

theorem vinv_final (items : List Id) (better : Id → Id → Bool)
    (hnd : items.Nodup)
    (htr : ∀ a ∈ items, ∀ b ∈ items, ∀ c ∈ items,
      better a b = true → better b c = true → better a c = true)
    (hord : ∀ a ∈ items, ∀ b ∈ items, a ≠ b → better b a = (!better a b))
    (h2 : 2 ≤ items.length)
    (s : MergeStrategy) (hV : VInv items better s)
    (hc : s.state.completed = true) :
    s.state.sorted.Perm items
    ∧ List.Pairwise (fun a b => better a b = true) s.state.sorted := by
  obtain ⟨hIt, hSI, hRC, hD, hL, hPF, hST, hKN, hLL⟩ := hV
  rcases hRC hc with hempty | ⟨lastOp, hlast, hdone, hsort⟩
  · exfalso
    obtain ⟨root, hroot, _⟩ := init_root items h2
    have hinitne : init_merge_sort items ≠ [] := by
      intro hcontra
      rw [hcontra] at hroot
      cases hroot
    have hlen0 := hD.1
    rw [hempty] at hlen0
    simp at hlen0
    exact hinitne (List.eq_nil_of_length_eq_zero hlen0.symm)
  · obtain ⟨root, hroot, hconc⟩ := init_root items h2
    have hlastidx : s.state.merge_stack[s.state.merge_stack.length - 1]?
        = some lastOp := by
      rw [← List.getLast?_eq_getElem?]
      exact hlast
    have hrootidx :
        (init_merge_sort items)[(init_merge_sort items).length - 1]?
        = some root := by
      rw [← List.getLast?_eq_getElem?]
      exact hroot
    have hidx2 :
        s.state.merge_stack[(init_merge_sort items).length - 1]?
        = some lastOp := by
      rw [← hD.1]
      exact hlastidx
    have hperm := done_result_perm items better _ hSI hD _ lastOp root
      hidx2 hrootidx hdone
    have hsorted := done_result_sorted items better hnd htr hord _ hSI hD
      _ lastOp root hidx2 hrootidx hdone
    rw [hsort]
    exact ⟨hconc ▸ hperm, hsorted⟩

theorem pairwise_perm_eq (better : Id → Id → Bool) :
    ∀ (l₁ l₂ : List Id), l₁.Perm l₂ →
      List.Pairwise (fun a b => better a b = true) l₁ →
      List.Pairwise (fun a b => better a b = true) l₂ →
      (∀ a ∈ l₁, ∀ b ∈ l₁, a ≠ b → better a b = true → better b a = true →
        False) →
      l₁ = l₂
  | [], l₂, hp, _, _, _ => (hp.symm.eq_nil).symm
  | x :: xs, l₂, hp, h₁, h₂, hasym => by
    have hx : x ∈ l₂ := hp.mem_iff.mp (by simp)
    cases l₂ with
    | nil => exact absurd hp.eq_nil (by simp)
    | cons y ys =>
      by_cases hxy : x = y
      · subst hxy
        have hp' := hp.cons_inv
        have hrec := pairwise_perm_eq better xs ys hp'
          (List.pairwise_cons.mp h₁).2 (List.pairwise_cons.mp h₂).2
          (fun a ha b hb hne hab hba =>
            hasym a (by simp [ha]) b (by simp [hb]) hne hab hba)
        rw [hrec]
      · exfalso
        have hyx : y ∈ x :: xs := hp.mem_iff.mpr (by simp)
        have hymem : y ∈ xs := by
          rcases List.mem_cons.mp hyx with h | h
          · exact absurd h.symm hxy
          · exact h
        have hxys : x ∈ ys := by
          rcases List.mem_cons.mp hx with h | h
          · exact absurd h hxy
          · exact h
        have hbxy : better x y = true := (List.pairwise_cons.mp h₁).1 y hymem
        have hbyx : better y x = true := (List.pairwise_cons.mp h₂).1 x hxys
        exact hasym x (by simp) y (by simp [hymem]) hxy hbxy hbyx

end MergeStrategy

end Rankhaus

/-! ## Small item lists: the run never moves -/

namespace Rankhaus

namespace MergeStrategy

theorem runN_small (items : List Id) (ans : Id → Id → Id)
    (h : items.length ≤ 1) (n : Nat) :
    runN ans n (new items) = new items := by
  refine runN_of_none _ _ _ ?_
  show next_comparison_aux (new items).comparisons
    (new items).state.merge_stack = none
  unfold new
  split_ifs with h₁ h₂
  · rfl
  · rfl
  · exfalso
    rw [List.isEmpty_iff] at h₁
    have : items.length ≠ 0 :=
      fun hc => h₁ (List.eq_nil_of_length_eq_zero hc)
    omega

end MergeStrategy

end Rankhaus

/-! ## Claim C1 — full functional correctness of the ranking loop -/

namespace Rankhaus

namespace MergeStrategy

/-- C1: for every duplicate-free item list and every preference relation
`better` that is transitive and strictly total on those items, repeatedly
asking `next_comparison` and answering via `compare` with the
`better`-winner reaches `is_complete`, after which `finalize` returns
`Ok` with the unique `better`-descending (best-to-worst) permutation of the
item list. -/
theorem merge_sort_full_correctness (items : List Id)
    (better : Id → Id → Bool) (hnd : items.Nodup)
    (htr : ∀ a ∈ items, ∀ b ∈ items, ∀ c ∈ items,
      better a b = true → better b c = true → better a c = true)
    (hord : ∀ a ∈ items, ∀ b ∈ items, a ≠ b → better b a = (!better a b)) :
    ∃ (n : Nat) (ord : List Id),
      is_complete (runN (ansOf better) n (new items)) = true
      ∧ (finalize (runN (ansOf better) n (new items))).1
          = Except.ok { order := some ord, ratings := none }
      ∧ ord.Perm items
      ∧ List.Pairwise (fun a b => better a b = true) ord
      ∧ ∀ ord', ord'.Perm items →
          List.Pairwise (fun a b => better a b = true) ord' → ord' = ord := by
  have hV0 := vinv_new items better
  have hcomp := vinv_terminates items better hnd
    (((items.product items).map
      (fun p => get_comparison_key p.1 p.2)).length + 1) (new items) hV0
    (by rw [new_comparisons]; omega)
  have hVN := vinv_runN items better hnd
    (((items.product items).map
      (fun p => get_comparison_key p.1 p.2)).length + 1) (new items) hV0
  have hfin : (finalize (runN (ansOf better)
      (((items.product items).map
        (fun p => get_comparison_key p.1 p.2)).length + 1) (new items))).1
      = Except.ok { order := some (runN (ansOf better)
          (((items.product items).map
            (fun p => get_comparison_key p.1 p.2)).length + 1)
          (new items)).state.sorted, ratings := none } := by
    unfold finalize
    rw [hcomp]
    rfl
  have hpp : (runN (ansOf better)
      (((items.product items).map
        (fun p => get_comparison_key p.1 p.2)).length + 1)
      (new items)).state.sorted.Perm items
      ∧ List.Pairwise (fun a b => better a b = true)
        (runN (ansOf better)
          (((items.product items).map
            (fun p => get_comparison_key p.1 p.2)).length + 1)
          (new items)).state.sorted := by
    by_cases h2 : 2 ≤ items.length
    · exact vinv_final items better hnd htr hord h2 _ hVN hcomp
    · rw [runN_small items (ansOf better) (by omega)]
      cases items with
      | nil => exact ⟨List.Perm.refl _, List.Pairwise.nil⟩
      | cons x rest =>
        cases rest with
        | nil =>
          exact ⟨List.Perm.refl _, List.pairwise_singleton _ _⟩
        | cons y t =>
          exfalso
          simp only [List.length_cons] at h2
          omega
  refine ⟨((items.product items).map
      (fun p => get_comparison_key p.1 p.2)).length + 1, _, hcomp, hfin,
    hpp.1, hpp.2, ?_⟩
  intro ord' hp' hw'
  refine pairwise_perm_eq better ord' _ (hp'.trans hpp.1.symm) hw' hpp.2 ?_
  intro a ha b hb hne hab hba
  have hai : a ∈ items := hp'.subset ha
  have hbi : b ∈ items := hp'.subset hb
  have hflip := hord a hai b hbi hne
  rw [hab] at hflip
  rw [hba] at hflip
  cases hflip

theorem merge_sort_full_correctness_witness :
    Fixture.fourIds.Nodup
    ∧ (∀ a ∈ Fixture.fourIds, ∀ b ∈ Fixture.fourIds,
        ∀ c ∈ Fixture.fourIds, Fixture.alpha a b = true →
        Fixture.alpha b c = true → Fixture.alpha a c = true)
    ∧ (∀ a ∈ Fixture.fourIds, ∀ b ∈ Fixture.fourIds, a ≠ b →
        Fixture.alpha b a = (!Fixture.alpha a b))
    ∧ ∃ (n : Nat) (ord : List Id),
        is_complete (runN (ansOf Fixture.alpha) n (new Fixture.fourIds))
          = true
        ∧ (finalize (runN (ansOf Fixture.alpha) n (new Fixture.fourIds))).1
            = Except.ok { order := some ord, ratings := none }
        ∧ ord.Perm Fixture.fourIds
        ∧ List.Pairwise (fun a b => Fixture.alpha a b = true) ord
        ∧ ∀ ord', ord'.Perm Fixture.fourIds →
            List.Pairwise (fun a b => Fixture.alpha a b = true) ord' →
            ord' = ord :=
  ⟨by decide, by decide, by decide,
    merge_sort_full_correctness Fixture.fourIds Fixture.alpha (by decide)
      (by decide) (by decide)⟩

end MergeStrategy

end Rankhaus

/-! ## Claim C6 (amended) — liveness along the supported protocol -/

namespace Rankhaus

namespace MergeStrategy

/-- C6 (amended): restricted to the supported question/answer protocol —
every state reached from `MergeStrategy::new` by repeatedly answering the
pair returned by `next_comparison` (winners chosen by any fixed answer
relation) — an incomplete engine always offers one more question.  (For
arbitrary `compare` sequences the original claim fails:
see the counterexample.) -/
theorem incomplete_run_offers_question (items : List Id)
    (better : Id → Id → Bool) (hnd : items.Nodup) (n : Nat)
    (hc : is_complete (runN (ansOf better) n (new items)) = false) :
    ∃ p, next_comparison (runN (ansOf better) n (new items)) = some p :=
  vinv_next_some items better _
    (vinv_runN items better hnd n _ (vinv_new items better)) hc

theorem incomplete_run_offers_question_witness :
    Fixture.fourIds.Nodup
    ∧ is_complete (runN (ansOf Fixture.alpha) 0 (new Fixture.fourIds))
        = false
    ∧ ∃ p, next_comparison (runN (ansOf Fixture.alpha) 0
        (new Fixture.fourIds)) = some p :=
  ⟨by decide, by decide,
    incomplete_run_offers_question Fixture.fourIds Fixture.alpha (by decide)
      0 (by decide)⟩

end MergeStrategy

end Rankhaus

/-! ## Claim C7 — canonical keys are symmetric and duplicate answers are
harmless -/

namespace Rankhaus

namespace MergeStrategy

/-- C7: `compare(a, b, w)` and `compare(b, a, w)` record under the same
canonical ledger key; and in a run driven by a consistent relation, calling
`compare` again at any point with a pair whose recorded winner is already in
the ledger (in either argument order, with that same winner) leaves the
order eventually returned by `finalize` unchanged: both the undisturbed run
and the run with the duplicate call complete to the same order. -/
theorem compare_idempotent_and_key_symmetric (items : List Id)
    (better : Id → Id → Bool) (hnd : items.Nodup)
    (htr : ∀ a ∈ items, ∀ b ∈ items, ∀ c ∈ items,
      better a b = true → better b c = true → better a c = true)
    (hord : ∀ a ∈ items, ∀ b ∈ items, a ≠ b → better b a = (!better a b))
    (n : Nat) (u v : Item) (w : Id)
    (hrec : (runN (ansOf better) n (new items)).comparisons.get
      (get_comparison_key u.id v.id) = some w.str) :
    (∀ x y : Id, get_comparison_key x y = get_comparison_key y x)
    ∧ ∃ (m m' : Nat) (ord : List Id),
        (finalize (runN (ansOf better) m
          (runN (ansOf better) n (new items)))).1
          = Except.ok { order := some ord, ratings := none }
        ∧ (finalize (runN (ansOf better) m'
            (compareStep (runN (ansOf better) n (new items)) u v w))).1
          = Except.ok { order := some ord, ratings := none } := by
  refine ⟨fun x y => get_comparison_key_comm x y, ?_⟩
  have h2 : 2 ≤ items.length := by
    by_contra hcl
    rw [runN_small items (ansOf better) (by omega) n, new_comparisons]
      at hrec
    cases hrec
  have hVs : VInv items better (runN (ansOf better) n (new items)) :=
    vinv_runN items better hnd n _ (vinv_new items better)
  have hVd : VInv items better
      (compareStep (runN (ansOf better) n (new items)) u v w) :=
    vinv_dup items better hnd _ hVs u v w hrec
  have hcomp1 := vinv_terminates items better hnd
    (((items.product items).map
      (fun p => get_comparison_key p.1 p.2)).length + 1)
    (runN (ansOf better) n (new items)) hVs (by omega)
  have hcomp2 := vinv_terminates items better hnd
    (((items.product items).map
      (fun p => get_comparison_key p.1 p.2)).length + 1)
    (compareStep (runN (ansOf better) n (new items)) u v w) hVd (by omega)
  have hV1 := vinv_runN items better hnd
    (((items.product items).map
      (fun p => get_comparison_key p.1 p.2)).length + 1)
    (runN (ansOf better) n (new items)) hVs
  have hV2 := vinv_runN items better hnd
    (((items.product items).map
      (fun p => get_comparison_key p.1 p.2)).length + 1)
    (compareStep (runN (ansOf better) n (new items)) u v w) hVd
  have hf1 := vinv_final items better hnd htr hord h2 _ hV1 hcomp1
  have hf2 := vinv_final items better hnd htr hord h2 _ hV2 hcomp2
  have heq : (runN (ansOf better)
      (((items.product items).map
        (fun p => get_comparison_key p.1 p.2)).length + 1)
      (compareStep (runN (ansOf better) n (new items)) u v w)).state.sorted
      = (runN (ansOf better)
        (((items.product items).map
          (fun p => get_comparison_key p.1 p.2)).length + 1)
        (runN (ansOf better) n (new items))).state.sorted := by
    refine pairwise_perm_eq better _ _ (hf2.1.trans hf1.1.symm) hf2.2
      hf1.2 ?_
    intro a ha b hb hne hab hba
    have hai : a ∈ items := hf2.1.subset ha
    have hbi : b ∈ items := hf2.1.subset hb
    have hflip := hord a hai b hbi hne
    rw [hab] at hflip
    rw [hba] at hflip
    cases hflip
  refine ⟨((items.product items).map
      (fun p => get_comparison_key p.1 p.2)).length + 1,
    ((items.product items).map
      (fun p => get_comparison_key p.1 p.2)).length + 1,
    (runN (ansOf better)
      (((items.product items).map
        (fun p => get_comparison_key p.1 p.2)).length + 1)
      (runN (ansOf better) n (new items))).state.sorted, ?_, ?_⟩
  · unfold finalize
    rw [hcomp1]
    rfl
  · unfold finalize
    rw [hcomp2]
    rw [heq]
    rfl

theorem compare_idempotent_and_key_symmetric_witness :
    Fixture.fourIds.Nodup
    ∧ (∀ a ∈ Fixture.fourIds, ∀ b ∈ Fixture.fourIds,
        ∀ c ∈ Fixture.fourIds, Fixture.alpha a b = true →
        Fixture.alpha b c = true → Fixture.alpha a c = true)
    ∧ (∀ a ∈ Fixture.fourIds, ∀ b ∈ Fixture.fourIds, a ≠ b →
        Fixture.alpha b a = (!Fixture.alpha a b))
    ∧ (runN (ansOf Fixture.alpha) 1 (new Fixture.fourIds)).comparisons.get
        (get_comparison_key Fixture.itA.id Fixture.itB.id)
        = some Fixture.idA.str
    ∧ ((∀ x y : Id, get_comparison_key x y = get_comparison_key y x)
      ∧ ∃ (m m' : Nat) (ord : List Id),
          (finalize (runN (ansOf Fixture.alpha) m
            (runN (ansOf Fixture.alpha) 1 (new Fixture.fourIds)))).1
            = Except.ok { order := some ord, ratings := none }
          ∧ (finalize (runN (ansOf Fixture.alpha) m'
              (compareStep (runN (ansOf Fixture.alpha) 1
                (new Fixture.fourIds)) Fixture.itA Fixture.itB
                Fixture.idA))).1
            = Except.ok { order := some ord, ratings := none }) :=
  ⟨by decide, by decide, by decide, by decide,
    compare_idempotent_and_key_symmetric Fixture.fourIds Fixture.alpha
      (by decide) (by decide) (by decide) 1 Fixture.itA Fixture.itB
      Fixture.idA (by decide)⟩

end MergeStrategy

end Rankhaus
